import Mathlib

/-!
Hash partitioning of the `ep` exchange (`exchange_partition.go`).

A shallow embedding of `Partition`, `encodePartition`, `addEndpointsToData`,
`getRowHash` and the `dataWithEndpoints` sort adapter.

* An index-out-of-range panic of the code at hand is an explicit outcome.
* The collaborators that live outside the file are explicit: the dataset
  (`Len`, `Slice`, `Swap`, string rendering), the hash ring (`Get`), the encoder
  table (`Encode`) and the standard library's `sort.Sort`.
* `sort.Sort` acts on its argument through `Len`, `Less` and `Swap` only; it enters
  `encodePartition` as the swaps it issues, and `goSort` is its embedding from
  package `sort`.
* Every call made on a collaborator is logged in the outcome, so that statements
  about what was sent, and in which order, are statements about the log.
-/

namespace Ep

/-! ## Collaborators -/

/-- A Go `error` value, told apart by where it was made: `errorf` is a value built
by `fmt.Errorf` inside this file (a fresh allocation, carrying its text), and
`external` is a value handed back by a collaborator (hash ring, encoder), carrying
that collaborator's text untouched. -/
inductive GoError where
  | errorf (msg : String)
  | external (msg : String)
  deriving DecidableEq, Repr

/-- Modelled from the spec: a row of a dataset, seen through the string forms of
its column values (the dataset type itself is not in the sources at hand). -/
structure Row where
  cells : List String
  deriving DecidableEq, Repr

/-- Modelled from the spec: the string form of column `c` of a row. Column indices
are Go `int`s; a column the row does not have renders as the empty string. -/
def Row.str (r : Row) (c : Int) : String :=
  if c < 0 then "" else r.cells.getD c.toNat ""

/-- Modelled from the spec: `Dataset`, an ordered batch of rows exposing its row
count, a sub-range view and an in-place exchange of two rows. -/
structure Dataset where
  rows : List Row
  deriving DecidableEq, Repr

/-- Exchange of the entries at `i` and `j` of a Go slice, for `i` and `j` inside the
slice. With an index outside of it Go panics; `sort.Sort`, the only caller, stays
inside, and the slice is then left as it is here. -/
def swapAt {α : Type} (l : List α) (i j : Nat) : List α :=
  match l[i]?, l[j]? with
  | some a, some b => (l.set i b).set j a
  | _, _ => l

/-- Modelled from the spec: `Dataset.Len`, the row count. -/
def Dataset.Len (d : Dataset) : Nat := d.rows.length

/-- Modelled from the spec: `Dataset.Slice(lo, hi)`, the rows at `lo ≤ i < hi`. -/
def Dataset.Slice (d : Dataset) (lo hi : Nat) : Dataset :=
  ⟨(d.rows.take hi).drop lo⟩

/-- Modelled from the spec: `Dataset.Swap(i, j)`, exchanging rows `i` and `j`. -/
def Dataset.Swap (d : Dataset) (i j : Nat) : Dataset :=
  ⟨swapAt d.rows i j⟩

/-- Modelled from the spec: `ColumnStringsPartial(data, columns)`, one array of
strings per requested column, in the order requested, each holding the string form
of that column for every row. -/
def ColumnStringsPartial (data : Dataset) (columns : List Int) : List (List String) :=
  columns.map (fun c => data.rows.map (fun r => r.str c))

/-- The hash ring as `encodePartition` uses it: its member addresses, and `Get`,
which maps a key to a member or fails with the ring's own error text. -/
structure Consistent where
  Members : List String
  Get : String → Except String String

/-- An encoder of the target table. `Encode history msg` is the result of encoding
`msg` when `history` lists the messages already encoded during the same call (on any
encoder), so that a connection may fail at any point of its life; `none` is Go's
`nil` error, `some text` the encoder's own error. -/
structure encoder where
  Encode : List Dataset → Dataset → Option String

/-- The kinds of exchange. -/
inductive exchangeType where
  | gather | sortGather | scatter | broadcast | partition
  deriving DecidableEq, Repr

/-- A sorting column: only its `Index` is set by `Partition`. -/
structure SortingCol where
  Index : Int
  deriving DecidableEq, Repr

/-- The fields of `exchange` that the partitioning code reads or writes. The map
`encsByKey` is an association list looked up by key. -/
structure exchange where
  UID : String
  «Type» : exchangeType
  SortingCols : List SortingCol
  PartitionCols : List Int
  encsByKey : List (String × encoder)
  hashRing : Consistent

/-- A value of Go's `interface{}` passed to `encodePartition`: a dataset, or
something else (a slice of ints such as `[]int{42}`, a string, `nil`, or a value of
any other dynamic type, given by the name of that type and its printed form). -/
inductive GoValue where
  | dataset (d : Dataset)
  | ints (xs : List Int)
  | str (s : String)
  | nil
  | other (typeName : String) (printed : String)
  deriving DecidableEq, Repr

/-! ## `Partition` -/

/-- Go: `Partition(columns ...int)`. The identifier `uid` is drawn at random by the
UUID library and is passed in; the encoder table and the ring are filled in later
by `init`, and start out empty. The loop copies `columns[i]` into `sortCols[i]` for
every `i` below the common length, so no index is out of range. -/
def Partition (uid : String) (columns : List Int) : exchange :=
  { UID := uid
    «Type» := exchangeType.partition
    SortingCols := (List.range columns.length).map (fun i => ⟨columns.getD i 0⟩)
    PartitionCols := columns
    encsByKey := []
    hashRing := ⟨[], fun _ => Except.error "empty circle"⟩ }

/-! ## `getRowHash` and `addEndpointsToData` -/

/-- What a piece of Go code did: returned a value, returned an error, or panicked. -/
inductive Ret (α : Type) where
  | ok (a : α)
  | err (e : GoError)
  | panic
  deriving DecidableEq, Repr

/-- Go: `getRowHash`. For `col` over the positions of `SortingCols`, appends
`stringValues[col][row]` to the builder; `none` is an index-out-of-range panic. -/
def getRowHash (ex : exchange) (stringValues : List (List String)) (row : Nat) :
    Option String :=
  (List.range ex.SortingCols.length).foldlM
    (fun sb col =>
      match stringValues[col]? with
      | none => none
      | some column =>
        match column[row]? with
        | none => none
        | some s => some (sb ++ s))
    ""

/-- Go: `dataWithEndpoints`, the dataset and the endpoint of each of its rows. -/
structure dataWithEndpoints where
  data : Dataset
  endpoints : List String
  deriving DecidableEq, Repr

/-- The loop of `addEndpointsToData` over the rows still to do. `endpoints` is the
array being filled and `lookups` the keys passed to `hashRing.Get` so far. -/
def addEndpointsLoop (ex : exchange) (stringValues : List (List String)) :
    List Nat → List String → List String → Ret (List String) × List String
  | [], endpoints, lookups => (Ret.ok endpoints, lookups)
  | row :: rows, endpoints, lookups =>
    match getRowHash ex stringValues row with
    | none => (Ret.panic, lookups)
    | some hash =>
      match ex.hashRing.Get hash with
      | Except.error e => (Ret.err (GoError.external e), lookups ++ [hash])
      | Except.ok endpoint =>
        addEndpointsLoop ex stringValues rows (endpoints.set row endpoint) (lookups ++ [hash])

/-- Go: `addEndpointsToData`. Returns the dataset with its endpoints (or the ring's
error, or a panic) together with the keys looked up in the ring, in call order. -/
def addEndpointsToData (ex : exchange) (data : Dataset) :
    Ret dataWithEndpoints × List String :=
  let dataLen := data.Len
  let stringValues := ColumnStringsPartial data ex.PartitionCols
  let endpoints := List.replicate dataLen ""
  match addEndpointsLoop ex stringValues (List.range dataLen) endpoints [] with
  | (Ret.ok endpoints, lookups) => (Ret.ok ⟨data, endpoints⟩, lookups)
  | (Ret.err e, lookups) => (Ret.err e, lookups)
  | (Ret.panic, lookups) => (Ret.panic, lookups)

/-! ## The sort adapter and `sort.Sort` -/

/-- Go: `dataWithEndpoints.Len`. -/
def dataWithEndpoints.Len (s : dataWithEndpoints) : Nat := s.endpoints.length

/-- Go's `<` on strings compares them byte by byte; on UTF-8 text that is the
lexicographic order of the code points. -/
def stringLess (a b : String) : Bool := decide (a.toList < b.toList)

/-- Go: `dataWithEndpoints.Less`, comparing the endpoints at `i` and `j` as strings
(`none` is an index-out-of-range panic). -/
def dataWithEndpoints.Less (s : dataWithEndpoints) (i j : Nat) : Option Bool :=
  match s.endpoints[i]?, s.endpoints[j]? with
  | some a, some b => some (stringLess a b)
  | _, _ => none

/-- Go: `dataWithEndpoints.Swap`, exchanging the rows and the endpoints at `i`, `j`. -/
def dataWithEndpoints.Swap (s : dataWithEndpoints) (i j : Nat) : dataWithEndpoints :=
  { data := s.data.Swap i j
    endpoints := swapAt s.endpoints i j }

/-- The standard library's `sort.Sort` reaches its argument through `Len`, `Less`
and `Swap` only, so what it does to a `dataWithEndpoints` is the sequence of `Swap`
calls it issues, and that sequence is determined by the endpoint array which answers
`Len` and `Less`. A `Sorter` is that function. -/
abbrev Sorter := List String → List (Nat × Nat)

/-- Go: `sort.Sort(dataWithEndpoints)`, the swaps of the sorter applied in order. -/
def sortSort (sorter : Sorter) (s : dataWithEndpoints) : dataWithEndpoints :=
  (sorter s.endpoints).foldl (fun acc p => acc.Swap p.1 p.2) s

/-- The contract of `sort.Sort`: it swaps inside the array only, and leaves the
array in ascending order as determined by `Less` (no later entry is `Less` than an
earlier one). -/
def SortContract (sorter : Sorter) (s : dataWithEndpoints) : Prop :=
  (∀ p ∈ sorter s.endpoints, p.1 < s.Len ∧ p.2 < s.Len) ∧
  ∀ j < (sortSort sorter s).Len, ∀ i < j, (sortSort sorter s).Less j i = some false

/-- The key hashed for the row at index `row`, as `addEndpointsToData` computes it:
`getRowHash` on the string columns of the partition columns. -/
def rowKey (ex : exchange) (data : Dataset) (row : Nat) : Option String :=
  getRowHash ex (ColumnStringsPartial data ex.PartitionCols) row

/-! ## `encodePartition` -/

/-- One `Encode` call of `encodePartition`: the bounds of the slice taken, the
destination address whose encoder was looked up, the message, and what the encoder
answered (`none` for `nil`). -/
structure Sent where
  lo : Nat
  hi : Nat
  dest : String
  payload : Dataset
  err : Option String
  deriving DecidableEq, Repr

/-- How a call ended: it returned (`nil` or an error) or it panicked. -/
inductive Status where
  | returned (err : Option GoError)
  | panicked
  deriving DecidableEq, Repr

/-- The local variables of the loop of `encodePartition`, with the log of the
`Slice` and `Encode` calls made so far. -/
structure LoopState where
  lastSeenEndpoint : String
  lastSlicedRow : Nat
  slices : List (Nat × Nat)
  encodes : List Sent
  deriving DecidableEq, Repr

/-- The part of the loop body after the `continue` test, for the row `row`: slice,
look the encoder up, encode, advance. `some status` means the function returned from
inside the body, `none` that the loop goes on. -/
def sendRun (ex : exchange) (s : dataWithEndpoints) (row : Nat) (st : LoopState) :
    Option Status × LoopState :=
  let endpoints := s.endpoints
  let toSend := s.data.Slice st.lastSlicedRow row
  let st1 := { st with slices := st.slices ++ [(st.lastSlicedRow, row)] }
  match endpoints[st.lastSlicedRow]? with
  | none => (some Status.panicked, st1)
  | some dest =>
    match ex.encsByKey.lookup dest with
    | none => (some (Status.returned (some (GoError.errorf "no matching node found"))), st1)
    | some enc =>
      let err := enc.Encode (st.encodes.map Sent.payload) toSend
      let st2 := { st1 with
        encodes := st.encodes ++ [⟨st.lastSlicedRow, row, dest, toSend, err⟩] }
      match err with
      | some e => (some (Status.returned (some (GoError.external e))), st2)
      | none =>
        let st3 := { st2 with lastSlicedRow := row }
        if row < endpoints.length then
          match endpoints[row]? with
          | none => (some Status.panicked, st3)
          | some e => (none, { st3 with lastSeenEndpoint := e })
        else (none, st3)

/-- The loop `for row := 1; row <= len(endpoints); row++` of `encodePartition`, over
the values of `row` still to come. -/
def encodeLoop (ex : exchange) (s : dataWithEndpoints) :
    List Nat → LoopState → Status × LoopState
  | [], st => (Status.returned none, st)
  | row :: rows, st =>
    let endpoints := s.endpoints
    if row ≠ endpoints.length then
      match endpoints[row]? with
      | none => (Status.panicked, st)
      | some e =>
        if e = st.lastSeenEndpoint then encodeLoop ex s rows st
        else
          match sendRun ex s row st with
          | (some status, st1) => (status, st1)
          | (none, st1) => encodeLoop ex s rows st1
    else
      match sendRun ex s row st with
      | (some status, st1) => (status, st1)
      | (none, st1) => encodeLoop ex s rows st1

/-- Everything a call of `encodePartition` did: how it ended, the argument as the
caller sees it afterwards (the dataset is permuted in place), and the calls made on
the collaborators, each kind in call order: keys given to `hashRing.Get`, `Swap`
calls, `Slice` calls, `Encode` calls. -/
structure Outcome where
  status : Status
  arg : GoValue
  lookups : List String
  swaps : List (Nat × Nat)
  slices : List (Nat × Nat)
  encodes : List Sent
  deriving DecidableEq, Repr

/-- Go: `encodePartition`. -/
def encodePartition (ex : exchange) (sorter : Sorter) (e : GoValue) : Outcome :=
  match e with
  | GoValue.dataset data =>
    match addEndpointsToData ex data with
    | (Ret.err err, lookups) => ⟨Status.returned (some err), e, lookups, [], [], []⟩
    | (Ret.panic, lookups) => ⟨Status.panicked, e, lookups, [], [], []⟩
    | (Ret.ok dwe, lookups) =>
      let swaps := sorter dwe.endpoints
      let sorted := sortSort sorter dwe
      let endpoints := sorted.endpoints
      match endpoints[0]? with
      | none => ⟨Status.panicked, GoValue.dataset sorted.data, lookups, swaps, [], []⟩
      | some lastSeenEndpoint =>
        match encodeLoop ex sorted (List.range' 1 endpoints.length)
            ⟨lastSeenEndpoint, 0, [], []⟩ with
        | (status, st) =>
          ⟨status, GoValue.dataset sorted.data, lookups, swaps, st.slices, st.encodes⟩
  | _ =>
    ⟨Status.returned (some (GoError.errorf "encodePartition called without a dataset")),
      e, [], [], [], []⟩

/-! ## A concrete sorter: insertion sort -/

/-- The inner loop of Go's `insertionSort`, which walks `j` down from `i` while
`j > 0 && Less(j, j-1)` and calls `Swap(j, j-1)`, on the endpoint array; it returns
the array and the swaps issued so far. -/
def insertionInner : Nat → List String × List (Nat × Nat) → List String × List (Nat × Nat)
  | 0, st => st
  | j + 1, (eps, swaps) =>
    match eps[j + 1]?, eps[j]? with
    | some a, some b =>
      if stringLess a b then insertionInner j (swapAt eps (j + 1) j, swaps ++ [(j + 1, j)])
      else (eps, swaps)
    | _, _ => (eps, swaps)

/-- Insertion sort by swaps of neighbours, as the `insertionSort` of Go's `sort`
package does it over the whole array, as a `Sorter`: one way for `sort.Sort` to keep
its contract. -/
def insertionSorter : Sorter := fun eps =>
  ((List.range' 1 (eps.length - 1)).foldl (fun st i => insertionInner i st) (eps, [])).2

/-! ## Go's `sort.Sort` -/

/-- What `sort.Sort` works on: the endpoint array, which answers `Len` and `Less`, and
the `Swap` calls issued so far, in call order. -/
structure SortState where
  eps : List String
  swaps : List (Nat × Nat)
  deriving DecidableEq, Repr

/-- Go: `data.Less(i, j)` as `sort.Sort` calls it, on the array as the swaps made so
far have left it. The sort stays inside the array; outside of it Go panics. -/
def SortState.Less (st : SortState) (i j : Nat) : Bool :=
  match st.eps[i]?, st.eps[j]? with
  | some a, some b => stringLess a b
  | _, _ => false

/-- Go: `data.Swap(i, j)` as `sort.Sort` calls it. -/
def SortState.Swap (st : SortState) (i j : Nat) : SortState :=
  ⟨swapAt st.eps i j, st.swaps ++ [(i, j)]⟩

/-- Go: the inner loop of `insertionSort`,
`for j := i; j > a && data.Less(j, j-1); j-- { data.Swap(j, j-1) }`, from `j` on. -/
def insertionSortInner (a : Nat) : Nat → SortState → SortState
  | 0, st => st
  | j + 1, st =>
    if a < j + 1 ∧ st.Less (j + 1) j then insertionSortInner a j (st.Swap (j + 1) j)
    else st

/-- Go: `insertionSort(data, a, b)`, the loop `for i := a + 1; i < b; i++`. -/
def insertionSort (st : SortState) (a b : Nat) : SortState :=
  (List.range' (a + 1) (b - (a + 1))).foldl (fun st i => insertionSortInner a i st) st

/-- Go: `siftDown(data, lo, hi, first)`, the loop from `root` on; the root moves down
at each turn, so that `hi` turns are enough. -/
def siftDownLoop (hi first : Nat) : Nat → Nat → SortState → SortState
  | 0, _, st => st
  | fuel + 1, root, st =>
    if 2 * root + 1 ≥ hi then st
    else
      let child :=
        if 2 * root + 1 + 1 < hi ∧ st.Less (first + (2 * root + 1)) (first + (2 * root + 1) + 1)
        then 2 * root + 1 + 1 else 2 * root + 1
      if !st.Less (first + root) (first + child) then st
      else siftDownLoop hi first fuel child (st.Swap (first + root) (first + child))

/-- Go: `siftDown(data, lo, hi, first)`. -/
def siftDown (st : SortState) (lo hi first : Nat) : SortState :=
  siftDownLoop hi first hi lo st

/-- Go: `heapSort(data, a, b)`: build the heap with `i` from `(hi - 1) / 2` down to
`0`, then pop with `i` from `hi - 1` down to `0`. -/
def heapSort (st : SortState) (a b : Nat) : SortState :=
  let first := a
  let lo := 0
  let hi := b - a
  let st := ((List.range ((hi - 1) / 2 + 1)).reverse).foldl
    (fun st i => siftDown st i hi first) st
  ((List.range hi).reverse).foldl
    (fun st i => siftDown (st.Swap first (first + i)) lo i first) st

/-- Go: the hint `choosePivot` gives to `pdqsort`. -/
inductive sortedHint where
  | unknownHint
  | increasingHint
  | decreasingHint
  deriving DecidableEq, Repr

/-- Go: `order2(data, a, b, &swaps)`; the third component is the counter `swaps`. -/
def order2 (st : SortState) (a b swaps : Nat) : Nat × Nat × Nat :=
  if st.Less b a then (b, a, swaps + 1) else (a, b, swaps)

/-- Go: `median(data, a, b, c, &swaps)`; the second component is the counter. -/
def median (st : SortState) (a b c swaps : Nat) : Nat × Nat :=
  match order2 st a b swaps with
  | (a, b, swaps) =>
    match order2 st b c swaps with
    | (b, _, swaps) =>
      match order2 st a b swaps with
      | (_, b, swaps) => (b, swaps)

/-- Go: `medianAdjacent(data, a, &swaps)`. -/
def medianAdjacent (st : SortState) (a swaps : Nat) : Nat × Nat :=
  median st (a - 1) a (a + 1) swaps

/-- Go: `choosePivot(data, a, b)`: a fixed position below 8 entries, the median of
three below 50, and Tukey's ninther from 50 on. -/
def choosePivot (st : SortState) (a b : Nat) : Nat × sortedHint :=
  let l := b - a
  let i := a + l / 4 * 1
  let j := a + l / 4 * 2
  let k := a + l / 4 * 3
  let res : Nat × Nat :=
    if l ≥ 8 then
      if l ≥ 50 then
        match medianAdjacent st i 0 with
        | (i, swaps) =>
          match medianAdjacent st j swaps with
          | (j, swaps) =>
            match medianAdjacent st k swaps with
            | (k, swaps) => median st i j k swaps
      else median st i j k 0
    else (j, 0)
  if res.2 = 0 then (res.1, sortedHint.increasingHint)
  else if res.2 = 4 * 3 then (res.1, sortedHint.decreasingHint)
  else (res.1, sortedHint.unknownHint)

/-- Go: `reverseRange(data, a, b)`, the loop `for i < j` from `i`, `j` on; the two
cursors meet within `j - i` turns. -/
def reverseRangeLoop : Nat → SortState → Nat → Nat → SortState
  | 0, st, _, _ => st
  | fuel + 1, st, i, j =>
    if i < j then reverseRangeLoop fuel (st.Swap i j) (i + 1) (j - 1) else st

/-- Go: `reverseRange(data, a, b)`. -/
def reverseRange (st : SortState) (a b : Nat) : SortState :=
  reverseRangeLoop (b - a) st a (b - 1)

/-- Go: `bits.Len(uint(n))`, the number of bits of `n`. -/
def bitsLenAux : Nat → Nat → Nat
  | 0, _ => 0
  | fuel + 1, n => if n = 0 then 0 else bitsLenAux fuel (n / 2) + 1

/-- Go: `bits.Len(uint(n))`. -/
def bitsLen (n : Nat) : Nat := bitsLenAux n n

/-- Go: `nextPowerOfTwo(length)`, which is `1 << bits.Len(uint(length))`. -/
def nextPowerOfTwo (length : Nat) : Nat := 2 ^ bitsLen length

/-- Go: `breakPatterns(data, a, b)`. Its pseudo-random numbers come from an xorshift
generator on 64 bits seeded with the length, `random.Next()` giving the next state;
that step is the argument `next` here, and nothing below depends on which function it
is. `uint(r) & (modulus - 1)` is `r % modulus`, the modulus being a power of two. -/
def breakPatterns (next : Nat → Nat) (st : SortState) (a b : Nat) : SortState :=
  let length := b - a
  if length ≥ 8 then
    let modulus := nextPowerOfTwo length
    let idx := a + (length / 4) * 2 - 1
    ((List.range 3).foldl
      (fun (acc : SortState × Nat) i =>
        let random := next acc.2
        let other := random % modulus
        let other := if other ≥ length then other - length else other
        (acc.1.Swap (idx - 1 + i) (a + other), random))
      (st, length)).1
  else st

/-- Go: the loop `for i <= j && data.Less(i, a) { i++ }` of `partition`, from `i` on;
it returns the final `i`, reached within `j + 1 - i` turns. -/
def partitionUp (st : SortState) (a j : Nat) : Nat → Nat → Nat
  | 0, i => i
  | fuel + 1, i => if i ≤ j ∧ st.Less i a then partitionUp st a j fuel (i + 1) else i

/-- Go: the loop `for i <= j && !data.Less(j, a) { j-- }` of `partition`, from `j`
on; it returns the final `j`. The cursor `i` is past `a`, hence at least 1, so that
`j` stops at 0 at the latest. -/
def partitionDown (st : SortState) (a i : Nat) : Nat → Nat
  | 0 => 0
  | j + 1 => if i ≤ j + 1 ∧ !st.Less (j + 1) a then partitionDown st a i j else j + 1

/-- Go: the loop `for { ... }` of `partition`, from `i`, `j` on; it returns the state
and the final `j`. The cursors close in at each turn, so that `j + 1 - i` turns are
enough. -/
def partitionLoop (a : Nat) : Nat → SortState → Nat → Nat → SortState × Nat
  | 0, st, _, j => (st, j)
  | fuel + 1, st, i, j =>
    let i := partitionUp st a j (j + 1) i
    let j := partitionDown st a i j
    if i > j then (st, j)
    else partitionLoop a fuel (st.Swap i j) (i + 1) (j - 1)

/-- Go: `partition(data, a, b, pivot)`; it returns the state, `newpivot` and
`alreadyPartitioned`. -/
def partition (st : SortState) (a b pivot : Nat) : SortState × Nat × Bool :=
  let st := st.Swap a pivot
  let i := partitionUp st a (b - 1) b (a + 1)
  let j := partitionDown st a i (b - 1)
  if i > j then ((st.Swap j a), j, true)
  else
    match partitionLoop a b (st.Swap i j) (i + 1) (j - 1) with
    | (st, j) => (st.Swap j a, j, false)

/-- Go: the loop `for i <= j && !data.Less(a, i) { i++ }` of `partitionEqual`, from
`i` on; it returns the final `i`, reached within `j + 1 - i` turns. -/
def partitionEqualUp (st : SortState) (a j : Nat) : Nat → Nat → Nat
  | 0, i => i
  | fuel + 1, i => if i ≤ j ∧ !st.Less a i then partitionEqualUp st a j fuel (i + 1) else i

/-- Go: the loop `for i <= j && data.Less(a, j) { j-- }` of `partitionEqual`, from
`j` on; it returns the final `j`. The cursor `i` is past `a`, hence at least 1, so
that `j` stops at 0 at the latest. -/
def partitionEqualDown (st : SortState) (a i : Nat) : Nat → Nat
  | 0 => 0
  | j + 1 => if i ≤ j + 1 ∧ st.Less a (j + 1) then partitionEqualDown st a i j else j + 1

/-- Go: the loop `for { ... }` of `partitionEqual`, from `i`, `j` on; it returns the
state and the final `i`. The cursors close in at each turn, so that `j + 1 - i` turns
are enough. -/
def partitionEqualLoop (a : Nat) : Nat → SortState → Nat → Nat → SortState × Nat
  | 0, st, i, _ => (st, i)
  | fuel + 1, st, i, j =>
    let i := partitionEqualUp st a j (j + 1) i
    let j := partitionEqualDown st a i j
    if i > j then (st, i)
    else partitionEqualLoop a fuel (st.Swap i j) (i + 1) (j - 1)

/-- Go: `partitionEqual(data, a, b, pivot)`; it returns the state and `newpivot`. -/
def partitionEqual (st : SortState) (a b pivot : Nat) : SortState × Nat :=
  partitionEqualLoop a b (st.Swap a pivot) (a + 1) (b - 1)

/-- Go: the loop `for i < b && !data.Less(i, i-1) { i++ }` of `partialInsertionSort`,
from `i` on; it returns the final `i`, reached within `b - i` turns. -/
def partialScan (st : SortState) (b : Nat) : Nat → Nat → Nat
  | 0, i => i
  | fuel + 1, i => if i < b ∧ !st.Less i (i - 1) then partialScan st b fuel (i + 1) else i

/-- Go: the loop `for j := i + 1; j < b; j++` of `partialInsertionSort`, which shifts
the greater entry to the right, from `j` on; it ends within `b - j` turns. -/
def partialShiftRight (b : Nat) : Nat → Nat → SortState → SortState
  | 0, _, st => st
  | fuel + 1, j, st =>
    if j < b then
      if !st.Less j (j - 1) then st
      else partialShiftRight b fuel (j + 1) (st.Swap j (j - 1))
    else st

/-- Go: the loop `for j := 0; j < maxSteps; j++` of `partialInsertionSort`, with the
turns still to make. The loop that shifts the smaller entry to the left,
`for j := i - 1; j >= 1; j--`, stops where the inner loop of `insertionSort` with
`a = 0` stops. -/
def partialInsertionSortLoop (a b : Nat) : Nat → SortState → Nat → SortState × Bool
  | 0, st, _ => (st, false)
  | steps + 1, st, i =>
    let i := partialScan st b b i
    if i = b then (st, true)
    else if b - a < 50 then (st, false)
    else
      let st := st.Swap i (i - 1)
      let st := if i - a ≥ 2 then insertionSortInner 0 (i - 1) st else st
      let st := if b - i ≥ 2 then partialShiftRight b b (i + 1) st else st
      partialInsertionSortLoop a b steps st i

/-- Go: `partialInsertionSort(data, a, b)`, with `maxSteps = 5`. -/
def partialInsertionSort (st : SortState) (a b : Nat) : SortState × Bool :=
  partialInsertionSortLoop a b 5 st (a + 1)

/-- Go: the part of a turn of the loop of `pdqsort` that comes after the tests on the
length and on the limit and before the partitioning: `breakPatterns` after an
unbalanced partition, `choosePivot`, `reverseRange` on a decreasing hint, and
`partialInsertionSort` when the range is likely sorted. It returns the state, the
pivot, and whether `partialInsertionSort` found the range sorted, in which case
`pdqsort` returns. -/
def pdqsortChoose (next : Nat → Nat) (st : SortState) (a b : Nat)
    (wasBalanced wasPartitioned : Bool) : SortState × Nat × Bool :=
  let st1 := if !wasBalanced then breakPatterns next st a b else st
  let chosen := choosePivot st1 a b
  let st2 := if chosen.2 = sortedHint.decreasingHint then reverseRange st1 a b else st1
  let pivot :=
    if chosen.2 = sortedHint.decreasingHint then (b - 1) - (chosen.1 - a) else chosen.1
  let hint :=
    if chosen.2 = sortedHint.decreasingHint then sortedHint.increasingHint else chosen.2
  if wasBalanced && wasPartitioned && hint = sortedHint.increasingHint then
    ((partialInsertionSort st2 a b).1, pivot, (partialInsertionSort st2 a b).2)
  else (st2, pivot, false)

/-- Go: `pdqsort(data, a, b, limit)`, one turn of its loop `for { ... }` with the
local variables `wasBalanced` and `wasPartitioned`; a recursive call starts with both
true. Each turn and each recursive call is on a shorter range, so that `b - a + 1`
turns are enough. -/
def pdqsort (next : Nat → Nat) :
    Nat → SortState → Nat → Nat → Nat → Bool → Bool → SortState
  | 0, st, _, _, _, _, _ => st
  | fuel + 1, st, a, b, limit, wasBalanced, wasPartitioned =>
    if b - a ≤ 12 then insertionSort st a b
    else if limit = 0 then heapSort st a b
    else
      let limit := if !wasBalanced then limit - 1 else limit
      let chosen := pdqsortChoose next st a b wasBalanced wasPartitioned
      if chosen.2.2 then chosen.1
      else if a > 0 ∧ !chosen.1.Less (a - 1) chosen.2.1 then
        let eq := partitionEqual chosen.1 a b chosen.2.1
        pdqsort next fuel eq.1 eq.2 b limit wasBalanced wasPartitioned
      else
        let part := partition chosen.1 a b chosen.2.1
        let mid := part.2.1
        if mid - a < b - mid then
          pdqsort next fuel (pdqsort next fuel part.1 a mid limit true true) (mid + 1) b limit
            (decide (mid - a ≥ (b - a) / 8)) part.2.2
        else
          pdqsort next fuel (pdqsort next fuel part.1 (mid + 1) b limit true true) a mid limit
            (decide (b - mid ≥ (b - a) / 8)) part.2.2

/-- Go: `sort.Sort(data)` (`Sort` of package `sort`: pattern-defeating quicksort, as
of Go 1.19), as a `Sorter`: the `Swap` calls it issues on an endpoint array. -/
def goSort (next : Nat → Nat) : Sorter := fun eps =>
  let n := eps.length
  if n ≤ 1 then []
  else (pdqsort next (n + 1) ⟨eps, []⟩ 0 n (bitsLen n) true true).swaps

/-- In Go's string order, `a` does not come after `b`. -/
def notAfter (a b : String) : Prop := stringLess b a = false

/-! ## Topology resolver -/

/-- Modelled from the spec: `getTargetPeers(allNodes, master, thisNode)`, which is
not in the sources at hand. It returns the nodes this node opens outbound
connections to, and the rest of the node list. Gather and ordered gather: every
node, the master included, targets the master only. Scatter and broadcast: the
master targets every node, the other nodes target nobody. Partition: every node
targets every node. -/
def getTargetPeers (ex : exchange) (allNodes : List String) (masterNode thisNode : String) :
    List String × List String :=
  match ex.«Type» with
  | exchangeType.gather => allNodes.partition (fun n => n == masterNode)
  | exchangeType.sortGather => allNodes.partition (fun n => n == masterNode)
  | exchangeType.scatter => if thisNode = masterNode then (allNodes, []) else ([], allNodes)
  | exchangeType.broadcast => if thisNode = masterNode then (allNodes, []) else ([], allNodes)
  | exchangeType.partition => (allNodes, [])

/-- Modelled from the spec: `getSourcePeers(allNodes, isMaster)`, which is not in the
sources at hand. It returns the nodes this node accepts inbound connections from, and
the rest of the node list. Gather and ordered gather: the master sources from every
node, the other nodes from nobody. Scatter and broadcast: every node sources from
the master only. Partition: every node sources from every node. The address of the
master, which the spec lists among the inputs of the resolver and the rule for
scatter and broadcast needs, is an argument here. -/
def getSourcePeers (ex : exchange) (allNodes : List String) (masterNode : String)
    (isMaster : Bool) : List String × List String :=
  match ex.«Type» with
  | exchangeType.gather => if isMaster then (allNodes, []) else ([], allNodes)
  | exchangeType.sortGather => if isMaster then (allNodes, []) else ([], allNodes)
  | exchangeType.scatter => allNodes.partition (fun n => n == masterNode)
  | exchangeType.broadcast => allNodes.partition (fun n => n == masterNode)
  | exchangeType.partition => (allNodes, [])

/-! ## Pipeline composer -/

/-- Modelled from the spec: a pipeline stage as the composer sees it. An exchange
(with its identifier and kind), the shared pass-through instance, a sequence of
stages, a fused chain of stages, or any other stage, named, with its answer to
whether it has the synchronous one-dataset-in, one-dataset-out capability. -/
inductive Runner where
  | exchange (uid : String) (kind : exchangeType)
  | passThrough
  | pipeline (stages : List Runner)
  | compose (cmps : List Runner)
  | other (name : String) (fusible : Bool)

/-- Go's type test `r.(pipeline)`. -/
def Runner.isPipeline : Runner → Bool
  | Runner.pipeline _ => true
  | _ => false

/-- Whether a stage is the pass-through instance. -/
def Runner.isPassThrough : Runner → Bool
  | Runner.passThrough => true
  | _ => false

/-- Modelled from the spec: whether a stage supports the synchronous capability
rather than needing its own concurrent read and write loop. An exchange runs such
loops; a sequence is run stage by stage, each with its own loop. -/
def Runner.fusible : Runner → Bool
  | Runner.exchange _ _ => false
  | Runner.passThrough => true
  | Runner.pipeline _ => false
  | Runner.compose _ => true
  | Runner.other _ f => f

/-- Modelled from the spec: a nested sequence is inlined, its elements spliced into
the parent; every other stage is kept as a single unit. -/
def spliceStages : List Runner → List Runner
  | [] => []
  | Runner.pipeline stages :: rest => stages ++ spliceStages rest
  | r :: rest => r :: spliceStages rest

/-- Modelled from the spec: `Pipeline(runners...)`, which is not in the sources at
hand. Nested sequences are inlined and pass-through stages elided. No stage left:
the shared pass-through instance. One stage left: that stage itself. Otherwise, the
fused chain of the stages if each supports the synchronous capability, and else the
sequence of the stages. -/
def Pipeline (runners : List Runner) : Runner :=
  match (spliceStages runners).filter (fun r => !r.isPassThrough) with
  | [] => Runner.passThrough
  | [r] => r
  | flat => if flat.all Runner.fusible then Runner.compose flat else Runner.pipeline flat

/-- The result the composer gives for stages that cannot be fused: the pass-through
instance for none, the stage itself for one, and else the sequence of the stages. -/
def sequenceOf : List Runner → Runner
  | [] => Runner.passThrough
  | [r] => r
  | r :: r' :: rest => Runner.pipeline (r :: r' :: rest)

/-- The arguments of a call of `Pipeline` on exchange stages, pass-through stages and
nested calls of `Pipeline` of the same kind, to any depth: no argument, or a first
argument (an exchange, the pass-through instance, or a nested call with its own
arguments) followed by the remaining arguments. -/
inductive PipelineArgs where
  | done
  | exchange (uid : String) (kind : exchangeType) (rest : PipelineArgs)
  | passThrough (rest : PipelineArgs)
  | nested (inner : PipelineArgs) (rest : PipelineArgs)

/-- The stages a list of arguments denotes, each nested call being made. -/
def PipelineArgs.eval : PipelineArgs → List Runner
  | PipelineArgs.done => []
  | PipelineArgs.exchange uid kind rest => Runner.exchange uid kind :: rest.eval
  | PipelineArgs.passThrough rest => Runner.passThrough :: rest.eval
  | PipelineArgs.nested inner rest => Pipeline inner.eval :: rest.eval

/-- The leaf stages of a list of arguments that are not pass-through, in order. -/
def PipelineArgs.leaves : PipelineArgs → List Runner
  | PipelineArgs.done => []
  | PipelineArgs.exchange uid kind rest => Runner.exchange uid kind :: rest.leaves
  | PipelineArgs.passThrough rest => rest.leaves
  | PipelineArgs.nested inner rest => inner.leaves ++ rest.leaves

/-! ## A small cluster, for concrete runs -/

/-- An encoder over a connection that works. -/
def okEncoder : encoder := ⟨fun _ _ => none⟩

/-- An encoder over a connection that is broken. -/
def brokenEncoder : encoder := ⟨fun _ _ => some "broken pipe"⟩

/-- A ring over three nodes, with a fixed assignment of keys to nodes. -/
def demoRing : Consistent :=
  ⟨[":5551", ":5552", ":5553"], fun key =>
    if key = "ann" ∨ key = "eve" then Except.ok ":5553"
    else if key = "bob" ∨ key = "dan" then Except.ok ":5552"
    else Except.ok ":5551"⟩

/-- A partition exchange on column 0, set up over the three nodes. -/
def demoExchange : exchange :=
  { Partition "uid-1" [0] with
    encsByKey := [(":5551", okEncoder), (":5552", okEncoder), (":5553", okEncoder)]
    hashRing := demoRing }

/-- The demo exchange with a ring that fails on one key. -/
def flakyExchange : exchange :=
  { demoExchange with
    hashRing := ⟨[":5551", ":5552"], fun key =>
      if key = "cid" then Except.error "empty circle" else Except.ok ":5551"⟩ }

/-- The demo exchange with a broken connection to the second node. -/
def brokenExchange : exchange :=
  { demoExchange with
    encsByKey := [(":5551", okEncoder), (":5552", brokenEncoder), (":5553", okEncoder)] }

/-- The demo exchange with no encoder for the third node. -/
def lackingExchange : exchange :=
  { demoExchange with
    encsByKey := [(":5551", okEncoder), (":5552", okEncoder)] }

/-- Five rows of two columns. -/
def demoData : Dataset :=
  ⟨[⟨["ann", "1"]⟩, ⟨["bob", "2"]⟩, ⟨["cid", "3"]⟩, ⟨["dan", "4"]⟩, ⟨["eve", "5"]⟩]⟩

/-- Thirteen rows of two columns: eleven for the second node of the demo ring, then
two for its first node. -/
def tiedData : Dataset :=
  ⟨[⟨["bob", "1"]⟩, ⟨["bob", "2"]⟩, ⟨["bob", "3"]⟩, ⟨["bob", "4"]⟩, ⟨["bob", "5"]⟩,
    ⟨["bob", "6"]⟩, ⟨["bob", "7"]⟩, ⟨["bob", "8"]⟩, ⟨["bob", "9"]⟩, ⟨["bob", "10"]⟩,
    ⟨["bob", "11"]⟩, ⟨["cid", "12"]⟩, ⟨["cid", "13"]⟩]⟩

/-! ## Vocabulary for the log of a call -/

/-- The key of a row as the specification words it: the string forms of the
configured partition columns, concatenated in column order. -/
def specKey (columns : List Int) (r : Row) : String :=
  String.join (columns.map (fun c => r.str c))

/-- Every ring lookup of a call on `data` succeeds: the key of each row is computed
and `hashRing.Get` returns a member for it. -/
def RingResolves (ex : exchange) (data : Dataset) : Prop :=
  ∀ i, i < data.Len → ∃ key d, rowKey ex data i = some key ∧
    ex.hashRing.Get key = Except.ok d

/-- The range `[lo, hi)` is a maximal run of equal endpoints: it is not empty, lies
inside the array, holds one and the same endpoint, and is followed by a different
endpoint unless it ends the array. -/
def IsRun (eps : List String) (lo hi : Nat) : Prop :=
  lo < hi ∧ hi ≤ eps.length ∧ (∀ j, lo ≤ j → j < hi → eps[j]? = eps[lo]?) ∧
    (hi < eps.length → eps[hi]? ≠ eps[lo]?)

/-- The ranges `ps` are maximal runs that follow one another: the first starts at
`a`, each next one starts where the one before ends, and the last ends at `b`. -/
def RunChain (eps : List String) : Nat → List (Nat × Nat) → Nat → Prop
  | a, [], b => a = b
  | a, p :: ps, b => p.1 = a ∧ IsRun eps p.1 p.2 ∧ RunChain eps p.2 ps b

/-- The logged call `m` is the `Encode` call the loop makes for the range `p` once
the messages `history` have been encoded: the message is the slice of the sorted
dataset over `p`, the destination is the endpoint at the start of `p`, that
destination has an encoder, and the logged answer is that encoder's. -/
def SentFor (ex : exchange) (s : dataWithEndpoints) (history : List Dataset)
    (p : Nat × Nat) (m : Sent) : Prop :=
  m.lo = p.1 ∧ m.hi = p.2 ∧ s.endpoints[p.1]? = some m.dest ∧
    m.payload = s.data.Slice p.1 p.2 ∧
    ∃ enc, ex.encsByKey.lookup m.dest = some enc ∧ m.err = enc.Encode history m.payload

/-- The logged calls `encodes` are, one for one and in order, the `Encode` calls for
the ranges `slices`. -/
def Sends (ex : exchange) (s : dataWithEndpoints) (slices : List (Nat × Nat))
    (encodes : List Sent) : Prop :=
  encodes.length = slices.length ∧
    ∀ i p m, slices[i]? = some p → encodes[i]? = some m →
      SentFor ex s ((encodes.take i).map Sent.payload) p m

/-- What holds of the loop of `encodePartition` when the iteration for `row` starts
(or, for `row` one past the length, when the loop is over). -/
def LoopInv (ex : exchange) (s : dataWithEndpoints) (row : Nat) (st : LoopState) : Prop :=
  RunChain s.endpoints 0 st.slices st.lastSlicedRow ∧
  Sends ex s st.slices st.encodes ∧ (∀ m ∈ st.encodes, m.err = none) ∧
  ((st.lastSlicedRow < row ∧ row ≤ s.endpoints.length ∧
      ∀ j, st.lastSlicedRow ≤ j → j < row → s.endpoints[j]? = some st.lastSeenEndpoint) ∨
    (row = s.endpoints.length + 1 ∧ st.lastSlicedRow = s.endpoints.length))

/-- The three ways the loop of `encodePartition` can end, with what the log then
looks like: all runs encoded; a run without an encoder, sliced but not encoded; an
`Encode` call that failed, which is the last one. -/
def LoopPost (ex : exchange) (s : dataWithEndpoints) (status : Status)
    (slices : List (Nat × Nat)) (encodes : List Sent) : Prop :=
  ∃ b, RunChain s.endpoints 0 slices b ∧
    ((status = Status.returned none ∧ b = s.endpoints.length ∧ Sends ex s slices encodes ∧
        ∀ m ∈ encodes, m.err = none) ∨
     (status = Status.returned (some (GoError.errorf "no matching node found")) ∧
        ∃ ps lo hi d, slices = ps ++ [(lo, hi)] ∧ Sends ex s ps encodes ∧
          (∀ m ∈ encodes, m.err = none) ∧ s.endpoints[lo]? = some d ∧
          ex.encsByKey.lookup d = none) ∨
     (∃ e ms m, status = Status.returned (some (GoError.external e)) ∧
        encodes = ms ++ [m] ∧ m.err = some e ∧ (∀ m' ∈ ms, m'.err = none) ∧
        Sends ex s slices encodes))

/-- The loop of `encodePartition` reaches a run without encoder, as read off the
sorted array and the encoder table alone: the maximal runs of the endpoint array,
taken from its start, are the runs `ps` followed by the run `[lo, hi)`; the endpoint
of each run of `ps` has an entry in `encsByKey`, whose encoder answers `nil` to the
slice over that run once the slices over the runs before it have been encoded; and
the endpoint of `[lo, hi)` has no entry in `encsByKey`. -/
def ReachesMissing (ex : exchange) (s : dataWithEndpoints) (ps : List (Nat × Nat))
    (lo hi : Nat) : Prop :=
  RunChain s.endpoints 0 (ps ++ [(lo, hi)]) hi ∧
  (∃ d, s.endpoints[lo]? = some d ∧ ex.encsByKey.lookup d = none) ∧
  ∀ (i : Nat) (p : Nat × Nat), ps[i]? = some p →
    ∃ d enc, s.endpoints[p.1]? = some d ∧ ex.encsByKey.lookup d = some enc ∧
      enc.Encode ((ps.take i).map (fun q => s.data.Slice q.1 q.2)) (s.data.Slice p.1 p.2) = none

/-! ## Vocabulary for the sort -/

/-- The entry at index `k` of the array of a sort state, as the list of characters
that `Less` compares (the empty list outside the array). -/
def SortState.key (st : SortState) (k : Nat) : List Char := (st.eps.getD k "").toList

/-- The entries at `a ≤ k < b` are in ascending order. -/
def SortedOn (st : SortState) (a b : Nat) : Prop :=
  ∀ i j, a ≤ i → i ≤ j → j < b → st.key i ≤ st.key j

/-- The state `st'` is reached from `st` by `Swap` calls on indices in `[a, b)`. -/
def Within (a b : Nat) (st st' : SortState) : Prop :=
  ∃ ws : List (Nat × Nat), (∀ p ∈ ws, a ≤ p.1 ∧ p.1 < b ∧ a ≤ p.2 ∧ p.2 < b) ∧
    st'.swaps = st.swaps ++ ws ∧ st'.eps = ws.foldl (fun l p => swapAt l p.1 p.2) st.eps

/-- What holds of the two cursors of `partition` when a turn of its loop starts: the
pivot is at `a`, the entries before `i` are less than it, and those after `j` are not. -/
def PartitionInv (st : SortState) (a b i j : Nat) : Prop :=
  a < i ∧ i ≤ j + 1 ∧ j < b ∧ b ≤ st.eps.length ∧
    (∀ k, a < k → k < i → st.key k < st.key a) ∧ (∀ k, j < k → k < b → st.key a ≤ st.key k)

/-- What holds of the two cursors of `partitionEqual` when a turn of its loop starts:
the pivot is at `a`, the entries before `i` are not greater than it, and those after
`j` are. -/
def PartitionEqualInv (st : SortState) (a b i j : Nat) : Prop :=
  a < i ∧ i ≤ j + 1 ∧ j < b ∧ b ≤ st.eps.length ∧
    (∀ k, a < k → k < i → st.key k ≤ st.key a) ∧ (∀ k, j < k → k < b → st.key a < st.key k)

/-- The heap property of `heapSort` on the nodes `lo ≤ i` of the heap that starts at
index `first` and has `hi` nodes: a node is not less than its children `2i + 1` and
`2i + 2`. -/
def HeapFrom (st : SortState) (first lo hi : Nat) : Prop :=
  ∀ i c, lo ≤ i → (c = 2 * i + 1 ∨ c = 2 * i + 2) → c < hi →
    st.key (first + c) ≤ st.key (first + i)

/-- The entry before the range `[a, b)`, if there is one, is not greater than any
entry of the range. -/
def AboveFloor (st : SortState) (a b : Nat) : Prop :=
  0 < a → ∀ k, a ≤ k → k < b → st.key (a - 1) ≤ st.key k

/-! ## Facts about `swapAt` and the sort step -/

theorem length_swapAt {α : Type} (l : List α) (i j : Nat) :
    (swapAt l i j).length = l.length := by
  unfold swapAt
  split <;> simp

theorem swapAt_perm {α : Type} (l : List α) (i j : Nat) : (swapAt l i j).Perm l := by
  classical
  unfold swapAt
  split
  · rename_i a b hi hj
    obtain ⟨hi', rfl⟩ := List.getElem?_eq_some.mp hi
    obtain ⟨hj', rfl⟩ := List.getElem?_eq_some.mp hj
    rw [List.perm_iff_count]
    intro x
    have hj2 : j < (l.set i l[j]).length := by simpa using hj'
    have hmid : (l.set i l[j])[j] = l[j] := by
      rw [List.getElem_set]
      split
      · rfl
      · rfl
    rw [List.count_set _ _ _ _ hj2, List.count_set _ _ _ _ hi', hmid]
    have hpos : l[i] = x → 0 < l.count x := fun e =>
      List.count_pos_iff.mpr (e ▸ List.getElem_mem hi')
    by_cases h1 : l[i] = x <;> by_cases h2 : l[j] = x <;> simp [h1, h2] <;>
      have := hpos h1 <;> omega
  · exact List.Perm.refl _

theorem zip_set_set {α β : Type} (l₁ : List α) (l₂ : List β) (i : Nat) (a : α) (b : β) :
    (l₁.set i a).zip (l₂.set i b) = (l₁.zip l₂).set i (a, b) := by
  induction l₁ generalizing l₂ i with
  | nil => simp
  | cons x xs ih =>
    cases l₂ with
    | nil => simp
    | cons y ys =>
      cases i with
      | zero => simp
      | succ k => simp [ih]

theorem zip_swapAt {α β : Type} (l₁ : List α) (l₂ : List β) (h : l₁.length = l₂.length)
    (i j : Nat) : (swapAt l₁ i j).zip (swapAt l₂ i j) = swapAt (l₁.zip l₂) i j := by
  by_cases hi : i < l₁.length
  · by_cases hj : j < l₁.length
    · have hi2 : i < l₂.length := h ▸ hi
      have hj2 : j < l₂.length := h ▸ hj
      have hiz : i < (l₁.zip l₂).length := by simp; omega
      have hjz : j < (l₁.zip l₂).length := by simp; omega
      simp only [swapAt, List.getElem?_eq_getElem hi, List.getElem?_eq_getElem hj,
        List.getElem?_eq_getElem hi2, List.getElem?_eq_getElem hj2,
        List.getElem?_eq_getElem hiz, List.getElem?_eq_getElem hjz, zip_set_set,
        List.getElem_zip]
    · have hj2 : ¬ j < l₂.length := h ▸ hj
      have hjz : ¬ j < (l₁.zip l₂).length := by simp; omega
      have e1 : l₁[j]? = none := List.getElem?_eq_none (by omega)
      have e2 : l₂[j]? = none := List.getElem?_eq_none (by omega)
      have e3 : (l₁.zip l₂)[j]? = none := List.getElem?_eq_none (by omega)
      simp only [swapAt, e1, e2, e3]
      split <;> split <;> split <;> simp_all
  · have hi2 : ¬ i < l₂.length := h ▸ hi
    have hiz : ¬ i < (l₁.zip l₂).length := by simp; omega
    have e1 : l₁[i]? = none := List.getElem?_eq_none (by omega)
    have e2 : l₂[i]? = none := List.getElem?_eq_none (by omega)
    have e3 : (l₁.zip l₂)[i]? = none := List.getElem?_eq_none (by omega)
    simp only [swapAt, e1, e2, e3]

/-- Any property kept by one `Swap` is kept by a whole sequence of swaps. -/
theorem foldl_Swap_induction (P : dataWithEndpoints → Prop)
    (hstep : ∀ s i j, P s → P (s.Swap i j)) (l : List (Nat × Nat)) (s : dataWithEndpoints)
    (h : P s) : P (l.foldl (fun acc p => acc.Swap p.1 p.2) s) := by
  induction l generalizing s with
  | nil => exact h
  | cons p ps ih => exact ih _ (hstep s p.1 p.2 h)

theorem sortSort_rows_perm (sorter : Sorter) (s : dataWithEndpoints) :
    (sortSort sorter s).data.rows.Perm s.data.rows :=
  foldl_Swap_induction (fun t => t.data.rows.Perm s.data.rows)
    (fun t i j h => (swapAt_perm t.data.rows i j).trans h) _ s (List.Perm.refl _)

theorem sortSort_endpoints_perm (sorter : Sorter) (s : dataWithEndpoints) :
    (sortSort sorter s).endpoints.Perm s.endpoints :=
  foldl_Swap_induction (fun t => t.endpoints.Perm s.endpoints)
    (fun t i j h => (swapAt_perm t.endpoints i j).trans h) _ s (List.Perm.refl _)

theorem sortSort_zip_perm (sorter : Sorter) (s : dataWithEndpoints)
    (hlen : s.data.rows.length = s.endpoints.length) :
    ((sortSort sorter s).data.rows.zip (sortSort sorter s).endpoints).Perm
      (s.data.rows.zip s.endpoints) := by
  have key := foldl_Swap_induction
    (fun t => t.data.rows.length = t.endpoints.length ∧
      (t.data.rows.zip t.endpoints).Perm (s.data.rows.zip s.endpoints))
    (fun t i j h => by
      refine ⟨?_, ?_⟩
      · simp [dataWithEndpoints.Swap, Dataset.Swap, length_swapAt, h.1]
      · show ((swapAt t.data.rows i j).zip (swapAt t.endpoints i j)).Perm _
        rw [zip_swapAt _ _ h.1]
        exact (swapAt_perm _ i j).trans h.2)
    (sorter s.endpoints) s ⟨hlen, List.Perm.refl _⟩
  exact key.2

/-! ## Facts about `getRowHash` and `addEndpointsToData` -/

theorem String_join_snoc (l : List String) (x : String) :
    String.join (l ++ [x]) = String.join l ++ x := by
  simp [String.join, List.foldl_append]

/-- The builder of `getRowHash` after the first `k` columns, on the string columns
of a dataset. -/
theorem getRowHash_fold (data : Dataset) (cols : List Int) (row : Nat)
    (hrow : row < data.rows.length) (k : Nat) (hk : k ≤ cols.length) :
    (List.range k).foldlM
      (fun (sb : String) col =>
        match (ColumnStringsPartial data cols)[col]? with
        | none => none
        | some column =>
          match column[row]? with
          | none => none
          | some x => some (sb ++ x))
      "" = some (String.join ((cols.take k).map (fun c => (data.rows[row]).str c))) := by
  induction k with
  | zero => simp [String.join]
  | succ k ih =>
    have hk' : k < cols.length := by omega
    rw [List.range_succ, List.foldlM_append, ih (by omega)]
    have h1 : (ColumnStringsPartial data cols)[k]? =
        some (data.rows.map (fun r => r.str cols[k])) := by
      simp [ColumnStringsPartial, List.getElem?_eq_getElem hk']
    simp only [Option.bind_eq_bind, Option.some_bind, List.foldlM_cons, List.foldlM_nil, h1]
    have h2 : (data.rows.map (fun r => r.str cols[k]))[row]? =
        some ((data.rows[row]).str cols[k]) := by
      simp [List.getElem?_eq_getElem hrow]
    simp only [h2]
    have h3 : List.take (k + 1) cols = List.take k cols ++ [cols[k]] := by
      rw [List.take_succ, List.getElem?_eq_getElem hk']
      rfl
    rw [h3, List.map_append, List.map_singleton, String_join_snoc]
    rfl

theorem rowKey_eq (ex : exchange) (data : Dataset) (row : Nat) (hrow : row < data.rows.length)
    (hk : ex.SortingCols.length ≤ ex.PartitionCols.length) :
    rowKey ex data row = some (String.join
      ((ex.PartitionCols.take ex.SortingCols.length).map (fun c => (data.rows[row]).str c))) :=
  getRowHash_fold data ex.PartitionCols row hrow ex.SortingCols.length hk

/-- When the loop of `addEndpointsToData` ends normally, it has kept the length of
the array and the entries below its first row, and has put at each of its rows the
member the ring returned for the key of that row. -/
theorem addEndpointsLoop_ok (ex : exchange) (sv : List (List String)) :
    ∀ (m k : Nat) (eps lk eps' : List String),
      (addEndpointsLoop ex sv (List.range' k m) eps lk).1 = Ret.ok eps' →
      eps'.length = eps.length ∧ (∀ i, i < k → eps'[i]? = eps[i]?) ∧
      ∀ i, k ≤ i → i < k + m → ∃ key d, getRowHash ex sv i = some key ∧
        ex.hashRing.Get key = Except.ok d ∧ (i < eps.length → eps'[i]? = some d) := by
  intro m
  induction m with
  | zero =>
    intro k eps lk eps' h
    simp only [List.range'_zero, addEndpointsLoop, Ret.ok.injEq] at h
    subst h
    exact ⟨rfl, fun _ _ => rfl, fun i h1 h2 => by omega⟩
  | succ m ih =>
    intro k eps lk eps' h
    rw [List.range'_succ] at h
    unfold addEndpointsLoop at h
    cases hg : getRowHash ex sv k with
    | none => simp [hg] at h
    | some hash =>
      cases hr : ex.hashRing.Get hash with
      | error e => simp [hg, hr] at h
      | ok d =>
        simp only [hg, hr] at h
        obtain ⟨hlen, hlow, hrows⟩ := ih (k + 1) _ _ _ h
        refine ⟨by simpa using hlen, ?_, ?_⟩
        · intro i hi
          rw [hlow i (by omega), List.getElem?_set_ne (by omega)]
        · intro i h1 h2
          by_cases hik : i = k
          · subst hik
            refine ⟨hash, d, hg, hr, fun hlt => ?_⟩
            rw [hlow i (by omega), List.getElem?_set_self hlt]
          · obtain ⟨key, d', e1, e2, e3⟩ := hrows i (by omega) (by omega)
            exact ⟨key, d', e1, e2, fun hlt => e3 (by simpa using hlt)⟩

/-- The loop of `addEndpointsToData` stops at the first row whose lookup fails and
returns the error of the ring. -/
theorem addEndpointsLoop_fail (ex : exchange) (sv : List (List String)) (r : Nat)
    (key msg : String) (hkey : getRowHash ex sv r = some key)
    (hget : ex.hashRing.Get key = Except.error msg) :
    ∀ (m k : Nat) (eps lk : List String), k ≤ r → r < k + m →
      (∀ i, k ≤ i → i < r → ∃ key' d, getRowHash ex sv i = some key' ∧
        ex.hashRing.Get key' = Except.ok d) →
      (addEndpointsLoop ex sv (List.range' k m) eps lk).1 = Ret.err (GoError.external msg) := by
  intro m
  induction m with
  | zero => intro k eps lk h1 h2; omega
  | succ m ih =>
    intro k eps lk h1 h2 hfirst
    rw [List.range'_succ]
    unfold addEndpointsLoop
    by_cases hkr : k = r
    · subst hkr
      simp [hkey, hget]
    · obtain ⟨key', d, e1, e2⟩ := hfirst k (Nat.le_refl k) (by omega)
      simp only [e1, e2]
      exact ih (k + 1) _ _ (by omega) (by omega) (fun i hi1 hi2 => hfirst i (by omega) hi2)

/-- When the key of every row is computed and every lookup succeeds, the loop of
`addEndpointsToData` ends normally. -/
theorem addEndpointsLoop_total (ex : exchange) (sv : List (List String)) :
    ∀ (m k : Nat) (eps lk : List String),
      (∀ i, k ≤ i → i < k + m → ∃ key d, getRowHash ex sv i = some key ∧
        ex.hashRing.Get key = Except.ok d) →
      ∃ eps', (addEndpointsLoop ex sv (List.range' k m) eps lk).1 = Ret.ok eps' := by
  intro m
  induction m with
  | zero => intro k eps lk _; exact ⟨eps, rfl⟩
  | succ m ih =>
    intro k eps lk hall
    rw [List.range'_succ]
    unfold addEndpointsLoop
    obtain ⟨key, d, e1, e2⟩ := hall k (Nat.le_refl k) (by omega)
    simp only [e1, e2]
    exact ih (k + 1) _ _ (fun i hi1 hi2 => hall i (by omega) (by omega))

theorem addEndpointsToData_fst (ex : exchange) (data : Dataset) :
    (addEndpointsToData ex data).1 =
      match (addEndpointsLoop ex (ColumnStringsPartial data ex.PartitionCols)
        (List.range' 0 data.Len) (List.replicate data.Len "") []).1 with
      | Ret.ok endpoints => Ret.ok ⟨data, endpoints⟩
      | Ret.err e => Ret.err e
      | Ret.panic => Ret.panic := by
  unfold addEndpointsToData
  simp only [List.range_eq_range']
  split <;> simp_all

/-- What `addEndpointsToData` returns when it returns normally: the dataset itself,
with one endpoint per row, the member the ring returned for the key of that row. -/
theorem addEndpointsToData_ok (ex : exchange) (data : Dataset) (dwe : dataWithEndpoints)
    (h : (addEndpointsToData ex data).1 = Ret.ok dwe) :
    dwe.data = data ∧ dwe.endpoints.length = data.Len ∧
    ∀ i, i < data.Len → ∃ key d, rowKey ex data i = some key ∧
      ex.hashRing.Get key = Except.ok d ∧ dwe.endpoints[i]? = some d := by
  rw [addEndpointsToData_fst] at h
  split at h
  · rename_i endpoints heq
    obtain ⟨hlen, _, hrows⟩ := addEndpointsLoop_ok ex _ _ _ _ _ _ heq
    simp only [Ret.ok.injEq] at h
    subst h
    refine ⟨rfl, by simpa using hlen, fun i hi => ?_⟩
    obtain ⟨key, d, e1, e2, e3⟩ := hrows i (Nat.zero_le i) (by omega)
    exact ⟨key, d, e1, e2, e3 (by simpa using hi)⟩
  · simp at h
  · simp at h

theorem addEndpointsToData_total (ex : exchange) (data : Dataset)
    (hall : ∀ i, i < data.Len → ∃ key d, rowKey ex data i = some key ∧
      ex.hashRing.Get key = Except.ok d) :
    ∃ dwe, (addEndpointsToData ex data).1 = Ret.ok dwe := by
  obtain ⟨eps', h⟩ := addEndpointsLoop_total ex (ColumnStringsPartial data ex.PartitionCols)
    data.Len 0 (List.replicate data.Len "") [] (fun i _ hi => hall i (by omega))
  exact ⟨⟨data, eps'⟩, by rw [addEndpointsToData_fst, h]⟩

theorem addEndpointsToData_fail (ex : exchange) (data : Dataset) (r : Nat) (key msg : String)
    (hr : r < data.Len) (hkey : rowKey ex data r = some key)
    (hget : ex.hashRing.Get key = Except.error msg)
    (hfirst : ∀ i, i < r → ∃ key' d, rowKey ex data i = some key' ∧
      ex.hashRing.Get key' = Except.ok d) :
    (addEndpointsToData ex data).1 = Ret.err (GoError.external msg) := by
  have h := addEndpointsLoop_fail ex (ColumnStringsPartial data ex.PartitionCols) r key msg
    hkey hget data.Len 0 (List.replicate data.Len "") [] (Nat.zero_le r) (by omega)
    (fun i _ hi => hfirst i hi)
  rw [addEndpointsToData_fst, h]

/-! ## The loop of `encodePartition` -/

theorem RunChain_snoc (eps : List String) (ps : List (Nat × Nat)) (a b c : Nat)
    (h : RunChain eps a ps b) (hrun : IsRun eps b c) : RunChain eps a (ps ++ [(b, c)]) c := by
  induction ps generalizing a with
  | nil =>
    simp only [RunChain] at h
    subst h
    exact ⟨rfl, hrun, rfl⟩
  | cons p ps ih =>
    obtain ⟨h1, h2, h3⟩ := h
    exact ⟨h1, h2, ih _ h3⟩

theorem Sends_nil (ex : exchange) (s : dataWithEndpoints) : Sends ex s [] [] :=
  ⟨rfl, fun i p m h => by simp at h⟩

theorem Sends_snoc (ex : exchange) (s : dataWithEndpoints) (ps : List (Nat × Nat))
    (ms : List Sent) (p : Nat × Nat) (m : Sent) (h : Sends ex s ps ms)
    (hm : SentFor ex s (ms.map Sent.payload) p m) : Sends ex s (ps ++ [p]) (ms ++ [m]) := by
  obtain ⟨hlen, hall⟩ := h
  refine ⟨by simp [hlen], fun i q m' hq hm' => ?_⟩
  by_cases hi : i < ms.length
  · rw [List.getElem?_append_left hi] at hm'
    rw [List.getElem?_append_left (hlen ▸ hi)] at hq
    have := hall i q m' hq hm'
    rwa [List.take_append_of_le_length (Nat.le_of_lt hi)]
  · have hi' : i = ms.length := by
      have := (List.getElem?_eq_some.mp hm').1
      simp at this
      omega
    subst hi'
    rw [List.getElem?_append_right (Nat.le_refl _)] at hm'
    rw [List.getElem?_append_right (by omega)] at hq
    simp only [Nat.sub_self, List.getElem?_cons_zero, Option.some.injEq, hlen] at hm' hq
    subst hm' hq
    rw [List.take_append_of_le_length (Nat.le_refl _), List.take_length]
    exact hm

theorem sendRun_noEncoder (ex : exchange) (s : dataWithEndpoints) (row : Nat)
    (st : LoopState) (dest : String) (ha : s.endpoints[st.lastSlicedRow]? = some dest)
    (hl : ex.encsByKey.lookup dest = none) :
    sendRun ex s row st =
      (some (Status.returned (some (GoError.errorf "no matching node found"))),
        { st with slices := st.slices ++ [(st.lastSlicedRow, row)] }) := by
  unfold sendRun
  simp only [ha, hl]

theorem sendRun_encodeError (ex : exchange) (s : dataWithEndpoints) (row : Nat)
    (st : LoopState) (dest : String) (enc : encoder) (e : String)
    (ha : s.endpoints[st.lastSlicedRow]? = some dest)
    (hl : ex.encsByKey.lookup dest = some enc)
    (he : enc.Encode (st.encodes.map Sent.payload) (s.data.Slice st.lastSlicedRow row) = some e) :
    sendRun ex s row st =
      (some (Status.returned (some (GoError.external e))),
        { st with
          slices := st.slices ++ [(st.lastSlicedRow, row)]
          encodes := st.encodes ++
            [⟨st.lastSlicedRow, row, dest, s.data.Slice st.lastSlicedRow row, some e⟩] }) := by
  unfold sendRun
  simp only [ha, hl, he]

theorem sendRun_next (ex : exchange) (s : dataWithEndpoints) (row : Nat)
    (st : LoopState) (dest : String) (enc : encoder) (e : String)
    (ha : s.endpoints[st.lastSlicedRow]? = some dest)
    (hl : ex.encsByKey.lookup dest = some enc)
    (he : enc.Encode (st.encodes.map Sent.payload) (s.data.Slice st.lastSlicedRow row) = none)
    (hrow : s.endpoints[row]? = some e) :
    sendRun ex s row st =
      (none,
        { lastSeenEndpoint := e
          lastSlicedRow := row
          slices := st.slices ++ [(st.lastSlicedRow, row)]
          encodes := st.encodes ++
            [⟨st.lastSlicedRow, row, dest, s.data.Slice st.lastSlicedRow row, none⟩] }) := by
  have hlt : row < s.endpoints.length := (List.getElem?_eq_some.mp hrow).1
  unfold sendRun
  simp only [ha, hl, he, hlt, if_true, hrow]

theorem sendRun_last (ex : exchange) (s : dataWithEndpoints) (row : Nat)
    (st : LoopState) (dest : String) (enc : encoder)
    (ha : s.endpoints[st.lastSlicedRow]? = some dest)
    (hl : ex.encsByKey.lookup dest = some enc)
    (he : enc.Encode (st.encodes.map Sent.payload) (s.data.Slice st.lastSlicedRow row) = none)
    (hrow : ¬ row < s.endpoints.length) :
    sendRun ex s row st =
      (none,
        { lastSeenEndpoint := st.lastSeenEndpoint
          lastSlicedRow := row
          slices := st.slices ++ [(st.lastSlicedRow, row)]
          encodes := st.encodes ++
            [⟨st.lastSlicedRow, row, dest, s.data.Slice st.lastSlicedRow row, none⟩] }) := by
  unfold sendRun
  simp only [ha, hl, he, hrow, if_false]

/-- One pass through the sending part of the loop body: either the function returns
from inside the body, and the log is one of the three final shapes, or the loop goes
on and the invariant holds for the next row. -/
theorem sendRun_spec (ex : exchange) (s : dataWithEndpoints) (row : Nat) (st : LoopState)
    (hchain : RunChain s.endpoints 0 st.slices st.lastSlicedRow)
    (hsends : Sends ex s st.slices st.encodes) (herr : ∀ m ∈ st.encodes, m.err = none)
    (h1 : st.lastSlicedRow < row) (h2 : row ≤ s.endpoints.length)
    (huni : ∀ j, st.lastSlicedRow ≤ j → j < row → s.endpoints[j]? = some st.lastSeenEndpoint)
    (hmax : row < s.endpoints.length → s.endpoints[row]? ≠ some st.lastSeenEndpoint) :
    (∀ status st1, sendRun ex s row st = (some status, st1) →
      LoopPost ex s status st1.slices st1.encodes) ∧
    (∀ st1, sendRun ex s row st = (none, st1) → LoopInv ex s (row + 1) st1) := by
  have ha : s.endpoints[st.lastSlicedRow]? = some st.lastSeenEndpoint :=
    huni _ (Nat.le_refl _) h1
  have hrun : IsRun s.endpoints st.lastSlicedRow row :=
    ⟨h1, h2, fun j hj1 hj2 => by rw [huni j hj1 hj2, ha], fun hlt => by rw [ha]; exact hmax hlt⟩
  have hchain' := RunChain_snoc _ _ _ _ _ hchain hrun
  cases hl : ex.encsByKey.lookup st.lastSeenEndpoint with
  | none =>
    rw [sendRun_noEncoder ex s row st _ ha hl]
    refine ⟨fun status st1 h => ?_, fun st1 h => by simp at h⟩
    simp only [Prod.mk.injEq, Option.some.injEq] at h
    obtain ⟨e1, e2⟩ := h
    subst e1 e2
    exact ⟨row, hchain', Or.inr (Or.inl ⟨rfl, st.slices, st.lastSlicedRow, row,
      st.lastSeenEndpoint, rfl, hsends, herr, ha, hl⟩)⟩
  | some enc =>
    have hsent : ∀ err, enc.Encode (st.encodes.map Sent.payload)
        (s.data.Slice st.lastSlicedRow row) = err →
        Sends ex s (st.slices ++ [(st.lastSlicedRow, row)])
          (st.encodes ++ [⟨st.lastSlicedRow, row, st.lastSeenEndpoint,
            s.data.Slice st.lastSlicedRow row, err⟩]) := fun err herr' =>
      Sends_snoc ex s _ _ _ _ hsends ⟨rfl, rfl, ha, rfl, enc, hl, herr'.symm⟩
    cases he : enc.Encode (st.encodes.map Sent.payload) (s.data.Slice st.lastSlicedRow row) with
    | some e =>
      rw [sendRun_encodeError ex s row st _ enc e ha hl he]
      refine ⟨fun status st1 h => ?_, fun st1 h => by simp at h⟩
      simp only [Prod.mk.injEq, Option.some.injEq] at h
      obtain ⟨e1, e2⟩ := h
      subst e1 e2
      exact ⟨row, hchain', Or.inr (Or.inr ⟨e, st.encodes, _, rfl, rfl, rfl, herr, hsent _ he⟩)⟩
    | none =>
      have herr2 : ∀ m ∈ st.encodes ++ [(⟨st.lastSlicedRow, row, st.lastSeenEndpoint,
          s.data.Slice st.lastSlicedRow row, none⟩ : Sent)], m.err = none := by
        intro m hm
        rcases List.mem_append.mp hm with h | h
        · exact herr m h
        · simp only [List.mem_singleton] at h
          subst h
          rfl
      by_cases hlt : row < s.endpoints.length
      · obtain ⟨e, hrow⟩ : ∃ e, s.endpoints[row]? = some e :=
          ⟨_, List.getElem?_eq_getElem hlt⟩
        rw [sendRun_next ex s row st _ enc e ha hl he hrow]
        refine ⟨fun status st1 h => by simp at h, fun st1 h => ?_⟩
        simp only [Prod.mk.injEq, true_and] at h
        subst h
        refine ⟨hchain', hsent _ he, herr2, Or.inl ⟨Nat.lt_succ_self _, hlt, fun j hj1 hj2 => ?_⟩⟩
        have : j = row := by
          simp only at hj1
          omega
        subst this
        exact hrow
      · rw [sendRun_last ex s row st _ enc ha hl he hlt]
        refine ⟨fun status st1 h => by simp at h, fun st1 h => ?_⟩
        simp only [Prod.mk.injEq, true_and] at h
        subst h
        refine ⟨hchain', hsent _ he, herr2, Or.inr ⟨?_, ?_⟩⟩
        · omega
        · simp only
          omega

theorem encodeLoop_cons (ex : exchange) (s : dataWithEndpoints) (row : Nat)
    (rows : List Nat) (st : LoopState) :
    encodeLoop ex s (row :: rows) st =
      if row ≠ s.endpoints.length then
        match s.endpoints[row]? with
        | none => (Status.panicked, st)
        | some e =>
          if e = st.lastSeenEndpoint then encodeLoop ex s rows st
          else
            match sendRun ex s row st with
            | (some status, st1) => (status, st1)
            | (none, st1) => encodeLoop ex s rows st1
      else
        match sendRun ex s row st with
        | (some status, st1) => (status, st1)
        | (none, st1) => encodeLoop ex s rows st1 := by
  rw [encodeLoop]

/-- The loop of `encodePartition`, started under its invariant with exactly the rows
up to the length of the array still to come, ends in one of the three final shapes
(in particular it does not panic). -/
theorem encodeLoop_spec (ex : exchange) (s : dataWithEndpoints) :
    ∀ (m row : Nat) (st : LoopState), row + m = s.endpoints.length + 1 →
      LoopInv ex s row st →
      LoopPost ex s (encodeLoop ex s (List.range' row m) st).1
        (encodeLoop ex s (List.range' row m) st).2.slices
        (encodeLoop ex s (List.range' row m) st).2.encodes := by
  intro m
  induction m with
  | zero =>
    intro row st hrow hinv
    obtain ⟨hchain, hsends, herr, hpos⟩ := hinv
    rcases hpos with ⟨_, h, _⟩ | ⟨_, h⟩
    · omega
    · simp only [List.range'_zero, encodeLoop]
      exact ⟨st.lastSlicedRow, hchain, Or.inl ⟨rfl, h, hsends, herr⟩⟩
  | succ m ih =>
    intro row st hrow hinv
    obtain ⟨hchain, hsends, herr, hpos⟩ := hinv
    rcases hpos with ⟨h1, h2, huni⟩ | ⟨h, _⟩
    swap
    · omega
    have hsend : ∀ (hmax : row < s.endpoints.length →
        s.endpoints[row]? ≠ some st.lastSeenEndpoint),
        LoopPost ex s
          (match sendRun ex s row st with
            | (some status, st1) => (status, st1)
            | (none, st1) => encodeLoop ex s (List.range' (row + 1) m) st1).1
          (match sendRun ex s row st with
            | (some status, st1) => (status, st1)
            | (none, st1) => encodeLoop ex s (List.range' (row + 1) m) st1).2.slices
          (match sendRun ex s row st with
            | (some status, st1) => (status, st1)
            | (none, st1) => encodeLoop ex s (List.range' (row + 1) m) st1).2.encodes := by
      intro hmax
      obtain ⟨hA, hB⟩ := sendRun_spec ex s row st hchain hsends herr h1 h2 huni hmax
      rcases hsr : sendRun ex s row st with ⟨_ | status, st1⟩
      · exact ih (row + 1) st1 (by omega) (hB st1 hsr)
      · exact hA status st1 hsr
    rw [List.range'_succ, encodeLoop_cons]
    by_cases hrn : row = s.endpoints.length
    · simp only [hrn, ne_eq, not_true_eq_false, if_false]
      rw [hrn] at hsend
      exact hsend (fun h => absurd h (Nat.lt_irrefl _))
    · have hlt : row < s.endpoints.length := by omega
      simp only [ne_eq, hrn, not_false_eq_true, if_true, List.getElem?_eq_getElem hlt]
      by_cases he : s.endpoints[row] = st.lastSeenEndpoint
      · simp only [he, if_true]
        refine ih (row + 1) st (by omega) ⟨hchain, hsends, herr, Or.inl ⟨by omega, hlt, ?_⟩⟩
        intro j hj1 hj2
        by_cases hjr : j = row
        · subst hjr
          rw [List.getElem?_eq_getElem hlt, he]
        · exact huni j hj1 (by omega)
      · simp only [he, if_false]
        exact hsend (fun _ => by
          rw [List.getElem?_eq_getElem hlt]
          simpa using he)

/-! ## `encodePartition` as a whole -/

theorem sortSort_endpoints_length (sorter : Sorter) (s : dataWithEndpoints) :
    (sortSort sorter s).endpoints.length = s.endpoints.length :=
  (sortSort_endpoints_perm sorter s).length_eq

theorem sortSort_rows_length (sorter : Sorter) (s : dataWithEndpoints) :
    (sortSort sorter s).data.rows.length = s.data.rows.length :=
  (sortSort_rows_perm sorter s).length_eq

/-- A call on something that is not a dataset. -/
theorem encodePartition_notDataset (ex : exchange) (sorter : Sorter) (e : GoValue)
    (h : ∀ d, e ≠ GoValue.dataset d) :
    encodePartition ex sorter e =
      ⟨Status.returned (some (GoError.errorf "encodePartition called without a dataset")),
        e, [], [], [], []⟩ := by
  cases e with
  | dataset d => exact absurd rfl (h d)
  | ints xs => rfl
  | str x => rfl
  | nil => rfl
  | other t v => rfl

/-- A call on a dataset for which `addEndpointsToData` returns an error. -/
theorem encodePartition_ringError (ex : exchange) (sorter : Sorter) (data : Dataset)
    (err : GoError) (h : (addEndpointsToData ex data).1 = Ret.err err) :
    encodePartition ex sorter (GoValue.dataset data) =
      ⟨Status.returned (some err), GoValue.dataset data, (addEndpointsToData ex data).2,
        [], [], []⟩ := by
  rcases hq : addEndpointsToData ex data with ⟨r, lk⟩
  rw [hq] at h
  simp only at h
  subst h
  simp only [encodePartition, hq]

/-- A call on a dataset of at least one row for which `addEndpointsToData` returns
normally: the dataset is left as `sort.Sort` permuted it, the swaps are those of the
sorter, and the loop ends in one of its three final shapes. -/
theorem encodePartition_sorted (ex : exchange) (sorter : Sorter) (data : Dataset)
    (dwe : dataWithEndpoints) (h : (addEndpointsToData ex data).1 = Ret.ok dwe)
    (hn : 1 ≤ data.Len) :
    (encodePartition ex sorter (GoValue.dataset data)).arg =
        GoValue.dataset (sortSort sorter dwe).data ∧
      (encodePartition ex sorter (GoValue.dataset data)).swaps = sorter dwe.endpoints ∧
      LoopPost ex (sortSort sorter dwe)
        (encodePartition ex sorter (GoValue.dataset data)).status
        (encodePartition ex sorter (GoValue.dataset data)).slices
        (encodePartition ex sorter (GoValue.dataset data)).encodes := by
  have hlen : (sortSort sorter dwe).endpoints.length = data.Len := by
    rw [sortSort_endpoints_length]
    exact (addEndpointsToData_ok ex data dwe h).2.1
  have hpos : 0 < (sortSort sorter dwe).endpoints.length := by omega
  rcases hq : addEndpointsToData ex data with ⟨r, lk⟩
  rw [hq] at h
  simp only at h
  subst h
  simp only [encodePartition, hq, List.getElem?_eq_getElem hpos, true_and]
  exact encodeLoop_spec ex (sortSort sorter dwe) _ 1 _ (by omega)
    ⟨rfl, Sends_nil ex _, fun m hm => by simp at hm,
      Or.inl ⟨Nat.zero_lt_one, hpos, fun j _ hj2 => by
        have : j = 0 := by omega
        subst this
        exact List.getElem?_eq_getElem hpos⟩⟩

/-! ## Reading the log -/

theorem RunChain_isRun (eps : List String) (ps : List (Nat × Nat)) (a b : Nat)
    (h : RunChain eps a ps b) : ∀ p ∈ ps, IsRun eps p.1 p.2 := by
  induction ps generalizing a with
  | nil => intro p hp; simp at hp
  | cons q qs ih =>
    obtain ⟨_, h2, h3⟩ := h
    intro p hp
    rcases List.mem_cons.mp hp with rfl | hp
    · exact h2
    · exact ih _ h3 p hp

/-- In every final shape of the log the `Encode` calls are those of an initial part
of the ranges sliced, and every range sliced is a maximal run. -/
theorem LoopPost_sends (ex : exchange) (s : dataWithEndpoints) (status : Status)
    (slices : List (Nat × Nat)) (encodes : List Sent)
    (h : LoopPost ex s status slices encodes) :
    (∃ ps rest, slices = ps ++ rest ∧ Sends ex s ps encodes) ∧
      ∀ p ∈ slices, IsRun s.endpoints p.1 p.2 := by
  obtain ⟨b, hchain, hcases⟩ := h
  refine ⟨?_, RunChain_isRun _ _ _ _ hchain⟩
  rcases hcases with ⟨_, _, hs, _⟩ | ⟨_, ps, lo, hi, d, hsl, hs, _⟩ | ⟨e, ms, m, _, _, _, _, hs⟩
  · exact ⟨slices, [], by simp, hs⟩
  · exact ⟨ps, [(lo, hi)], hsl, hs⟩
  · exact ⟨slices, [], by simp, hs⟩

/-- Each logged `Encode` call carries the slice of the sorted dataset over a maximal
run of equal endpoints, to the encoder found under the endpoint of that run. -/
theorem LoopPost_message (ex : exchange) (s : dataWithEndpoints) (status : Status)
    (slices : List (Nat × Nat)) (encodes : List Sent)
    (h : LoopPost ex s status slices encodes) (m : Sent) (hm : m ∈ encodes) :
    IsRun s.endpoints m.lo m.hi ∧ (m.lo, m.hi) ∈ slices ∧
      s.endpoints[m.lo]? = some m.dest ∧ m.payload = s.data.Slice m.lo m.hi ∧
      ∃ enc i, ex.encsByKey.lookup m.dest = some enc ∧ encodes[i]? = some m ∧
        m.err = enc.Encode ((encodes.take i).map Sent.payload) m.payload := by
  obtain ⟨⟨ps, rest, hsl, hlen, hall⟩, hruns⟩ := LoopPost_sends ex s status slices encodes h
  obtain ⟨i, hi⟩ := List.getElem?_of_mem hm
  have hilt : i < ps.length := hlen ▸ (List.getElem?_eq_some.mp hi).1
  have hp : ps[i]? = some ps[i] := List.getElem?_eq_getElem hilt
  obtain ⟨e1, e2, e3, e4, enc, e5, e6⟩ := hall i _ m hp hi
  have hmem : (m.lo, m.hi) ∈ slices := by
    rw [hsl, e1, e2]
    exact List.mem_append_left _ (List.getElem_mem hilt)
  refine ⟨hruns _ hmem, hmem, ?_, ?_, enc, i, e5, hi, e6⟩
  · rw [e1]; exact e3
  · rw [e1, e2]; exact e4

theorem mem_Slice (d : Dataset) (lo hi : Nat) (r : Row) (h : r ∈ (d.Slice lo hi).rows) :
    ∃ j, lo ≤ j ∧ j < hi ∧ d.rows[j]? = some r := by
  obtain ⟨i, hi'⟩ := List.getElem?_of_mem h
  simp only [Dataset.Slice, List.getElem?_drop, List.getElem?_take] at hi'
  split at hi'
  · exact ⟨lo + i, by omega, by assumption, hi'⟩
  · simp at hi'

/-- After the sort step the endpoint at each position is the one the ring returned
for the key of the row now at that position, which is one of the original rows. -/
theorem sortSort_aligned (ex : exchange) (sorter : Sorter) (data : Dataset)
    (dwe : dataWithEndpoints) (h : (addEndpointsToData ex data).1 = Ret.ok dwe)
    (i : Nat) (r : Row) (d : String) (hr : (sortSort sorter dwe).data.rows[i]? = some r)
    (hd : (sortSort sorter dwe).endpoints[i]? = some d) :
    ∃ k key, data.rows[k]? = some r ∧ rowKey ex data k = some key ∧
      ex.hashRing.Get key = Except.ok d := by
  obtain ⟨hdata, hlen, hrows⟩ := addEndpointsToData_ok ex data dwe h
  have hzip := sortSort_zip_perm sorter dwe (by rw [hdata, hlen]; rfl)
  have hmem : (r, d) ∈ (sortSort sorter dwe).data.rows.zip (sortSort sorter dwe).endpoints :=
    List.getElem?_mem (List.getElem?_zip_eq_some.mpr ⟨hr, hd⟩)
  obtain ⟨k, hk⟩ := List.getElem?_of_mem (hzip.subset hmem)
  obtain ⟨hk1, hk2⟩ := List.getElem?_zip_eq_some.mp hk
  simp only at hk1 hk2
  rw [hdata] at hk1
  have hklt : k < data.Len := (List.getElem?_eq_some.mp hk1).1
  obtain ⟨key, d', e1, e2, e3⟩ := hrows k hklt
  rw [hk2, Option.some.injEq] at e3
  subst e3
  exact ⟨k, key, hk1, e1, e2⟩

theorem encodePartition_ringPanic (ex : exchange) (sorter : Sorter) (data : Dataset)
    (h : (addEndpointsToData ex data).1 = Ret.panic) :
    encodePartition ex sorter (GoValue.dataset data) =
      ⟨Status.panicked, GoValue.dataset data, (addEndpointsToData ex data).2, [], [], []⟩ := by
  rcases hq : addEndpointsToData ex data with ⟨r, lk⟩
  rw [hq] at h
  simp only at h
  subst h
  simp only [encodePartition, hq]

/-- A call that does not end in a panic or in an error of `addEndpointsToData` went
through `addEndpointsToData` normally. -/
theorem addEndpointsToData_of_status (ex : exchange) (sorter : Sorter) (data : Dataset)
    (h : (encodePartition ex sorter (GoValue.dataset data)).status ≠ Status.panicked)
    (h' : ∀ e, (addEndpointsToData ex data).1 = Ret.err e →
      (encodePartition ex sorter (GoValue.dataset data)).status ≠ Status.returned (some e)) :
    ∃ dwe, (addEndpointsToData ex data).1 = Ret.ok dwe := by
  cases hq : (addEndpointsToData ex data).1 with
  | ok dwe => exact ⟨dwe, rfl⟩
  | err e =>
    exfalso
    apply h' e hq
    rw [encodePartition_ringError ex sorter data e hq]
  | panic =>
    exfalso
    apply h
    rw [encodePartition_ringPanic ex sorter data hq]

theorem addEndpointsToData_of_nil (ex : exchange) (sorter : Sorter) (data : Dataset)
    (h : (encodePartition ex sorter (GoValue.dataset data)).status = Status.returned none) :
    ∃ dwe, (addEndpointsToData ex data).1 = Ret.ok dwe :=
  addEndpointsToData_of_status ex sorter data (by rw [h]; simp)
    (fun e _ => by rw [h]; simp)

/-- The ranges and the messages of the `Encode` calls are those of the ranges sliced. -/
theorem Sends_ranges (ex : exchange) (s : dataWithEndpoints) (ps : List (Nat × Nat))
    (ms : List Sent) (h : Sends ex s ps ms) :
    ms.map (fun m => (m.lo, m.hi)) = ps ∧
      ms.map Sent.payload = ps.map (fun p => s.data.Slice p.1 p.2) ∧
      ms.map (fun m => some m.dest) = ps.map (fun p => s.endpoints[p.1]?) := by
  obtain ⟨hlen, hall⟩ := h
  have key : ∀ i, (i < ms.length → ∃ p m, ps[i]? = some p ∧ ms[i]? = some m ∧
      SentFor ex s ((ms.take i).map Sent.payload) p m) ∧
      (¬ i < ms.length → ps[i]? = none ∧ ms[i]? = none) := by
    intro i
    refine ⟨fun hi => ?_, fun hi => ?_⟩
    · have h1 : ms[i]? = some ms[i] := List.getElem?_eq_getElem hi
      have h2 : ps[i]? = some ps[i] := List.getElem?_eq_getElem (hlen ▸ hi)
      exact ⟨_, _, h2, h1, hall i _ _ h2 h1⟩
    · exact ⟨List.getElem?_eq_none (by omega), List.getElem?_eq_none (by omega)⟩
  refine ⟨?_, ?_, ?_⟩ <;>
  · apply List.ext_getElem?
    intro i
    simp only [List.getElem?_map]
    by_cases hi : i < ms.length
    · obtain ⟨p, m, e1, e2, h1, h2, h3, h4, _⟩ := (key i).1 hi
      simp [e1, e2, h1, h2, h3, h4]
    · obtain ⟨e1, e2⟩ := (key i).2 hi
      simp [e1, e2]

/-- The ranges of a chain are cut at strictly increasing bounds, from its start to
its end. -/
theorem RunChain_bounds (eps : List String) (ps : List (Nat × Nat)) (a b : Nat)
    (h : RunChain eps a ps b) :
    ps = List.zip (a :: ps.map Prod.snd) (ps.map Prod.snd) ∧
      List.Chain (· < ·) a (ps.map Prod.snd) ∧
      (a :: ps.map Prod.snd).getLast? = some b ∧ a ≤ b ∧ (ps ≠ [] → b ≤ eps.length) := by
  induction ps generalizing a with
  | nil =>
    simp only [RunChain] at h
    subst h
    simp
  | cons p ps ih =>
    obtain ⟨h1, h2, h3⟩ := h
    obtain ⟨e1, e2, e3, e4, e5⟩ := ih _ h3
    obtain ⟨pl, pr⟩ := p
    simp only at h1 h2 h3 e1 e2 e3 e4 e5
    subst h1
    refine ⟨?_, ?_, ?_, ?_, ?_⟩
    · simp only [List.map_cons, List.zip_cons_cons, List.cons.injEq, true_and]
      exact e1
    · exact List.Chain.cons h2.1 e2
    · simpa using e3
    · have := h2.1
      omega
    · intro _
      cases ps with
      | nil =>
        simp only [RunChain] at h3
        subst h3
        exact h2.2.1
      | cons q qs => exact e5 (by simp)

theorem take_drop_glue {α : Type} (l : List α) (a h b : Nat) (hah : a ≤ h) (hhb : h ≤ b)
    (hb : b ≤ l.length) :
    (l.take h).drop a ++ (l.take b).drop h = (l.take b).drop a := by
  have e : l.take h = (l.take b).take h := by
    rw [List.take_take, Nat.min_eq_left hhb]
  rw [e, ← List.drop_append_of_le_length (by simp; omega), List.take_append_drop]

/-- Laid end to end, the slices over the ranges of a chain are the rows between its
start and its end. -/
theorem RunChain_flatten {α : Type} (eps : List String) (rows : List α)
    (hlen : rows.length = eps.length) (ps : List (Nat × Nat)) (a b : Nat)
    (h : RunChain eps a ps b) (hb : b ≤ eps.length) :
    (ps.map (fun p => (rows.take p.2).drop p.1)).flatten = (rows.take b).drop a := by
  induction ps generalizing a with
  | nil =>
    simp only [RunChain] at h
    subst h
    simp
  | cons p ps ih =>
    obtain ⟨h1, h2, h3⟩ := h
    subst h1
    have hb' := (RunChain_bounds _ _ _ _ h3).2.2.2.1
    rw [List.map_cons, List.flatten_cons, ih _ h3]
    exact take_drop_glue rows p.1 p.2 b (Nat.le_of_lt h2.1) hb' (by omega)

/-- Every position between the start and the end of a chain lies in one of its
ranges. -/
theorem RunChain_cover (eps : List String) (ps : List (Nat × Nat)) (a b : Nat)
    (h : RunChain eps a ps b) (j : Nat) (h1 : a ≤ j) (h2 : j < b) :
    ∃ p ∈ ps, p.1 ≤ j ∧ j < p.2 := by
  induction ps generalizing a with
  | nil =>
    simp only [RunChain] at h
    omega
  | cons p ps ih =>
    obtain ⟨e1, e2, e3⟩ := h
    by_cases hj : j < p.2
    · exact ⟨p, List.mem_cons_self _ _, by omega, hj⟩
    · obtain ⟨q, hq, hq1, hq2⟩ := ih _ e3 (by omega)
      exact ⟨q, List.mem_cons_of_mem _ hq, hq1, hq2⟩

/-- The log of a loop that returned `nil`. -/
theorem LoopPost_nil (ex : exchange) (s : dataWithEndpoints) (slices : List (Nat × Nat))
    (encodes : List Sent) (h : LoopPost ex s (Status.returned none) slices encodes) :
    RunChain s.endpoints 0 slices s.endpoints.length ∧ Sends ex s slices encodes ∧
      ∀ m ∈ encodes, m.err = none := by
  obtain ⟨b, hchain, hcases⟩ := h
  rcases hcases with ⟨_, hb, hs, herr⟩ | ⟨hst, _⟩ | ⟨e, ms, m, hst, _⟩
  · subst hb
    exact ⟨hchain, hs, herr⟩
  · simp at hst
  · simp at hst

/-- Later ranges of a chain start at or after the end of earlier ones. -/
theorem RunChain_pairwise (eps : List String) (ps : List (Nat × Nat)) (a b : Nat)
    (h : RunChain eps a ps b) :
    List.Pairwise (fun p q => p.2 ≤ q.1) ps ∧ ∀ p ∈ ps, a ≤ p.1 := by
  induction ps generalizing a with
  | nil => simp
  | cons p ps ih =>
    obtain ⟨e1, e2, e3⟩ := h
    obtain ⟨ih1, ih2⟩ := ih _ e3
    refine ⟨List.Pairwise.cons ih2 ih1, fun q hq => ?_⟩
    rcases List.mem_cons.mp hq with rfl | hq
    · omega
    · have := ih2 q hq
      have := e2.1
      omega

theorem stringLess_of_le_of_ne_of_le (a b c : String) (h1 : stringLess b a = false)
    (hne : a ≠ b) (h2 : stringLess c b = false) : stringLess a c = true := by
  simp only [stringLess, decide_eq_false_iff_not, not_lt, decide_eq_true_eq] at *
  have hne' : a.toList ≠ b.toList := fun h => hne (String.ext h)
  exact lt_of_lt_of_le (lt_of_le_of_ne h1 hne') h2

theorem stringLess_irrefl (a : String) : stringLess a a = false := by
  simp [stringLess]

/-- What the contract of `sort.Sort` says of two positions of the sorted array. -/
theorem SortContract_getElem (sorter : Sorter) (s : dataWithEndpoints)
    (h : SortContract sorter s) (i j : Nat) (x y : String) (hij : i ≤ j)
    (hx : (sortSort sorter s).endpoints[i]? = some x)
    (hy : (sortSort sorter s).endpoints[j]? = some y) : stringLess y x = false := by
  by_cases hij' : i = j
  · subst hij'
    rw [hx, Option.some.injEq] at hy
    subst hy
    exact stringLess_irrefl x
  · have hj : j < (sortSort sorter s).Len := (List.getElem?_eq_some.mp hy).1
    have := h.2 j hj i (by omega)
    simp only [dataWithEndpoints.Less, hx, hy, Option.some.injEq] at this
    exact this

theorem foldlM_none_of_mem {α β : Type} (f : β → α → Option β) (l : List α) (x : α)
    (hx : x ∈ l) (hf : ∀ b, f b x = none) (init : β) : l.foldlM f init = none := by
  induction l generalizing init with
  | nil => simp at hx
  | cons y ys ih =>
    rw [List.foldlM_cons]
    rcases List.mem_cons.mp hx with rfl | hx
    · rw [hf]
      rfl
    · cases f init y with
      | none => rfl
      | some b => exact ih hx b

/-- With more sorting columns than partition columns `getRowHash` indexes past the
string columns and panics, whatever the row. -/
theorem rowKey_none (ex : exchange) (data : Dataset) (row : Nat)
    (hk : ex.PartitionCols.length < ex.SortingCols.length) : rowKey ex data row = none := by
  unfold rowKey getRowHash
  refine foldlM_none_of_mem _ _ ex.PartitionCols.length (List.mem_range.mpr hk) (fun b => ?_) _
  have : (ColumnStringsPartial data ex.PartitionCols)[ex.PartitionCols.length]? = none :=
    List.getElem?_eq_none (by simp [ColumnStringsPartial])
  simp only [this]

/-- The key of a row is computed as soon as the key of some row is. -/
theorem rowKey_isSome (ex : exchange) (data : Dataset) (r i : Nat) (key : String)
    (hkey : rowKey ex data r = some key) (hi : i < data.Len) :
    ∃ key', rowKey ex data i = some key' := by
  by_cases hk : ex.SortingCols.length ≤ ex.PartitionCols.length
  · exact ⟨_, rowKey_eq ex data i hi hk⟩
  · rw [rowKey_none ex data r (by omega)] at hkey
    simp at hkey

/-- A call on a dataset without rows, `addEndpointsToData` having returned: reading
`endpoints[0]` panics before anything is sliced or encoded. -/
theorem encodePartition_noRows (ex : exchange) (sorter : Sorter) (data : Dataset)
    (dwe : dataWithEndpoints) (h : (addEndpointsToData ex data).1 = Ret.ok dwe)
    (hn : data.Len = 0) :
    (encodePartition ex sorter (GoValue.dataset data)).status = Status.panicked ∧
      (encodePartition ex sorter (GoValue.dataset data)).slices = [] ∧
      (encodePartition ex sorter (GoValue.dataset data)).encodes = [] := by
  have hlen : (sortSort sorter dwe).endpoints.length = 0 := by
    rw [sortSort_endpoints_length, (addEndpointsToData_ok ex data dwe h).2.1, hn]
  have hnone : (sortSort sorter dwe).endpoints[0]? = none :=
    List.getElem?_eq_none (by omega)
  rcases hq : addEndpointsToData ex data with ⟨r, lk⟩
  rw [hq] at h
  simp only at h
  subst h
  simp only [encodePartition, hq, hnone, and_self]

/-- Whatever the dataset, either no `Encode` call is logged, or the call went through
`addEndpointsToData` and the sort step on at least one row and its loop ended in one
of its three final shapes. -/
theorem encodePartition_cases (ex : exchange) (sorter : Sorter) (data : Dataset) :
    (encodePartition ex sorter (GoValue.dataset data)).encodes = [] ∨
    ∃ dwe, (addEndpointsToData ex data).1 = Ret.ok dwe ∧ 1 ≤ data.Len ∧
      LoopPost ex (sortSort sorter dwe)
        (encodePartition ex sorter (GoValue.dataset data)).status
        (encodePartition ex sorter (GoValue.dataset data)).slices
        (encodePartition ex sorter (GoValue.dataset data)).encodes := by
  cases hq : (addEndpointsToData ex data).1 with
  | ok dwe =>
    by_cases hn : 1 ≤ data.Len
    · exact Or.inr ⟨dwe, rfl, hn, (encodePartition_sorted ex sorter data dwe hq hn).2.2⟩
    · exact Or.inl (encodePartition_noRows ex sorter data dwe hq (by omega)).2.2
  | err e =>
    left
    rw [encodePartition_ringError ex sorter data e hq]
  | panic =>
    left
    rw [encodePartition_ringPanic ex sorter data hq]

/-- When `sort.Sort` has kept its contract, the destinations of the `Encode` calls
are strictly increasing. -/
theorem LoopPost_dest_pairwise (ex : exchange) (sorter : Sorter) (dwe : dataWithEndpoints)
    (status : Status) (slices : List (Nat × Nat)) (encodes : List Sent)
    (hpost : LoopPost ex (sortSort sorter dwe) status slices encodes)
    (hcontract : SortContract sorter dwe) :
    List.Pairwise (fun a b => stringLess a b = true) (encodes.map Sent.dest) := by
  obtain ⟨⟨ps, rest, hsl, hsends⟩, _⟩ := LoopPost_sends ex _ _ _ _ hpost
  obtain ⟨hr1, _, _⟩ := Sends_ranges ex _ _ _ hsends
  have hchain : ∃ b, RunChain (sortSort sorter dwe).endpoints 0 slices b := by
    obtain ⟨b, hb, _⟩ := hpost
    exact ⟨b, hb⟩
  obtain ⟨b, hchain⟩ := hchain
  rw [List.pairwise_map]
  have h1 := (RunChain_pairwise _ _ _ _ hchain).1
  rw [hsl] at h1
  have h1 := (List.pairwise_append.mp h1).1
  rw [← hr1, List.pairwise_map] at h1
  refine List.Pairwise.imp_of_mem ?_ h1
  intro m m' hm hm' hle
  simp only at hle
  obtain ⟨hrun, _, hd, _⟩ := LoopPost_message ex _ _ _ _ hpost m hm
  obtain ⟨hrun', _, hd', _⟩ := LoopPost_message ex _ _ _ _ hpost m' hm'
  have hlt : m.hi < (sortSort sorter dwe).endpoints.length := by
    have := hrun'.1
    have := hrun'.2.1
    omega
  have hmid : (sortSort sorter dwe).endpoints[m.hi]? =
      some ((sortSort sorter dwe).endpoints[m.hi]) := List.getElem?_eq_getElem hlt
  have hne : m.dest ≠ (sortSort sorter dwe).endpoints[m.hi] := by
    intro e
    apply hrun.2.2.2 hlt
    rw [hmid, hd, e]
  exact stringLess_of_le_of_ne_of_le _ _ _
    (SortContract_getElem sorter dwe hcontract _ _ _ _ (Nat.le_of_lt hrun.1) hd hmid) hne
    (SortContract_getElem sorter dwe hcontract _ _ _ _ hle hmid hd')

theorem lacking_resolves : RingResolves lackingExchange demoData := by
  intro i hi
  have hi' : i < 5 := hi
  interval_cases i
  · exact ⟨"ann", ":5553", by decide, rfl⟩
  · exact ⟨"bob", ":5552", by decide, rfl⟩
  · exact ⟨"cid", ":5551", by decide, rfl⟩
  · exact ⟨"dan", ":5552", by decide, rfl⟩
  · exact ⟨"eve", ":5553", by decide, rfl⟩

/-- Where an error of the loop of `addEndpointsToData` comes from: a lookup of the
ring that failed. -/
theorem addEndpointsLoop_err (ex : exchange) (sv : List (List String)) :
    ∀ (m k : Nat) (eps lk : List String) (e : GoError),
      (addEndpointsLoop ex sv (List.range' k m) eps lk).1 = Ret.err e →
      ∃ r key msg, k ≤ r ∧ r < k + m ∧ getRowHash ex sv r = some key ∧
        ex.hashRing.Get key = Except.error msg ∧ e = GoError.external msg := by
  intro m
  induction m with
  | zero =>
    intro k eps lk e h
    simp [addEndpointsLoop] at h
  | succ m ih =>
    intro k eps lk e h
    rw [List.range'_succ] at h
    unfold addEndpointsLoop at h
    cases hg : getRowHash ex sv k with
    | none => simp [hg] at h
    | some hash =>
      cases hr : ex.hashRing.Get hash with
      | error msg =>
        simp only [hg, hr, Ret.err.injEq] at h
        exact ⟨k, hash, msg, Nat.le_refl _, by omega, hg, hr, h.symm⟩
      | ok d =>
        simp only [hg, hr] at h
        obtain ⟨r, key, msg, h1, h2, h3, h4, h5⟩ := ih (k + 1) _ _ _ h
        exact ⟨r, key, msg, by omega, by omega, h3, h4, h5⟩

/-- Where a panic of the loop of `addEndpointsToData` comes from: a row whose key
could not be computed. -/
theorem addEndpointsLoop_panic (ex : exchange) (sv : List (List String)) :
    ∀ (m k : Nat) (eps lk : List String),
      (addEndpointsLoop ex sv (List.range' k m) eps lk).1 = Ret.panic →
      ∃ r, k ≤ r ∧ r < k + m ∧ getRowHash ex sv r = none := by
  intro m
  induction m with
  | zero =>
    intro k eps lk h
    simp [addEndpointsLoop] at h
  | succ m ih =>
    intro k eps lk h
    rw [List.range'_succ] at h
    unfold addEndpointsLoop at h
    cases hg : getRowHash ex sv k with
    | none => exact ⟨k, Nat.le_refl _, by omega, hg⟩
    | some hash =>
      cases hr : ex.hashRing.Get hash with
      | error msg => simp [hg, hr] at h
      | ok d =>
        simp only [hg, hr] at h
        obtain ⟨r, h1, h2, h3⟩ := ih (k + 1) _ _ h
        exact ⟨r, by omega, by omega, h3⟩

theorem addEndpointsToData_err (ex : exchange) (data : Dataset) (e : GoError)
    (h : (addEndpointsToData ex data).1 = Ret.err e) :
    ∃ r key msg, r < data.Len ∧ rowKey ex data r = some key ∧
      ex.hashRing.Get key = Except.error msg ∧ e = GoError.external msg := by
  rw [addEndpointsToData_fst] at h
  split at h
  · simp at h
  · rename_i e' heq
    simp only [Ret.err.injEq] at h
    subst h
    obtain ⟨r, key, msg, _, h2, h3, h4, h5⟩ := addEndpointsLoop_err ex _ _ _ _ _ _ heq
    exact ⟨r, key, msg, by omega, h3, h4, h5⟩
  · simp at h

theorem addEndpointsToData_panic (ex : exchange) (data : Dataset)
    (h : (addEndpointsToData ex data).1 = Ret.panic) :
    ∃ r, r < data.Len ∧ rowKey ex data r = none := by
  rw [addEndpointsToData_fst] at h
  split at h
  · simp at h
  · simp at h
  · rename_i heq
    obtain ⟨r, _, h2, h3⟩ := addEndpointsLoop_panic ex _ _ _ _ _ heq
    exact ⟨r, by omega, h3⟩

theorem Slice_mem (d : Dataset) (lo hi j : Nat) (r : Row) (h1 : lo ≤ j) (h2 : j < hi)
    (hr : d.rows[j]? = some r) : r ∈ (d.Slice lo hi).rows := by
  apply List.getElem?_mem (n := j - lo)
  simp only [Dataset.Slice, List.getElem?_drop, List.getElem?_take]
  rw [if_pos (by omega)]
  rw [show lo + (j - lo) = j by omega]
  exact hr

/-- The string columns, the key of each row and the loop of `addEndpointsToData`
depend on the exchange through its columns and its ring only. -/
theorem addEndpointsToData_congr (ex ex' : exchange) (data : Dataset)
    (hring : ex'.hashRing = ex.hashRing) (hcols : ex'.PartitionCols = ex.PartitionCols)
    (hsc : ex'.SortingCols = ex.SortingCols) :
    addEndpointsToData ex' data = addEndpointsToData ex data := by
  have hrow : ∀ sv row, getRowHash ex' sv row = getRowHash ex sv row := by
    intro sv row
    unfold getRowHash
    rw [hsc]
  have hloop : ∀ sv rows eps lk,
      addEndpointsLoop ex' sv rows eps lk = addEndpointsLoop ex sv rows eps lk := by
    intro sv rows
    induction rows with
    | nil => intro eps lk; rfl
    | cons row rows ih =>
      intro eps lk
      simp only [addEndpointsLoop, hrow, hring, ih]
  simp only [addEndpointsToData, hcols, hloop]

/-- A row and its endpoint are found together, at one position, after the sort step. -/
theorem sortSort_position (sorter : Sorter) (dwe : dataWithEndpoints)
    (hlen : dwe.data.rows.length = dwe.endpoints.length) (i : Nat) (r : Row) (d : String)
    (hr : dwe.data.rows[i]? = some r) (hd : dwe.endpoints[i]? = some d) :
    ∃ p : Nat, (sortSort sorter dwe).data.rows[p]? = some r ∧
      (sortSort sorter dwe).endpoints[p]? = some d := by
  have hmem : (r, d) ∈ dwe.data.rows.zip dwe.endpoints :=
    List.getElem?_mem (List.getElem?_zip_eq_some.mpr ⟨hr, hd⟩)
  obtain ⟨p, hp⟩ := List.getElem?_of_mem ((sortSort_zip_perm sorter dwe hlen).symm.subset hmem)
  exact ⟨p, List.getElem?_zip_eq_some.mp hp⟩

/-- After a loop that returned `nil`, every position of the sorted dataset lies in
the range of one `Encode` call, whose destination is the endpoint at that position
and whose message holds the row at that position. -/
theorem LoopPost_nil_covers (ex : exchange) (s : dataWithEndpoints)
    (slices : List (Nat × Nat)) (encodes : List Sent)
    (h : LoopPost ex s (Status.returned none) slices encodes) (p : Nat) (r : Row) (d : String)
    (hr : s.data.rows[p]? = some r) (hd : s.endpoints[p]? = some d) :
    ∃ m ∈ encodes, m.dest = d ∧ r ∈ m.payload.rows := by
  obtain ⟨hchain, hsends, _⟩ := LoopPost_nil ex s slices encodes h
  have hplt := (List.getElem?_eq_some.mp hd).1
  obtain ⟨q, hq, hq1, hq2⟩ := RunChain_cover _ _ _ _ hchain p (Nat.zero_le _) hplt
  rw [← (Sends_ranges ex _ _ _ hsends).1] at hq
  obtain ⟨m, hm, rfl⟩ := List.mem_map.mp hq
  obtain ⟨hrun, _, hdm, hpay, _⟩ := LoopPost_message ex _ _ _ _ h m hm
  refine ⟨m, hm, ?_, ?_⟩
  · have := hrun.2.2.1 p hq1 hq2
    rw [hd, hdm, Option.some.injEq] at this
    exact this.symm
  · rw [hpay]
    exact Slice_mem _ _ _ p r hq1 hq2 hr

theorem Partition_SortingCols_length (uid : String) (columns : List Int) :
    (Partition uid columns).SortingCols.length = columns.length := by
  simp [Partition]

/-! ## Insertion sort keeps the contract of `sort.Sort` -/

theorem notAfter_trans (a b c : String) (h1 : notAfter a b) (h2 : notAfter b c) :
    notAfter a c := by
  simp only [notAfter, stringLess, decide_eq_false_iff_not, not_lt] at *
  exact le_trans h1 h2

theorem notAfter_of_stringLess (a b : String) (h : stringLess a b = true) : notAfter a b := by
  simp only [notAfter, stringLess, decide_eq_false_iff_not, not_lt, decide_eq_true_eq] at *
  exact le_of_lt h

theorem notAfter_of_not_stringLess (a b : String) (h : ¬ stringLess a b = true) :
    notAfter b a := by
  simpa [notAfter] using h

theorem swapAt_cons_succ {α : Type} (a : α) (l : List α) (i j : Nat) :
    swapAt (a :: l) (i + 1) (j + 1) = a :: swapAt l i j := by
  unfold swapAt
  simp only [List.getElem?_cons_succ]
  split <;> simp_all

theorem swapAt_neighbours {α : Type} (A : List α) (x y : α) (B : List α) :
    swapAt (A ++ y :: x :: B) (A.length + 1) A.length = A ++ x :: y :: B := by
  induction A with
  | nil => simp [swapAt]
  | cons a A ih =>
    simp only [List.cons_append, List.length_cons]
    rw [swapAt_cons_succ, ih]

theorem sortSort_endpoints_eq (sorter : Sorter) (s : dataWithEndpoints) :
    (sortSort sorter s).endpoints =
      (sorter s.endpoints).foldl (fun acc p => swapAt acc p.1 p.2) s.endpoints := by
  unfold sortSort
  generalize sorter s.endpoints = l
  induction l generalizing s with
  | nil => rfl
  | cons p ps ih =>
    simp only [List.foldl_cons]
    rw [ih]
    rfl

/-- The inner loop of insertion sort, started on the entry `x` that follows a sorted
part `A`, with the entries `B` it has already been moved over, puts `x` in its place:
`A`, `x` and `B` end up as one sorted part, and what follows is not touched. -/
theorem insertionInner_spec :
    ∀ (n : Nat) (A : List String) (x : String) (B C : List String) (sw : List (Nat × Nat)),
      A.length = n → A.Pairwise notAfter → B.Pairwise notAfter →
      (∀ a ∈ A, ∀ b ∈ B, notAfter a b) → (∀ b ∈ B, notAfter x b) →
      ∃ S extra, insertionInner n (A ++ x :: (B ++ C), sw) = (S ++ C, sw ++ extra) ∧
        S.Pairwise notAfter ∧ S.length = n + 1 + B.length ∧
        extra.foldl (fun acc p => swapAt acc p.1 p.2) (A ++ x :: (B ++ C)) = S ++ C ∧
        ∀ p ∈ extra, p.1 < S.length ∧ p.2 < S.length := by
  intro n
  induction n with
  | zero =>
    intro A x B C sw hlen hA hB hAB hxB
    have hnil : A = [] := List.length_eq_zero.mp hlen
    subst hnil
    refine ⟨x :: B, [], ?_, List.Pairwise.cons hxB hB, by simp; omega, rfl, by simp⟩
    simp [insertionInner]
  | succ n ih =>
    intro A x B C sw hlen hA hB hAB hxB
    rcases List.eq_nil_or_concat A with hnil | ⟨A', y, hA'⟩
    · subst hnil
      simp at hlen
    rw [List.concat_eq_append] at hA'
    subst hA'
    have hlen' : A'.length = n := by simpa using hlen
    have e1 : (A' ++ [y] ++ x :: (B ++ C))[n + 1]? = some x := by
      rw [List.getElem?_append_right (by simp; omega)]
      simp [hlen']
    have e2 : (A' ++ [y] ++ x :: (B ++ C))[n]? = some y := by
      rw [List.append_assoc, List.getElem?_append_right (by omega)]
      simp [hlen']
    obtain ⟨hA1, hA2⟩ : A'.Pairwise notAfter ∧ ∀ a ∈ A', notAfter a y := by
      have := List.pairwise_append.mp hA
      exact ⟨this.1, fun a ha => this.2.2 a ha y (by simp)⟩
    unfold insertionInner
    simp only [e1, e2]
    by_cases hlt : stringLess x y = true
    · simp only [hlt, if_true]
      have hswap : swapAt (A' ++ [y] ++ x :: (B ++ C)) (n + 1) n =
          A' ++ x :: ((y :: B) ++ C) := by
        have := swapAt_neighbours A' x y (B ++ C)
        rw [hlen'] at this
        simpa using this
      rw [hswap]
      obtain ⟨S, extra, h1, h2, h3, h4, h5⟩ := ih A' x (y :: B) C (sw ++ [(n + 1, n)]) hlen' hA1
        (List.Pairwise.cons (fun b hb => hAB y (by simp) b hb) hB)
        (fun a ha b hb => by
          rcases List.mem_cons.mp hb with rfl | hb
          · exact hA2 a ha
          · exact hAB a (by simp [ha]) b hb)
        (fun b hb => by
          rcases List.mem_cons.mp hb with rfl | hb
          · exact notAfter_of_stringLess _ _ hlt
          · exact hxB b hb)
      refine ⟨S, (n + 1, n) :: extra, by rw [h1]; simp, h2, by rw [h3]; simp; omega, ?_, ?_⟩
      · rw [List.foldl_cons]
        simp only
        rw [hswap]
        exact h4
      · intro p hp
        rcases List.mem_cons.mp hp with rfl | hp
        · rw [h3]
          simp only [List.length_cons]
          omega
        · exact h5 p hp
    · simp only [hlt]
      have hyx : notAfter y x := notAfter_of_not_stringLess _ _ hlt
      refine ⟨A' ++ [y] ++ x :: B, [], by simp, ?_, by simp [hlen']; omega, by simp, by simp⟩
      rw [List.pairwise_append]
      refine ⟨hA, List.Pairwise.cons hxB hB, fun a ha b hb => ?_⟩
      rcases List.mem_cons.mp hb with rfl | hb
      · rcases List.mem_append.mp ha with ha | ha
        · exact notAfter_trans _ _ _ (hA2 a ha) hyx
        · simp only [List.mem_singleton] at ha
          subst ha
          exact hyx
      · exact hAB a ha b hb

/-- The outer loop of insertion sort, started after a sorted part `P`, sorts the
whole array. -/
theorem insertionOuter_spec :
    ∀ (C P : List String) (sw : List (Nat × Nat)), P.Pairwise notAfter →
      ∃ S extra,
        (List.range' P.length C.length).foldl (fun st i => insertionInner i st) (P ++ C, sw) =
          (S, sw ++ extra) ∧
        S.Pairwise notAfter ∧ S.length = P.length + C.length ∧
        extra.foldl (fun acc p => swapAt acc p.1 p.2) (P ++ C) = S ∧
        ∀ p ∈ extra, p.1 < S.length ∧ p.2 < S.length := by
  intro C
  induction C with
  | nil =>
    intro P sw hP
    exact ⟨P, [], by simp, hP, by simp, by simp, by simp⟩
  | cons x C ih =>
    intro P sw hP
    obtain ⟨S1, extra1, h1, h2, h3, h4, h5⟩ := insertionInner_spec P.length P x [] C sw rfl hP
      List.Pairwise.nil (fun _ _ b hb => by simp at hb) (fun b hb => by simp at hb)
    simp only [List.nil_append, List.length_nil, Nat.add_zero] at h1 h3 h4
    obtain ⟨S, extra, k1, k2, k3, k4, k5⟩ := ih S1 (sw ++ extra1) h2
    refine ⟨S, extra1 ++ extra, ?_, k2, by rw [k3, h3]; simp; omega, ?_, ?_⟩
    · rw [List.length_cons, List.range'_succ, List.foldl_cons, h1, ← h3, k1, List.append_assoc]
    · rw [List.foldl_append, h4]
      exact k4
    · intro p hp
      rcases List.mem_append.mp hp with hp | hp
      · have := h5 p hp
        rw [k3]
        omega
      · exact k5 p hp

/-- Insertion sort keeps the contract of `sort.Sort` on every array of endpoints. -/
theorem insertionSorter_contract (s : dataWithEndpoints) : SortContract insertionSorter s := by
  have key : ∃ S, (insertionSorter s.endpoints).foldl
      (fun acc p => swapAt acc p.1 p.2) s.endpoints = S ∧ S.Pairwise notAfter ∧
      S.length = s.endpoints.length ∧
      ∀ p ∈ insertionSorter s.endpoints, p.1 < S.length ∧ p.2 < S.length := by
    cases hs : s.endpoints with
    | nil => exact ⟨[], by simp [insertionSorter], List.Pairwise.nil, rfl, by simp [insertionSorter]⟩
    | cons e C =>
      obtain ⟨S, extra, h1, h2, h3, h4, h5⟩ := insertionOuter_spec C [e] []
        (List.pairwise_singleton _ _)
      have hsw : insertionSorter (e :: C) = extra := by
        simp only [insertionSorter, List.length_cons, Nat.add_sub_cancel]
        simp only [List.length_singleton, List.singleton_append, List.nil_append] at h1
        rw [h1]
      rw [hsw]
      exact ⟨S, h4, h2, by rw [h3]; simp; omega, h5⟩
  obtain ⟨S, h1, h2, h3, h4⟩ := key
  have hend : (sortSort insertionSorter s).endpoints = S := by
    rw [sortSort_endpoints_eq, h1]
  refine ⟨fun p hp => ?_, fun j hj i hij => ?_⟩
  · have := h4 p hp
    rw [h3] at this
    exact this
  · simp only [dataWithEndpoints.Len, hend] at hj
    simp only [dataWithEndpoints.Less, hend, List.getElem?_eq_getElem hj,
      List.getElem?_eq_getElem (Nat.lt_trans hij hj), Option.some.injEq]
    exact (List.pairwise_iff_getElem.mp h2) i j (Nat.lt_trans hij hj) hj hij

/-- On an array holding one and the same endpoint, a chain of runs that is not
empty is the single run over the whole array. -/
theorem RunChain_const (eps : List String) (d : String)
    (hall : ∀ i, i < eps.length → eps[i]? = some d) (ps : List (Nat × Nat)) (a b : Nat)
    (h : RunChain eps a ps b) (hps : ps ≠ []) : ps = [(a, eps.length)] ∧ b = eps.length := by
  cases ps with
  | nil => exact absurd rfl hps
  | cons p qs =>
    obtain ⟨h1, hrun, h3⟩ := h
    obtain ⟨hlt, hle, _, hmax⟩ := hrun
    have hp2 : p.2 = eps.length := by
      by_contra hne
      have hlt2 : p.2 < eps.length := by omega
      exact hmax hlt2 (by rw [hall _ hlt2, hall _ (by omega)])
    cases qs with
    | nil =>
      simp only [RunChain] at h3
      refine ⟨?_, by omega⟩
      rw [← h1, ← hp2]
    | cons q rs =>
      obtain ⟨k1, krun, _⟩ := h3
      have := krun.1
      have := krun.2.1
      omega

theorem Sends_single (ex : exchange) (s : dataWithEndpoints) (p : Nat × Nat)
    (ms : List Sent) (h : Sends ex s [p] ms) : ∃ m, ms = [m] ∧ SentFor ex s [] p m := by
  obtain ⟨hlen, hall⟩ := h
  obtain ⟨m, hm⟩ := List.length_eq_one.mp hlen
  subst hm
  exact ⟨m, rfl, by simpa using hall 0 p m rfl rfl⟩

/-- For every dataset that passes `addEndpointsToData`, the argument is afterwards the
dataset as the swaps of `sort.Sort` left it, whether or not the loop is reached. -/
theorem encodePartition_arg (ex : exchange) (sorter : Sorter) (data : Dataset)
    (dwe : dataWithEndpoints) (h : (addEndpointsToData ex data).1 = Ret.ok dwe) :
    (encodePartition ex sorter (GoValue.dataset data)).arg =
        GoValue.dataset (sortSort sorter dwe).data ∧
      (encodePartition ex sorter (GoValue.dataset data)).swaps = sorter dwe.endpoints := by
  rcases hq : addEndpointsToData ex data with ⟨r, lk⟩
  rw [hq] at h
  simp only at h
  subst h
  simp only [encodePartition, hq]
  split <;> exact ⟨rfl, rfl⟩

/-- On a dataset of at least one row that passes `addEndpointsToData`, the call
does not panic. -/
theorem encodePartition_no_panic (ex : exchange) (sorter : Sorter) (data : Dataset)
    (dwe : dataWithEndpoints) (h : (addEndpointsToData ex data).1 = Ret.ok dwe)
    (hn : 1 ≤ data.Len) :
    (encodePartition ex sorter (GoValue.dataset data)).status ≠ Status.panicked := by
  obtain ⟨_, _, b, _, hcases⟩ := encodePartition_sorted ex sorter data dwe h hn
  rcases hcases with ⟨hst, _⟩ | ⟨hst, _⟩ | ⟨e, ms, m, hst, _⟩ <;>
  · rw [hst]
    simp

theorem sortSort_data_eq (sorter : Sorter) (s : dataWithEndpoints) :
    (sortSort sorter s).data =
      (sorter s.endpoints).foldl (fun acc p => acc.Swap p.1 p.2) s.data := by
  unfold sortSort
  generalize sorter s.endpoints = l
  induction l generalizing s with
  | nil => rfl
  | cons p ps ih =>
    simp only [List.foldl_cons]
    rw [ih]
    rfl

/-- Under the contract of `sort.Sort` no endpoint of the sorted array comes after a
later one. -/
theorem SortContract_pairwise (sorter : Sorter) (s : dataWithEndpoints)
    (h : SortContract sorter s) : (sortSort sorter s).endpoints.Pairwise notAfter := by
  rw [List.pairwise_iff_getElem]
  intro i j hi hj hij
  exact SortContract_getElem sorter s h i j _ _ (Nat.le_of_lt hij)
    (List.getElem?_eq_getElem hi) (List.getElem?_eq_getElem hj)

/-! ## Facts about the pipeline composer -/

/-- The leaves kept are exchange stages. -/
theorem PipelineArgs.leaves_exchange (args : PipelineArgs) :
    ∀ r ∈ args.leaves, ∃ uid kind, r = Runner.exchange uid kind := by
  induction args with
  | done => intro r hr; simp [PipelineArgs.leaves] at hr
  | exchange uid kind rest ih =>
    intro r hr
    simp only [PipelineArgs.leaves, List.mem_cons] at hr
    rcases hr with rfl | hr
    · exact ⟨uid, kind, rfl⟩
    · exact ih r hr
  | passThrough rest ih => exact ih
  | nested inner rest ih1 ih2 =>
    intro r hr
    simp only [PipelineArgs.leaves, List.mem_append] at hr
    rcases hr with hr | hr
    · exact ih1 r hr
    · exact ih2 r hr

/-- Eliding pass-through stages keeps a list of exchange stages as it is. -/
theorem filter_exchanges (l : List Runner) (h : ∀ r ∈ l, ∃ uid kind, r = Runner.exchange uid kind) :
    l.filter (fun r => !r.isPassThrough) = l := by
  rw [List.filter_eq_self]
  intro r hr
  obtain ⟨uid, kind, rfl⟩ := h r hr
  rfl

/-- What `Pipeline` returns when the stages left after inlining and eliding are the
exchange stages `l`. -/
theorem Pipeline_of_flat (runners l : List Runner)
    (hflat : (spliceStages runners).filter (fun r => !r.isPassThrough) = l)
    (h : ∀ r ∈ l, ∃ uid kind, r = Runner.exchange uid kind) :
    Pipeline runners = sequenceOf l := by
  unfold Pipeline
  rw [hflat]
  cases l with
  | nil => rfl
  | cons r t =>
    cases t with
    | nil => rfl
    | cons r' rest =>
      obtain ⟨uid, kind, rfl⟩ := h r (by simp)
      simp [Runner.fusible, sequenceOf]

/-- Inlining and eliding the arguments of a call leaves their leaves that are not
pass-through, in order. -/
theorem PipelineArgs.flat_eq_leaves (args : PipelineArgs) :
    (spliceStages args.eval).filter (fun r => !r.isPassThrough) = args.leaves := by
  induction args with
  | done => rfl
  | exchange uid kind rest ih =>
    simp only [PipelineArgs.eval, PipelineArgs.leaves, spliceStages]
    rw [List.filter_cons_of_pos (by rfl), ih]
  | passThrough rest ih =>
    simp only [PipelineArgs.eval, PipelineArgs.leaves, spliceStages]
    rw [List.filter_cons_of_neg (by simp [Runner.isPassThrough]), ih]
  | nested inner rest ih1 ih2 =>
    simp only [PipelineArgs.eval, PipelineArgs.leaves]
    have hex := PipelineArgs.leaves_exchange inner
    rw [Pipeline_of_flat inner.eval inner.leaves ih1 hex]
    generalize inner.leaves = l at hex
    cases l with
    | nil =>
      simp only [sequenceOf, spliceStages, List.nil_append]
      rw [List.filter_cons_of_neg (by simp [Runner.isPassThrough]), ih2]
    | cons r t =>
      cases t with
      | nil =>
        obtain ⟨uid, kind, rfl⟩ := hex r (by simp)
        simp only [sequenceOf, spliceStages, List.singleton_append]
        rw [List.filter_cons_of_pos (by rfl), ih2]
      | cons r' rest' =>
        simp only [sequenceOf, spliceStages]
        rw [List.filter_append, filter_exchanges _ hex, ih2]

/-! ## Facts about swaps inside a range -/

theorem getD_swapAt {α : Type} (l : List α) (i j k : Nat) (d : α) (hi : i < l.length)
    (hj : j < l.length) :
    (swapAt l i j).getD k d =
      if k = j then l.getD i d else if k = i then l.getD j d else l.getD k d := by
  unfold swapAt
  rw [List.getElem?_eq_getElem hi, List.getElem?_eq_getElem hj]
  simp only [List.getD_eq_getElem?_getD, List.getElem?_set]
  by_cases h1 : k = j
  · subst h1
    simp [hi, hj]
  · by_cases h2 : k = i
    · subst h2
      simp [hi, hj, h1, Ne.symm h1]
    · simp [h1, h2, Ne.symm h1, Ne.symm h2]

theorem SortState.Swap_length (st : SortState) (i j : Nat) :
    (st.Swap i j).eps.length = st.eps.length := length_swapAt _ _ _

theorem SortState.key_Swap (st : SortState) (i j k : Nat) (hi : i < st.eps.length)
    (hj : j < st.eps.length) :
    (st.Swap i j).key k = if k = j then st.key i else if k = i then st.key j else st.key k := by
  simp only [SortState.key, SortState.Swap, getD_swapAt _ _ _ _ _ hi hj]
  split
  · rfl
  · split <;> rfl

theorem SortState.Less_eq (st : SortState) (i j : Nat) (hi : i < st.eps.length)
    (hj : j < st.eps.length) : st.Less i j = decide (st.key i < st.key j) := by
  simp only [SortState.Less, SortState.key, List.getElem?_eq_getElem hi,
    List.getElem?_eq_getElem hj, stringLess, List.getD_eq_getElem?_getD, Option.getD_some]

theorem Within.refl (a b : Nat) (st : SortState) : Within a b st st :=
  ⟨[], by simp, by simp, rfl⟩

theorem Within.trans {a b : Nat} {st1 st2 st3 : SortState} (h1 : Within a b st1 st2)
    (h2 : Within a b st2 st3) : Within a b st1 st3 := by
  obtain ⟨w1, hw1, e1, f1⟩ := h1
  obtain ⟨w2, hw2, e2, f2⟩ := h2
  refine ⟨w1 ++ w2, ?_, ?_, ?_⟩
  · intro p hp
    rcases List.mem_append.mp hp with h | h
    · exact hw1 p h
    · exact hw2 p h
  · rw [e2, e1, List.append_assoc]
  · rw [f2, f1, List.foldl_append]

theorem Within.mono {a b a' b' : Nat} {st st' : SortState} (h : Within a b st st')
    (ha : a' ≤ a) (hb : b ≤ b') : Within a' b' st st' := by
  obtain ⟨w, hw, e, f⟩ := h
  refine ⟨w, fun p hp => ?_, e, f⟩
  have := hw p hp
  omega

theorem Within.swap (a b : Nat) (st : SortState) (i j : Nat) (hi1 : a ≤ i) (hi2 : i < b)
    (hj1 : a ≤ j) (hj2 : j < b) : Within a b st (st.Swap i j) :=
  ⟨[(i, j)], by simp; omega, rfl, rfl⟩

theorem Within.length {a b : Nat} {st st' : SortState} (h : Within a b st st') :
    st'.eps.length = st.eps.length := by
  obtain ⟨w, -, -, f⟩ := h
  rw [f]
  clear f
  generalize st.eps = l
  induction w generalizing l with
  | nil => rfl
  | cons p ps ih => rw [List.foldl_cons, ih, length_swapAt]

/-- Swaps inside `[a, b)` leave the entries outside where they are, and what holds of
every entry inside still holds of every entry inside. -/
theorem Within.frame {a b : Nat} {st st' : SortState} (h : Within a b st st')
    (hb : b ≤ st.eps.length) :
    (∀ k, k < a ∨ b ≤ k → st'.key k = st.key k) ∧
      ∀ P : List Char → Prop, (∀ k, a ≤ k → k < b → P (st.key k)) →
        ∀ k, a ≤ k → k < b → P (st'.key k) := by
  obtain ⟨w, hw, -, f⟩ := h
  simp only [SortState.key, f]
  clear f
  revert hb
  generalize st.eps = l
  induction w generalizing l with
  | nil =>
    intro _
    exact ⟨fun _ _ => rfl, fun _ h => h⟩
  | cons p ps ih =>
    intro hb
    have hp := hw p (List.mem_cons_self _ _)
    obtain ⟨ih1, ih2⟩ := ih (fun q hq => hw q (List.mem_cons_of_mem _ hq)) (swapAt l p.1 p.2)
      (by rw [length_swapAt]; exact hb)
    simp only [List.foldl_cons]
    have hg : ∀ k, (swapAt l p.1 p.2).getD k "" =
        if k = p.2 then l.getD p.1 "" else if k = p.1 then l.getD p.2 "" else l.getD k "" :=
      fun k => getD_swapAt l p.1 p.2 k "" (by omega) (by omega)
    refine ⟨fun k hk => ?_, fun P hP k h1 h2 => ?_⟩
    · rw [ih1 k hk, hg]
      have h1 : k ≠ p.2 := by omega
      have h2 : k ≠ p.1 := by omega
      simp [h1, h2]
    · refine ih2 P (fun k h1 h2 => ?_) k h1 h2
      rw [hg]
      split
      · exact hP _ hp.1 hp.2.1
      · split
        · exact hP _ hp.2.2.1 hp.2.2.2
        · exact hP _ h1 h2

/-! ## Insertion sort -/

theorem insertionSortInner_spec (c a i : Nat) :
    ∀ (j : Nat) (st : SortState), c ≤ a → a ≤ j → j ≤ i → i < st.eps.length →
      (c < a → ∀ k, a ≤ k → k ≤ i → st.key (a - 1) ≤ st.key k) →
      SortedOn st a j → SortedOn st j (i + 1) →
      (∀ x y, a ≤ x → x < j → j < y → y ≤ i → st.key x ≤ st.key y) →
      Within a (i + 1) st (insertionSortInner c j st) ∧
        SortedOn (insertionSortInner c j st) a (i + 1) := by
  intro j
  induction j with
  | zero =>
    intro st _ ha _ _ _ _ h2 _
    have : a = 0 := by omega
    subst this
    exact ⟨Within.refl _ _ _, h2⟩
  | succ j ih =>
    intro st hca haj hji hi hG h1 h2 h3
    have hstop : a = j + 1 → Within a (i + 1) st st ∧ SortedOn st a (i + 1) := by
      intro e
      subst e
      exact ⟨Within.refl _ _ _, h2⟩
    have hless := st.Less_eq (j + 1) j (by omega) (by omega)
    unfold insertionSortInner
    split
    · rename_i hcond
      obtain ⟨hc1, hc2⟩ := hcond
      rw [hless, decide_eq_true_eq] at hc2
      have haj' : a ≤ j := by
        by_contra hcon
        have e : a = j + 1 := by omega
        have hcl : c < a := by omega
        have := hG hcl (j + 1) (by omega) hji
        rw [e] at this
        simp only [Nat.add_sub_cancel] at this
        exact absurd hc2 (not_lt.mpr this)
      have hk : ∀ k, (st.Swap (j + 1) j).key k =
          if k = j then st.key (j + 1) else if k = j + 1 then st.key j else st.key k :=
        fun k => st.key_Swap (j + 1) j k (by omega) (by omega)
      obtain ⟨w, s⟩ := ih (st.Swap (j + 1) j) hca haj' (by omega)
        (by rw [SortState.Swap_length]; exact hi)
        (fun hcl k hk1 hk2 => by
          have e0 : (st.Swap (j + 1) j).key (a - 1) = st.key (a - 1) := by
            rw [hk]
            have : a - 1 ≠ j := by omega
            have : a - 1 ≠ j + 1 := by omega
            simp [*]
          rw [e0, hk]
          split
          · exact hG hcl _ (by omega) (by omega)
          · split
            · exact hG hcl _ (by omega) (by omega)
            · exact hG hcl _ hk1 hk2)
        (fun x y hx hxy hy => by
          rw [hk, hk]
          have : x ≠ j := by omega
          have : x ≠ j + 1 := by omega
          have : y ≠ j := by omega
          have : y ≠ j + 1 := by omega
          simp only [*, if_false]
          exact h1 x y hx hxy (by omega))
        (fun x y hx hxy hy => by
          rw [hk, hk]
          by_cases hxj : x = j
          · subst hxj
            simp only [if_true]
            by_cases hyj : y = x
            · simp [hyj]
            · by_cases hyj1 : y = x + 1
              · simp only [hyj1, Nat.succ_ne_self, if_false, if_true]
                exact le_of_lt hc2
              · simp only [hyj, hyj1, if_false]
                exact h2 _ _ (Nat.le_refl _) (by omega) hy
          · by_cases hxj1 : x = j + 1
            · subst hxj1
              have hyj : y ≠ j := by omega
              simp only [Nat.succ_ne_self, if_false, if_true, hyj]
              by_cases hyj1 : y = j + 1
              · simp [hyj1]
              · simp only [hyj1, if_false]
                exact h3 j y haj' (by omega) (by omega) (by omega)
            · have : y ≠ j := by omega
              have : y ≠ j + 1 := by omega
              simp only [*, if_false]
              exact h2 x y (by omega) hxy hy)
        (fun x y hx hxj hjy hy => by
          rw [hk, hk]
          have : x ≠ j := by omega
          have : x ≠ j + 1 := by omega
          have : y ≠ j := by omega
          simp only [*, if_false]
          by_cases hyj1 : y = j + 1
          · simp only [hyj1, if_true]
            exact h1 x j hx (by omega) (by omega)
          · simp only [hyj1, if_false]
            exact h3 x y hx (by omega) (by omega) hy)
      exact ⟨(Within.swap a (i + 1) st (j + 1) j (by omega) (by omega) haj' (by omega)).trans w, s⟩
    · rename_i hcond
      by_cases e : a = j + 1
      · exact hstop e
      · have hle : st.key j ≤ st.key (j + 1) := by
          have : ¬ st.Less (j + 1) j = true := fun h => hcond ⟨by omega, h⟩
          rw [hless, decide_eq_true_eq] at this
          exact not_lt.mp this
        refine ⟨Within.refl _ _ _, fun x y hx hxy hy => ?_⟩
        by_cases hy1 : y < j + 1
        · exact h1 x y hx hxy hy1
        · by_cases hx1 : j + 1 ≤ x
          · exact h2 x y hx1 hxy hy
          · exact le_trans (h1 x j hx (by omega) (by omega))
              (le_trans hle (h2 (j + 1) y (Nat.le_refl _) (by omega) hy))

theorem insertionSort_spec (st : SortState) (a b : Nat) (hb : b ≤ st.eps.length) :
    Within a b st (insertionSort st a b) ∧ SortedOn (insertionSort st a b) a b := by
  unfold insertionSort
  by_cases hab : a + 1 < b
  · have key : ∀ (n : Nat) (st' : SortState), n ≤ b - (a + 1) → Within a b st st' →
        SortedOn st' a (b - n) →
        Within a b st ((List.range' (b - n) n).foldl (fun st i => insertionSortInner a i st) st') ∧
          SortedOn ((List.range' (b - n) n).foldl
            (fun st i => insertionSortInner a i st) st') a b := by
      intro n
      induction n with
      | zero =>
        intro st' _ hw hs
        exact ⟨hw, hs⟩
      | succ n ih =>
        intro st' hn hw hs
        have hlen := hw.length
        obtain ⟨w1, s1⟩ := insertionSortInner_spec a a (b - (n + 1)) (b - (n + 1)) st'
          (Nat.le_refl _) (by omega) (Nat.le_refl _) (by omega)
          (fun h => absurd h (Nat.lt_irrefl _)) hs
          (fun x y hx hxy hy => by
            have : x = y := by omega
            subst this
            exact le_refl _)
          (fun x y _ _ h3 h4 => by omega)
        have e : b - (n + 1) + 1 = b - n := by omega
        rw [e] at w1 s1
        have := ih (insertionSortInner a (b - (n + 1)) st') (by omega)
          (hw.trans (w1.mono (Nat.le_refl _) (by omega))) s1
        rw [List.range'_succ, List.foldl_cons, e]
        exact this
    have := key (b - (a + 1)) st (Nat.le_refl _) (Within.refl _ _ _)
      (fun x y hx hxy hy => by
        have : x = y := by omega
        subst this
        exact le_refl _)
    have e : b - (b - (a + 1)) = a + 1 := by omega
    rwa [e] at this
  · have e : b - (a + 1) = 0 := by omega
    rw [e]
    refine ⟨Within.refl _ _ _, fun x y hx hxy hy => ?_⟩
    have : x = y := by omega
    subst this
    exact le_refl _

/-! ## `partition` -/

theorem partitionUp_spec (st : SortState) (a j : Nat) :
    ∀ (fuel i : Nat), j + 1 - i ≤ fuel → i ≤ j + 1 → j < st.eps.length → a < st.eps.length →
      i ≤ partitionUp st a j fuel i ∧ partitionUp st a j fuel i ≤ j + 1 ∧
        (∀ k, i ≤ k → k < partitionUp st a j fuel i → st.key k < st.key a) ∧
        (partitionUp st a j fuel i ≤ j → ¬ st.key (partitionUp st a j fuel i) < st.key a) := by
  intro fuel
  induction fuel with
  | zero =>
    intro i h1 h2 _ _
    simp only [partitionUp]
    exact ⟨Nat.le_refl _, h2, fun k _ _ => by omega, fun h => by omega⟩
  | succ fuel ih =>
    intro i h1 h2 hj ha
    unfold partitionUp
    split
    · rename_i hc
      obtain ⟨e1, e2, e3, e4⟩ := ih (i + 1) (by omega) (by omega) hj ha
      refine ⟨by omega, e2, fun k hk1 hk2 => ?_, e4⟩
      by_cases hki : k = i
      · subst hki
        have := hc.2
        rwa [st.Less_eq k a (by omega) ha, decide_eq_true_eq] at this
      · exact e3 k (by omega) hk2
    · rename_i hc
      refine ⟨Nat.le_refl _, h2, fun k _ _ => by omega, fun hij hlt => hc ⟨hij, ?_⟩⟩
      rw [st.Less_eq i a (by omega) ha, decide_eq_true_eq]
      exact hlt

theorem partitionDown_spec (st : SortState) (a i : Nat) :
    ∀ (j : Nat), 1 ≤ i → i ≤ j + 1 → j < st.eps.length → a < st.eps.length →
      partitionDown st a i j ≤ j ∧ i ≤ partitionDown st a i j + 1 ∧
        (∀ k, partitionDown st a i j < k → k ≤ j → st.key a ≤ st.key k) ∧
        (i ≤ partitionDown st a i j → st.key (partitionDown st a i j) < st.key a) := by
  intro j
  induction j with
  | zero =>
    intro h1 h2 _ _
    simp only [partitionDown]
    exact ⟨Nat.le_refl _, h2, fun k _ _ => by omega, fun h => by omega⟩
  | succ j ih =>
    intro h1 h2 hj ha
    unfold partitionDown
    split
    · rename_i hc
      obtain ⟨e1, e2, e3, e4⟩ := ih h1 (by omega) (by omega) ha
      refine ⟨by omega, e2, fun k hk1 hk2 => ?_, e4⟩
      by_cases hkj : k = j + 1
      · subst hkj
        have := hc.2
        rw [st.Less_eq (j + 1) a hj ha] at this
        simpa using this
      · exact e3 k hk1 (by omega)
    · rename_i hc
      refine ⟨Nat.le_refl _, by omega, fun k _ _ => by omega, fun hij => ?_⟩
      by_contra hlt
      apply hc
      refine ⟨hij, ?_⟩
      rw [st.Less_eq (j + 1) a hj ha]
      simpa using hlt

theorem partitionLoop_spec (a b : Nat) :
    ∀ (fuel : Nat) (st : SortState) (i j : Nat), j + 1 - i ≤ fuel → PartitionInv st a b i j →
      Within (a + 1) b st (partitionLoop a fuel st i j).1 ∧
        a ≤ (partitionLoop a fuel st i j).2 ∧ (partitionLoop a fuel st i j).2 < b ∧
        (partitionLoop a fuel st i j).1.key a = st.key a ∧
        (∀ k, a < k → k ≤ (partitionLoop a fuel st i j).2 →
          (partitionLoop a fuel st i j).1.key k < st.key a) ∧
        (∀ k, (partitionLoop a fuel st i j).2 < k → k < b →
          st.key a ≤ (partitionLoop a fuel st i j).1.key k) := by
  intro fuel
  induction fuel with
  | zero =>
    intro st i j hf ⟨h1, h2, h3, h4, h5, h6⟩
    simp only [partitionLoop]
    exact ⟨Within.refl _ _ _, by omega, h3, trivial, fun k hk1 hk2 => h5 k hk1 (by omega), h6⟩
  | succ fuel ih =>
    intro st i j hf ⟨h1, h2, h3, h4, h5, h6⟩
    obtain ⟨u1, u2, u3, u4⟩ := partitionUp_spec st a j (j + 1) i (by omega) h2 (by omega)
      (by omega)
    obtain ⟨d1, d2, d3, d4⟩ := partitionDown_spec st a (partitionUp st a j (j + 1) i) j
      (by omega) u2 (by omega) (by omega)
    simp only [partitionLoop]
    generalize partitionUp st a j (j + 1) i = i' at *
    generalize partitionDown st a i' j = j' at *
    split
    · rename_i hgt
      refine ⟨Within.refl _ _ _, by omega, by omega, rfl, fun k hk1 hk2 => ?_,
        fun k hk1 hk2 => ?_⟩
      · by_cases hki : k < i
        · exact h5 k hk1 hki
        · exact u3 k (by omega) (by omega)
      · by_cases hkj : k ≤ j
        · exact d3 k hk1 hkj
        · exact h6 k (by omega) hk2
    · rename_i hle
      have hle' : i' ≤ j' := by omega
      have hne : i' ≠ j' := by
        intro e
        subst e
        exact u4 (by omega) (d4 hle')
      have hk : ∀ k, (st.Swap i' j').key k =
          if k = j' then st.key i' else if k = i' then st.key j' else st.key k :=
        fun k => st.key_Swap i' j' k (by omega) (by omega)
      have hka : (st.Swap i' j').key a = st.key a := by
        rw [hk]
        have : a ≠ j' := by omega
        have : a ≠ i' := by omega
        simp [*]
      obtain ⟨w, r1, r2, r3, r4, r5⟩ := ih (st.Swap i' j') (i' + 1) (j' - 1) (by omega)
        ⟨by omega, by omega, by omega, by rw [SortState.Swap_length]; exact h4,
          fun k hk1 hk2 => by
            rw [hka, hk]
            have hkj : k ≠ j' := by omega
            by_cases hki : k = i'
            · rw [if_neg hkj, if_pos hki]
              exact d4 hle'
            · rw [if_neg hkj, if_neg hki]
              by_cases hki2 : k < i
              · exact h5 k hk1 hki2
              · exact u3 k (by omega) (by omega),
          fun k hk1 hk2 => by
            rw [hka, hk]
            by_cases hkj : k = j'
            · simp only [hkj, if_true]
              exact not_lt.mp (u4 (by omega))
            · have hki : k ≠ i' := by omega
              rw [if_neg hkj, if_neg hki]
              by_cases hkj2 : k ≤ j
              · exact d3 k (by omega) hkj2
              · exact h6 k (by omega) hk2⟩
      rw [hka] at r3 r4 r5
      exact ⟨(Within.swap (a + 1) b st i' j' (by omega) (by omega) (by omega) (by omega)).trans w,
        r1, r2, r3, r4, r5⟩

theorem partition_eq (st : SortState) (a b pivot : Nat) (hb : 1 ≤ b) :
    (partition st a b pivot).1 =
        ((partitionLoop a (b + 1) (st.Swap a pivot) (a + 1) (b - 1)).1.Swap
          (partitionLoop a (b + 1) (st.Swap a pivot) (a + 1) (b - 1)).2 a) ∧
      (partition st a b pivot).2.1 =
        (partitionLoop a (b + 1) (st.Swap a pivot) (a + 1) (b - 1)).2 := by
  have e : b - 1 + 1 = b := by omega
  simp only [partition, partitionLoop, e]
  split <;> simp

theorem partition_spec (st : SortState) (a b pivot : Nat) (ha : a ≤ pivot) (hp : pivot < b)
    (hb : b ≤ st.eps.length) :
    Within a b st (partition st a b pivot).1 ∧
      a ≤ (partition st a b pivot).2.1 ∧ (partition st a b pivot).2.1 < b ∧
      (∀ k, a ≤ k → k < (partition st a b pivot).2.1 →
        (partition st a b pivot).1.key k <
          (partition st a b pivot).1.key (partition st a b pivot).2.1) ∧
      (∀ k, (partition st a b pivot).2.1 < k → k < b →
        (partition st a b pivot).1.key (partition st a b pivot).2.1 ≤
          (partition st a b pivot).1.key k) := by
  obtain ⟨e1, e2⟩ := partition_eq st a b pivot (by omega)
  rw [e1, e2]
  obtain ⟨w, r1, r2, r3, r4, r5⟩ := partitionLoop_spec a b (b + 1) (st.Swap a pivot) (a + 1)
    (b - 1) (by omega)
    ⟨by omega, by omega, by omega, by rw [SortState.Swap_length]; exact hb,
      fun k _ _ => by omega, fun k _ _ => by omega⟩
  generalize (partitionLoop a (b + 1) (st.Swap a pivot) (a + 1) (b - 1)).1 = st1 at *
  generalize (partitionLoop a (b + 1) (st.Swap a pivot) (a + 1) (b - 1)).2 = mid at *
  have hlen : st1.eps.length = st.eps.length := by
    rw [w.length, SortState.Swap_length]
  have hk : ∀ k, (st1.Swap mid a).key k =
      if k = a then st1.key mid else if k = mid then st1.key a else st1.key k :=
    fun k => st1.key_Swap mid a k (by omega) (by omega)
  have hmid : (st1.Swap mid a).key mid = st1.key a := by
    rw [hk]
    by_cases h : mid = a
    · simp [h]
    · simp [h]
  refine ⟨?_, r1, r2, fun k hk1 hk2 => ?_, fun k hk1 hk2 => ?_⟩
  · exact ((Within.swap a b st a pivot (Nat.le_refl _) (by omega) ha hp).trans
      (w.mono (by omega) (Nat.le_refl _))).trans
      (Within.swap a b st1 mid a r1 r2 (Nat.le_refl _) (by omega))
  · rw [hmid, hk, r3]
    by_cases hka : k = a
    · simp only [hka, if_true]
      exact r4 mid (by omega) (Nat.le_refl _)
    · have hkm : k ≠ mid := by omega
      rw [if_neg hka, if_neg hkm]
      exact r4 k (by omega) (by omega)
  · rw [hmid, hk, r3]
    have hka : k ≠ a := by omega
    have hkm : k ≠ mid := by omega
    rw [if_neg hka, if_neg hkm]
    exact r5 k hk1 hk2

/-! ## `partitionEqual` -/

theorem partitionEqualUp_spec (st : SortState) (a j : Nat) :
    ∀ (fuel i : Nat), j + 1 - i ≤ fuel → i ≤ j + 1 → j < st.eps.length → a < st.eps.length →
      i ≤ partitionEqualUp st a j fuel i ∧ partitionEqualUp st a j fuel i ≤ j + 1 ∧
        (∀ k, i ≤ k → k < partitionEqualUp st a j fuel i → st.key k ≤ st.key a) ∧
        (partitionEqualUp st a j fuel i ≤ j →
          st.key a < st.key (partitionEqualUp st a j fuel i)) := by
  intro fuel
  induction fuel with
  | zero =>
    intro i h1 h2 _ _
    simp only [partitionEqualUp]
    exact ⟨Nat.le_refl _, h2, fun k _ _ => by omega, fun h => by omega⟩
  | succ fuel ih =>
    intro i h1 h2 hj ha
    unfold partitionEqualUp
    split
    · rename_i hc
      obtain ⟨e1, e2, e3, e4⟩ := ih (i + 1) (by omega) (by omega) hj ha
      refine ⟨by omega, e2, fun k hk1 hk2 => ?_, e4⟩
      by_cases hki : k = i
      · subst hki
        have := hc.2
        rw [st.Less_eq a k ha (by omega)] at this
        simpa using this
      · exact e3 k (by omega) hk2
    · rename_i hc
      refine ⟨Nat.le_refl _, h2, fun k _ _ => by omega, fun hij => ?_⟩
      by_contra hlt
      apply hc
      refine ⟨hij, ?_⟩
      rw [st.Less_eq a i ha (by omega)]
      simpa using hlt

theorem partitionEqualDown_spec (st : SortState) (a i : Nat) :
    ∀ (j : Nat), 1 ≤ i → i ≤ j + 1 → j < st.eps.length → a < st.eps.length →
      partitionEqualDown st a i j ≤ j ∧ i ≤ partitionEqualDown st a i j + 1 ∧
        (∀ k, partitionEqualDown st a i j < k → k ≤ j → st.key a < st.key k) ∧
        (i ≤ partitionEqualDown st a i j → st.key (partitionEqualDown st a i j) ≤ st.key a) := by
  intro j
  induction j with
  | zero =>
    intro h1 h2 _ _
    simp only [partitionEqualDown]
    exact ⟨Nat.le_refl _, h2, fun k _ _ => by omega, fun h => by omega⟩
  | succ j ih =>
    intro h1 h2 hj ha
    unfold partitionEqualDown
    split
    · rename_i hc
      obtain ⟨e1, e2, e3, e4⟩ := ih h1 (by omega) (by omega) ha
      refine ⟨by omega, e2, fun k hk1 hk2 => ?_, e4⟩
      by_cases hkj : k = j + 1
      · subst hkj
        have := hc.2
        rwa [st.Less_eq a (j + 1) ha hj, decide_eq_true_eq] at this
      · exact e3 k hk1 (by omega)
    · rename_i hc
      refine ⟨Nat.le_refl _, by omega, fun k _ _ => by omega, fun hij => ?_⟩
      by_contra hlt
      apply hc
      refine ⟨hij, ?_⟩
      rw [st.Less_eq a (j + 1) ha hj, decide_eq_true_eq]
      exact not_le.mp hlt

theorem partitionEqualLoop_spec (a b : Nat) :
    ∀ (fuel : Nat) (st : SortState) (i j : Nat), j + 1 - i ≤ fuel →
      PartitionEqualInv st a b i j →
      Within (a + 1) b st (partitionEqualLoop a fuel st i j).1 ∧
        a < (partitionEqualLoop a fuel st i j).2 ∧ (partitionEqualLoop a fuel st i j).2 ≤ b ∧
        (partitionEqualLoop a fuel st i j).1.key a = st.key a ∧
        (∀ k, a < k → k < (partitionEqualLoop a fuel st i j).2 →
          (partitionEqualLoop a fuel st i j).1.key k ≤ st.key a) ∧
        (∀ k, (partitionEqualLoop a fuel st i j).2 ≤ k → k < b →
          st.key a < (partitionEqualLoop a fuel st i j).1.key k) := by
  intro fuel
  induction fuel with
  | zero =>
    intro st i j hf ⟨h1, h2, h3, h4, h5, h6⟩
    simp only [partitionEqualLoop]
    exact ⟨Within.refl _ _ _, h1, by omega, trivial, h5, fun k hk1 hk2 => h6 k (by omega) hk2⟩
  | succ fuel ih =>
    intro st i j hf ⟨h1, h2, h3, h4, h5, h6⟩
    obtain ⟨u1, u2, u3, u4⟩ := partitionEqualUp_spec st a j (j + 1) i (by omega) h2 (by omega)
      (by omega)
    obtain ⟨d1, d2, d3, d4⟩ := partitionEqualDown_spec st a (partitionEqualUp st a j (j + 1) i) j
      (by omega) u2 (by omega) (by omega)
    simp only [partitionEqualLoop]
    generalize partitionEqualUp st a j (j + 1) i = i' at *
    generalize partitionEqualDown st a i' j = j' at *
    split
    · rename_i hgt
      refine ⟨Within.refl _ _ _, by omega, by omega, rfl, fun k hk1 hk2 => ?_,
        fun k hk1 hk2 => ?_⟩
      · by_cases hki : k < i
        · exact h5 k hk1 hki
        · exact u3 k (by omega) (by omega)
      · by_cases hkj : k ≤ j
        · exact d3 k (by omega) hkj
        · exact h6 k (by omega) hk2
    · rename_i hle
      have hle' : i' ≤ j' := by omega
      have hne : i' ≠ j' := by
        intro e
        subst e
        exact absurd (u4 (by omega)) (not_lt.mpr (d4 hle'))
      have hk : ∀ k, (st.Swap i' j').key k =
          if k = j' then st.key i' else if k = i' then st.key j' else st.key k :=
        fun k => st.key_Swap i' j' k (by omega) (by omega)
      have hka : (st.Swap i' j').key a = st.key a := by
        rw [hk]
        have h1 : a ≠ j' := by omega
        have h2 : a ≠ i' := by omega
        rw [if_neg h1, if_neg h2]
      obtain ⟨w, r1, r2, r3, r4, r5⟩ := ih (st.Swap i' j') (i' + 1) (j' - 1) (by omega)
        ⟨by omega, by omega, by omega, by rw [SortState.Swap_length]; exact h4,
          fun k hk1 hk2 => by
            rw [hka, hk]
            have hkj : k ≠ j' := by omega
            by_cases hki : k = i'
            · rw [if_neg hkj, if_pos hki]
              exact d4 hle'
            · rw [if_neg hkj, if_neg hki]
              by_cases hki2 : k < i
              · exact h5 k hk1 hki2
              · exact u3 k (by omega) (by omega),
          fun k hk1 hk2 => by
            rw [hka, hk]
            by_cases hkj : k = j'
            · rw [if_pos hkj]
              exact u4 (by omega)
            · have hki : k ≠ i' := by omega
              rw [if_neg hkj, if_neg hki]
              by_cases hkj2 : k ≤ j
              · exact d3 k (by omega) hkj2
              · exact h6 k (by omega) hk2⟩
      rw [hka] at r3 r4 r5
      exact ⟨(Within.swap (a + 1) b st i' j' (by omega) (by omega) (by omega) (by omega)).trans w,
        r1, r2, r3, r4, r5⟩

/-- When no entry of the range is less than the pivot, `partitionEqual` puts the
entries equal to the pivot first and the greater ones after them. -/
theorem partitionEqual_spec (st : SortState) (a b pivot : Nat) (ha : a ≤ pivot)
    (hp : pivot < b) (hb : b ≤ st.eps.length)
    (hmin : ∀ k, a ≤ k → k < b → st.key pivot ≤ st.key k) :
    Within a b st (partitionEqual st a b pivot).1 ∧
      a < (partitionEqual st a b pivot).2 ∧ (partitionEqual st a b pivot).2 ≤ b ∧
      (∀ k, a ≤ k → k < (partitionEqual st a b pivot).2 →
        (partitionEqual st a b pivot).1.key k = st.key pivot) ∧
      (∀ k, (partitionEqual st a b pivot).2 ≤ k → k < b →
        st.key pivot < (partitionEqual st a b pivot).1.key k) := by
  unfold partitionEqual
  have hk : ∀ k, (st.Swap a pivot).key k =
      if k = pivot then st.key a else if k = a then st.key pivot else st.key k :=
    fun k => st.key_Swap a pivot k (by omega) (by omega)
  have hka : (st.Swap a pivot).key a = st.key pivot := by
    rw [hk]
    by_cases h : a = pivot
    · simp [h]
    · simp [h]
  obtain ⟨w, r1, r2, r3, r4, r5⟩ := partitionEqualLoop_spec a b b (st.Swap a pivot) (a + 1)
    (b - 1) (by omega)
    ⟨by omega, by omega, by omega, by rw [SortState.Swap_length]; exact hb,
      fun k _ _ => by omega, fun k _ _ => by omega⟩
  rw [hka] at r3 r4 r5
  have w0 : Within a b st (st.Swap a pivot) :=
    Within.swap a b st a pivot (Nat.le_refl _) (by omega) ha hp
  have wall := w0.trans (w.mono (by omega) (Nat.le_refl _))
  have hmin' := (wall.frame hb).2 (fun x => st.key pivot ≤ x) hmin
  refine ⟨wall, r1, r2, fun k hk1 hk2 => ?_, r5⟩
  by_cases hka' : k = a
  · rw [hka', r3]
  · exact le_antisymm (r4 k (by omega) hk2) (hmin' k hk1 (by omega))

/-! ## Heap sort -/

theorem siftDownLoop_succ (hi first fuel root : Nat) (st : SortState) :
    siftDownLoop hi first (fuel + 1) root st =
      if 2 * root + 1 ≥ hi then st
      else if (!st.Less (first + root) (first +
          (if 2 * root + 1 + 1 < hi ∧
              st.Less (first + (2 * root + 1)) (first + (2 * root + 1) + 1)
            then 2 * root + 1 + 1 else 2 * root + 1))) = true then st
      else siftDownLoop hi first fuel
        (if 2 * root + 1 + 1 < hi ∧
            st.Less (first + (2 * root + 1)) (first + (2 * root + 1) + 1)
          then 2 * root + 1 + 1 else 2 * root + 1)
        (st.Swap (first + root) (first +
          (if 2 * root + 1 + 1 < hi ∧
              st.Less (first + (2 * root + 1)) (first + (2 * root + 1) + 1)
            then 2 * root + 1 + 1 else 2 * root + 1))) := rfl

theorem siftDownLoop_spec (hi first lo : Nat) :
    ∀ (fuel root : Nat) (st : SortState), hi - root ≤ fuel → lo ≤ root →
      first + hi ≤ st.eps.length →
      (∀ i c, lo ≤ i → i ≠ root → (c = 2 * i + 1 ∨ c = 2 * i + 2) → c < hi →
        st.key (first + c) ≤ st.key (first + i)) →
      (∀ p c, lo ≤ p → (root = 2 * p + 1 ∨ root = 2 * p + 2) →
        (c = 2 * root + 1 ∨ c = 2 * root + 2) → c < hi →
        st.key (first + c) ≤ st.key (first + p)) →
      Within (first + lo) (first + hi) st (siftDownLoop hi first fuel root st) ∧
        HeapFrom (siftDownLoop hi first fuel root st) first lo hi := by
  intro fuel
  induction fuel with
  | zero =>
    intro root st hf _ _ hA _
    simp only [siftDownLoop]
    refine ⟨Within.refl _ _ _, fun i c hi1 hc hc2 => ?_⟩
    by_cases e : i = root
    · omega
    · exact hA i c hi1 e hc hc2
  | succ fuel ih =>
    intro root st hf hlo hlen hA hB
    rw [siftDownLoop_succ]
    split
    · rename_i hstop
      refine ⟨Within.refl _ _ _, fun i c hi1 hc hc2 => ?_⟩
      by_cases e : i = root
      · omega
      · exact hA i c hi1 e hc hc2
    · rename_i hgo
      have hgo' : 2 * root + 1 < hi := by omega
      generalize hcdef : (if 2 * root + 1 + 1 < hi ∧
          st.Less (first + (2 * root + 1)) (first + (2 * root + 1) + 1) = true
        then 2 * root + 1 + 1 else 2 * root + 1) = c
      have hc : (c = 2 * root + 1 ∨ c = 2 * root + 2) ∧ c < hi ∧
          ∀ d, (d = 2 * root + 1 ∨ d = 2 * root + 2) → d < hi →
            st.key (first + d) ≤ st.key (first + c) := by
        by_cases hcond : 2 * root + 1 + 1 < hi ∧
            st.Less (first + (2 * root + 1)) (first + (2 * root + 1) + 1) = true
        · rw [if_pos hcond] at hcdef
          subst hcdef
          refine ⟨Or.inr rfl, hcond.1, fun d hd _ => ?_⟩
          have h2 := hcond.2
          rw [st.Less_eq _ _ (by omega) (by omega), decide_eq_true_eq] at h2
          rcases hd with rfl | rfl
          · exact le_of_lt h2
          · exact le_refl _
        · rw [if_neg hcond] at hcdef
          subst hcdef
          refine ⟨Or.inl rfl, hgo', fun d hd hd2 => ?_⟩
          rcases hd with rfl | rfl
          · exact le_refl _
          · have h2 : ¬ st.Less (first + (2 * root + 1)) (first + (2 * root + 1) + 1) = true :=
              fun h => hcond ⟨hd2, h⟩
            rw [st.Less_eq _ _ (by omega) (by omega), decide_eq_true_eq] at h2
            exact not_lt.mp h2
      obtain ⟨hc1, hc2, hc3⟩ := hc
      have hless := st.Less_eq (first + root) (first + c) (by omega) (by omega)
      split
      · rename_i hnl
        have hle : st.key (first + c) ≤ st.key (first + root) := by
          rw [hless] at hnl
          simpa using hnl
        refine ⟨Within.refl _ _ _, fun i d hi1 hd hd2 => ?_⟩
        by_cases e : i = root
        · subst e
          exact le_trans (hc3 d hd hd2) hle
        · exact hA i d hi1 e hd hd2
      · rename_i hl
        have hlt : st.key (first + root) < st.key (first + c) := by
          rw [hless] at hl
          simpa using hl
        have hk : ∀ k, (st.Swap (first + root) (first + c)).key k =
            if k = first + c then st.key (first + root)
            else if k = first + root then st.key (first + c) else st.key k :=
          fun k => st.key_Swap _ _ k (by omega) (by omega)
        obtain ⟨w, hp⟩ := ih c (st.Swap (first + root) (first + c)) (by omega) (by omega)
          (by rw [SortState.Swap_length]; exact hlen)
          (fun i d hi1 hic hd hd2 => by
            rw [hk, hk]
            by_cases e : i = root
            · subst e
              have e1 : first + i ≠ first + c := by omega
              rw [if_neg e1, if_pos rfl]
              by_cases e2 : d = c
              · subst e2
                rw [if_pos rfl]
                exact le_of_lt hlt
              · have e3 : first + d ≠ first + c := by omega
                have e4 : first + d ≠ first + i := by omega
                rw [if_neg e3, if_neg e4]
                exact hc3 d hd hd2
            · have e1 : first + i ≠ first + c := by omega
              have e2 : first + i ≠ first + root := by omega
              have e3 : first + d ≠ first + c := by omega
              rw [if_neg e1, if_neg e2, if_neg e3]
              by_cases e4 : d = root
              · subst e4
                rw [if_pos rfl]
                exact hB i c hi1 hd hc1 hc2
              · have e5 : first + d ≠ first + root := by omega
                rw [if_neg e5]
                exact hA i d hi1 e hd hd2)
          (fun p d hp1 hcp hd hd2 => by
            have e : p = root := by omega
            subst e
            rw [hk, hk]
            have e1 : first + p ≠ first + c := by omega
            have e3 : first + d ≠ first + c := by omega
            have e4 : first + d ≠ first + p := by omega
            rw [if_neg e1, if_pos rfl, if_neg e3, if_neg e4]
            exact hA c d (by omega) (by omega) hd hd2)
        exact ⟨(Within.swap _ _ st _ _ (by omega) (by omega) (by omega) (by omega)).trans w, hp⟩

theorem siftDown_spec (st : SortState) (lo hi first : Nat) (hlen : first + hi ≤ st.eps.length)
    (h : HeapFrom st first (lo + 1) hi) :
    Within (first + lo) (first + hi) st (siftDown st lo hi first) ∧
      HeapFrom (siftDown st lo hi first) first lo hi := by
  unfold siftDown
  exact siftDownLoop_spec hi first lo hi lo st (by omega) (Nat.le_refl _) hlen
    (fun i c hi1 hne hc hc2 => h i c (by omega) hc hc2)
    (fun p c hp1 hr _ _ => by omega)

/-- The root of a heap is its greatest entry. -/
theorem HeapFrom_root (st : SortState) (first hi : Nat) (h : HeapFrom st first 0 hi) :
    ∀ i, i < hi → st.key (first + i) ≤ st.key first := by
  intro i
  induction i using Nat.strong_induction_on with
  | _ i ih =>
    intro hi1
    by_cases e : i = 0
    · subst e
      exact le_refl _
    · have hp : i = 2 * ((i - 1) / 2) + 1 ∨ i = 2 * ((i - 1) / 2) + 2 := by omega
      exact le_trans (h ((i - 1) / 2) i (Nat.zero_le _) hp hi1)
        (ih ((i - 1) / 2) (by omega) (by omega))

theorem heapSort_build (hi first : Nat) :
    ∀ (n : Nat) (st : SortState), first + hi ≤ st.eps.length → HeapFrom st first n hi →
      Within first (first + hi) st
          (((List.range n).reverse).foldl (fun st i => siftDown st i hi first) st) ∧
        HeapFrom (((List.range n).reverse).foldl (fun st i => siftDown st i hi first) st)
          first 0 hi := by
  intro n
  induction n with
  | zero =>
    intro st _ h
    exact ⟨Within.refl _ _ _, h⟩
  | succ n ih =>
    intro st hlen h
    rw [List.range_succ, List.reverse_append, List.reverse_singleton, List.singleton_append,
      List.foldl_cons]
    obtain ⟨w1, h1⟩ := siftDown_spec st n hi first hlen h
    obtain ⟨w2, h2⟩ := ih (siftDown st n hi first) (by rw [w1.length]; exact hlen) h1
    exact ⟨(w1.mono (by omega) (Nat.le_refl _)).trans w2, h2⟩

theorem heapSort_pop (hi first : Nat) :
    ∀ (m : Nat) (st : SortState), m ≤ hi → first + hi ≤ st.eps.length →
      HeapFrom st first 0 m → SortedOn st (first + m) (first + hi) →
      (∀ x y, x < m → m ≤ y → y < hi → st.key (first + x) ≤ st.key (first + y)) →
      Within first (first + hi) st
          (((List.range m).reverse).foldl
            (fun st i => siftDown (st.Swap first (first + i)) 0 i first) st) ∧
        SortedOn (((List.range m).reverse).foldl
            (fun st i => siftDown (st.Swap first (first + i)) 0 i first) st)
          first (first + hi) := by
  intro m
  induction m with
  | zero =>
    intro st _ _ _ hs _
    exact ⟨Within.refl _ _ _, hs⟩
  | succ m ih =>
    intro st hm hlen hheap hs hcross
    rw [List.range_succ, List.reverse_append, List.reverse_singleton, List.singleton_append,
      List.foldl_cons]
    have hroot := HeapFrom_root st first (m + 1) hheap
    have hk : ∀ k, (st.Swap first (first + m)).key k =
        if k = first + m then st.key first
        else if k = first then st.key (first + m) else st.key k :=
      fun k => st.key_Swap _ _ k (by omega) (by omega)
    have hlen1 : first + hi ≤ (st.Swap first (first + m)).eps.length := by
      rw [SortState.Swap_length]; exact hlen
    have hheap1 : HeapFrom (st.Swap first (first + m)) first (0 + 1) m := by
      intro i c hi1 hc hc2
      rw [hk, hk]
      have e1 : first + c ≠ first + m := by omega
      have e2 : first + c ≠ first := by omega
      have e3 : first + i ≠ first + m := by omega
      have e4 : first + i ≠ first := by omega
      rw [if_neg e1, if_neg e2, if_neg e3, if_neg e4]
      exact hheap i c (Nat.zero_le _) hc (by omega)
    obtain ⟨w1, h1⟩ := siftDown_spec (st.Swap first (first + m)) 0 m first (by omega) hheap1
    have w1' : Within first (first + m) (st.Swap first (first + m))
        (siftDown (st.Swap first (first + m)) 0 m first) := w1
    obtain ⟨f1, f2⟩ := w1'.frame (by omega)
    have hbig : ∀ k y, first ≤ k → k < first + m → m ≤ y → y < hi →
        (st.Swap first (first + m)).key k ≤ (st.Swap first (first + m)).key (first + y) := by
      intro k y hk1 hk2 hy1 hy2
      rw [hk, hk]
      have e1 : k ≠ first + m := by omega
      have e0 : first + y ≠ first := by omega
      rw [if_neg e1]
      by_cases ey : y = m
      · subst ey
        rw [if_pos rfl]
        by_cases ek : k = first
        · rw [if_pos ek]
          exact hroot y (by omega)
        · rw [if_neg ek]
          have := hroot (k - first) (by omega)
          rwa [Nat.add_sub_cancel' hk1] at this
      · have e2 : first + y ≠ first + m := by omega
        rw [if_neg e2, if_neg e0]
        by_cases ek : k = first
        · rw [if_pos ek]
          exact hcross m y (by omega) (by omega) hy2
        · rw [if_neg ek]
          have := hcross (k - first) y (by omega) (by omega) hy2
          rwa [Nat.add_sub_cancel' hk1] at this
    obtain ⟨w2, h2⟩ := ih (siftDown (st.Swap first (first + m)) 0 m first) (by omega)
      (by rw [w1.length]; exact hlen1) h1
      (fun x y hx hxy hy => by
        rw [f1 x (by omega), f1 y (by omega), hk, hk]
        by_cases ex : x = first + m
        · rw [if_pos ex]
          by_cases ey : y = first + m
          · rw [if_pos ey]
          · have ey0 : y ≠ first := by omega
            rw [if_neg ey, if_neg ey0]
            have := hcross 0 (y - first) (by omega) (by omega) (by omega)
            rwa [Nat.add_zero, Nat.add_sub_cancel' (by omega)] at this
        · have ey : y ≠ first + m := by omega
          have ex0 : x ≠ first := by omega
          have ey0 : y ≠ first := by omega
          rw [if_neg ex, if_neg ex0, if_neg ey, if_neg ey0]
          exact hs x y (by omega) hxy hy)
      (fun x y hx hy1 hy2 => by
        rw [f1 (first + y) (by omega)]
        exact f2 (fun z => z ≤ (st.Swap first (first + m)).key (first + y))
          (fun k hk1 hk2 => hbig k y hk1 hk2 hy1 hy2) (first + x) (by omega) (by omega))
    exact ⟨((Within.swap first (first + hi) st first (first + m) (Nat.le_refl _) (by omega)
      (by omega) (by omega)).trans (w1'.mono (Nat.le_refl _) (by omega))).trans w2, h2⟩

theorem heapSort_spec (st : SortState) (a b : Nat) (hab : a ≤ b) (hb : b ≤ st.eps.length) :
    Within a b st (heapSort st a b) ∧ SortedOn (heapSort st a b) a b := by
  unfold heapSort
  have e : a + (b - a) = b := by omega
  obtain ⟨w1, h1⟩ := heapSort_build (b - a) a ((b - a - 1) / 2 + 1) st (by omega)
    (fun i c hi1 hc hc2 => by omega)
  obtain ⟨w2, h2⟩ := heapSort_pop (b - a) a (b - a) _ (Nat.le_refl _)
    (by rw [w1.length]; omega) h1
    (fun x y hx hxy hy => by omega) (fun x y hx hy1 hy2 => by omega)
  rw [e] at w1 w2 h2
  exact ⟨w1.trans w2, h2⟩

/-! ## The steps of `pdqsort` that only move entries inside the range -/

theorem Within.aboveFloor {a b : Nat} {st st' : SortState} (h : Within a b st st')
    (hb : b ≤ st.eps.length) (hf : AboveFloor st a b) : AboveFloor st' a b := by
  intro ha k hk1 hk2
  obtain ⟨f1, f2⟩ := h.frame hb
  rw [f1 (a - 1) (by omega)]
  exact f2 (fun x => st.key (a - 1) ≤ x) (hf ha) k hk1 hk2

theorem reverseRangeLoop_within (a b : Nat) :
    ∀ (fuel : Nat) (st : SortState) (i j : Nat), a ≤ i → (i < j → j < b) →
      Within a b st (reverseRangeLoop fuel st i j) := by
  intro fuel
  induction fuel with
  | zero =>
    intro st i j _ _
    exact Within.refl _ _ _
  | succ fuel ih =>
    intro st i j hi hj
    unfold reverseRangeLoop
    split
    · rename_i hlt
      exact (Within.swap a b st i j hi (by omega) (by omega) (hj hlt)).trans
        (ih _ _ _ (by omega) (fun _ => by omega))
    · exact Within.refl _ _ _

theorem reverseRange_within (st : SortState) (a b : Nat) :
    Within a b st (reverseRange st a b) :=
  reverseRangeLoop_within a b _ st a (b - 1) (Nat.le_refl _) (fun _ => by omega)

theorem bitsLenAux_le (fuel : Nat) :
    ∀ n, n ≤ fuel → 1 ≤ n → 2 ^ bitsLenAux fuel n ≤ 2 * n := by
  induction fuel with
  | zero =>
    intro n h1 h2
    omega
  | succ fuel ih =>
    intro n h1 h2
    have hn : n ≠ 0 := by omega
    simp only [bitsLenAux, if_neg hn]
    by_cases h : n / 2 = 0
    · have e : bitsLenAux fuel (n / 2) = 0 := by
        rw [h]
        cases fuel <;> simp [bitsLenAux]
      rw [e]
      omega
    · have := ih (n / 2) (by omega) (by omega)
      rw [pow_succ]
      omega

theorem nextPowerOfTwo_le (length : Nat) (h : 1 ≤ length) :
    nextPowerOfTwo length ≤ 2 * length :=
  bitsLenAux_le length length (Nat.le_refl _) h

theorem breakPatterns_within (next : Nat → Nat) (st : SortState) (a b : Nat) :
    Within a b st (breakPatterns next st a b) := by
  by_cases h8 : b - a ≥ 8
  · have hlist : List.range 3 = [0, 1, 2] := rfl
    have hmod := nextPowerOfTwo_le (b - a) (by omega)
    have hpos : 0 < nextPowerOfTwo (b - a) := Nat.pow_pos (by omega)
    have hother : ∀ r, a ≤ a + (if r % nextPowerOfTwo (b - a) ≥ b - a
        then r % nextPowerOfTwo (b - a) - (b - a) else r % nextPowerOfTwo (b - a)) ∧
        a + (if r % nextPowerOfTwo (b - a) ≥ b - a
        then r % nextPowerOfTwo (b - a) - (b - a) else r % nextPowerOfTwo (b - a)) < b := by
      intro r
      have := Nat.mod_lt r hpos
      split <;> omega
    have hdiv : 2 ≤ (b - a) / 4 := by omega
    have hdiv2 : (b - a) / 4 * 2 ≤ (b - a) / 2 := by omega
    have hidx : ∀ i, i < 3 → a ≤ a + (b - a) / 4 * 2 - 1 - 1 + i ∧
        a + (b - a) / 4 * 2 - 1 - 1 + i < b := by
      intro i hi
      omega
    simp only [breakPatterns, if_pos h8, hlist, List.foldl_cons, List.foldl_nil]
    exact ((Within.swap a b _ _ _ (hidx 0 (by omega)).1 (hidx 0 (by omega)).2
      (hother _).1 (hother _).2).trans
      (Within.swap a b _ _ _ (hidx 1 (by omega)).1 (hidx 1 (by omega)).2
      (hother _).1 (hother _).2)).trans
      (Within.swap a b _ _ _ (hidx 2 (by omega)).1 (hidx 2 (by omega)).2
      (hother _).1 (hother _).2)
  · simp only [breakPatterns, if_neg h8]
    exact Within.refl _ _ _

theorem order2_mem (st : SortState) (a b s : Nat) :
    ((order2 st a b s).1 = a ∧ (order2 st a b s).2.1 = b) ∨
      ((order2 st a b s).1 = b ∧ (order2 st a b s).2.1 = a) := by
  unfold order2
  split
  · exact Or.inr ⟨rfl, rfl⟩
  · exact Or.inl ⟨rfl, rfl⟩

theorem median_mem (st : SortState) (a b c s : Nat) :
    (median st a b c s).1 = a ∨ (median st a b c s).1 = b ∨ (median st a b c s).1 = c := by
  simp only [median, order2]
  split_ifs <;> simp

theorem choosePivot_bounds (st : SortState) (a b : Nat) (h : a < b) :
    a ≤ (choosePivot st a b).1 ∧ (choosePivot st a b).1 < b := by
  have key : ∀ res : Nat × Nat, (a ≤ res.1 ∧ res.1 < b) →
      a ≤ (if res.2 = 0 then (res.1, sortedHint.increasingHint)
        else if res.2 = 4 * 3 then (res.1, sortedHint.decreasingHint)
        else (res.1, sortedHint.unknownHint)).1 ∧
      (if res.2 = 0 then (res.1, sortedHint.increasingHint)
        else if res.2 = 4 * 3 then (res.1, sortedHint.decreasingHint)
        else (res.1, sortedHint.unknownHint)).1 < b := by
    intro res hres
    split
    · exact hres
    · split <;> exact hres
  unfold choosePivot
  apply key
  split
  · rename_i h8
    split
    · rename_i h50
      simp only [medianAdjacent]
      have m1 := median_mem st (a + (b - a) / 4 * 1 - 1) (a + (b - a) / 4 * 1)
        (a + (b - a) / 4 * 1 + 1) 0
      generalize median st (a + (b - a) / 4 * 1 - 1) (a + (b - a) / 4 * 1)
        (a + (b - a) / 4 * 1 + 1) 0 = r1 at *
      have m2 := median_mem st (a + (b - a) / 4 * 2 - 1) (a + (b - a) / 4 * 2)
        (a + (b - a) / 4 * 2 + 1) r1.2
      generalize median st (a + (b - a) / 4 * 2 - 1) (a + (b - a) / 4 * 2)
        (a + (b - a) / 4 * 2 + 1) r1.2 = r2 at *
      have m3 := median_mem st (a + (b - a) / 4 * 3 - 1) (a + (b - a) / 4 * 3)
        (a + (b - a) / 4 * 3 + 1) r2.2
      generalize median st (a + (b - a) / 4 * 3 - 1) (a + (b - a) / 4 * 3)
        (a + (b - a) / 4 * 3 + 1) r2.2 = r3 at *
      have m4 := median_mem st r1.1 r2.1 r3.1 r3.2
      generalize median st r1.1 r2.1 r3.1 r3.2 = r4 at *
      omega
    · have m := median_mem st (a + (b - a) / 4 * 1) (a + (b - a) / 4 * 2)
        (a + (b - a) / 4 * 3) 0
      omega
  · simp only
    omega

/-! ## `partialInsertionSort` -/

theorem partialScan_spec (st : SortState) (a b : Nat) :
    ∀ (fuel i : Nat), b - i ≤ fuel → a < i → i ≤ b → b ≤ st.eps.length → SortedOn st a i →
      i ≤ partialScan st b fuel i ∧ partialScan st b fuel i ≤ b ∧
        SortedOn st a (partialScan st b fuel i) := by
  intro fuel
  induction fuel with
  | zero =>
    intro i _ _ h2 _ hs
    simp only [partialScan]
    exact ⟨Nat.le_refl _, h2, hs⟩
  | succ fuel ih =>
    intro i hf h1 h2 hb hs
    unfold partialScan
    split
    · rename_i hc
      have hle : st.key (i - 1) ≤ st.key i := by
        have := hc.2
        rw [st.Less_eq i (i - 1) (by omega) (by omega)] at this
        simpa using this
      obtain ⟨e1, e2, e3⟩ := ih (i + 1) (by omega) (by omega) (by omega) hb
        (fun x y hx hxy hy => by
          by_cases hyi : y < i
          · exact hs x y hx hxy hyi
          · have e : y = i := by omega
            subst e
            by_cases hxy' : x = y
            · rw [hxy']
            · exact le_trans (hs x (y - 1) hx (by omega) (by omega)) hle)
      exact ⟨by omega, e2, e3⟩
    · exact ⟨Nat.le_refl _, h2, hs⟩

theorem partialShiftRight_within (i b : Nat) :
    ∀ (fuel j : Nat) (st : SortState), i < j →
      Within i b st (partialShiftRight b fuel j st) := by
  intro fuel
  induction fuel with
  | zero =>
    intro j st _
    exact Within.refl _ _ _
  | succ fuel ih =>
    intro j st hj
    unfold partialShiftRight
    split
    · rename_i hjb
      split
      · exact Within.refl _ _ _
      · exact (Within.swap i b st j (j - 1) (by omega) hjb (by omega) (by omega)).trans
          (ih (j + 1) _ (by omega))
    · exact Within.refl _ _ _

theorem partialInsertionSortLoop_spec (a b : Nat) :
    ∀ (steps : Nat) (st : SortState) (i : Nat), a < i → i ≤ b → b ≤ st.eps.length →
      SortedOn st a i → AboveFloor st a b →
      Within a b st (partialInsertionSortLoop a b steps st i).1 ∧
        ((partialInsertionSortLoop a b steps st i).2 = true →
          SortedOn (partialInsertionSortLoop a b steps st i).1 a b) := by
  intro steps
  induction steps with
  | zero =>
    intro st i _ _ _ _ _
    simp only [partialInsertionSortLoop]
    exact ⟨Within.refl _ _ _, fun h => by simp at h⟩
  | succ steps ih =>
    intro st i h1 h2 hb hs hfl
    obtain ⟨e1, e2, e3⟩ := partialScan_spec st a b b i (by omega) h1 h2 hb hs
    simp only [partialInsertionSortLoop]
    generalize partialScan st b b i = i' at *
    split
    · rename_i hib
      subst hib
      exact ⟨Within.refl _ _ _, fun _ => e3⟩
    · rename_i hib
      split
      · exact ⟨Within.refl _ _ _, fun h => by simp at h⟩
      · have w1 : Within a b st (st.Swap i' (i' - 1)) :=
          Within.swap a b st i' (i' - 1) (by omega) (by omega) (by omega) (by omega)
        have hk : ∀ k, (st.Swap i' (i' - 1)).key k =
            if k = i' - 1 then st.key i' else if k = i' then st.key (i' - 1) else st.key k :=
          fun k => st.key_Swap i' (i' - 1) k (by omega) (by omega)
        have hlen1 : (st.Swap i' (i' - 1)).eps.length = st.eps.length := SortState.Swap_length _ _ _
        have hfl1 := w1.aboveFloor hb hfl
        -- the smaller entry is shifted to the left
        have hleft : ∃ st2, st2 = (if i' - a ≥ 2 then insertionSortInner 0 (i' - 1)
            (st.Swap i' (i' - 1)) else st.Swap i' (i' - 1)) ∧
            Within a b (st.Swap i' (i' - 1)) st2 ∧ SortedOn st2 a i' := by
          refine ⟨_, rfl, ?_⟩
          split
          · rename_i h2'
            obtain ⟨w, s⟩ := insertionSortInner_spec 0 a (i' - 1) (i' - 1) (st.Swap i' (i' - 1))
              (Nat.zero_le _) (by omega) (Nat.le_refl _) (by omega)
              (fun ha k hk1 hk2 => hfl1 ha k hk1 (by omega))
              (fun x y hx hxy hy => by
                rw [hk, hk]
                have ex1 : x ≠ i' - 1 := by omega
                have ex2 : x ≠ i' := by omega
                have ey1 : y ≠ i' - 1 := by omega
                have ey2 : y ≠ i' := by omega
                rw [if_neg ex1, if_neg ex2, if_neg ey1, if_neg ey2]
                exact e3 x y hx hxy (by omega))
              (fun x y hx hxy hy => by
                have : x = y := by omega
                rw [this])
              (fun x y _ _ h3 h4 => by omega)
            have e : i' - 1 + 1 = i' := by omega
            rw [e] at w s
            exact ⟨w.mono (Nat.le_refl _) (by omega), s⟩
          · refine ⟨Within.refl _ _ _, fun x y hx hxy hy => ?_⟩
            have : x = y := by omega
            rw [this]
        obtain ⟨st2, hst2, w2, s2⟩ := hleft
        rw [← hst2]
        have hlen2 : st2.eps.length = st.eps.length := by rw [w2.length, hlen1]
        -- the greater entry is shifted to the right
        have hright : ∃ st3, st3 = (if b - i' ≥ 2 then partialShiftRight b b (i' + 1) st2
            else st2) ∧ Within i' b st2 st3 := by
          refine ⟨_, rfl, ?_⟩
          split
          · exact partialShiftRight_within i' b b (i' + 1) st2 (by omega)
          · exact Within.refl _ _ _
        obtain ⟨st3, hst3, w3⟩ := hright
        rw [← hst3]
        have w13 : Within a b st st3 := (w1.trans w2).trans (w3.mono (by omega) (Nat.le_refl _))
        obtain ⟨f1, _⟩ := w3.frame (by omega)
        obtain ⟨w4, s4⟩ := ih st3 i' (by omega) e2 (by rw [w13.length]; exact hb)
          (fun x y hx hxy hy => by
            rw [f1 x (by omega), f1 y (by omega)]
            exact s2 x y hx hxy hy)
          (w13.aboveFloor hb hfl)
        exact ⟨w13.trans w4, s4⟩

theorem partialInsertionSort_spec (st : SortState) (a b : Nat) (hab : a < b)
    (hb : b ≤ st.eps.length) (hfl : AboveFloor st a b) :
    Within a b st (partialInsertionSort st a b).1 ∧
      ((partialInsertionSort st a b).2 = true → SortedOn (partialInsertionSort st a b).1 a b) := by
  unfold partialInsertionSort
  exact partialInsertionSortLoop_spec a b 5 st (a + 1) (by omega) (by omega) hb
    (fun x y hx hxy hy => by
      have : x = y := by omega
      rw [this])
    hfl

/-! ## `pdqsort` -/

theorem SortedOn_join (st : SortState) (a mid b : Nat) (h1 : SortedOn st a mid)
    (h2 : SortedOn st (mid + 1) b) (hl : ∀ k, a ≤ k → k < mid → st.key k ≤ st.key mid)
    (hr : ∀ k, mid < k → k < b → st.key mid ≤ st.key k) : SortedOn st a b := by
  intro x y hx hxy hy
  by_cases hym : y < mid
  · exact h1 x y hx hxy hym
  · by_cases hxm : mid < x
    · exact h2 x y (by omega) hxy hy
    · by_cases e1 : x = mid
      · by_cases e2 : y = mid
        · rw [e1, e2]
        · rw [e1]
          exact hr y (by omega) hy
      · by_cases e2 : y = mid
        · rw [e2]
          exact hl x hx (by omega)
        · exact le_trans (hl x hx (by omega)) (hr y (by omega) hy)

theorem Within.two {st3 st4 st5 : SortState} {a1 b1 a2 b2 : Nat} (hd : b1 ≤ a2 ∨ b2 ≤ a1)
    (w1 : Within a1 b1 st3 st4) (w2 : Within a2 b2 st4 st5) (hb1 : b1 ≤ st3.eps.length)
    (hb2 : b2 ≤ st3.eps.length) :
    (∀ k, (k < a1 ∨ b1 ≤ k) → (k < a2 ∨ b2 ≤ k) → st5.key k = st3.key k) ∧
      (∀ P : List Char → Prop, (∀ k, a1 ≤ k → k < b1 → P (st3.key k)) →
        ∀ k, a1 ≤ k → k < b1 → P (st5.key k)) ∧
      (∀ P : List Char → Prop, (∀ k, a2 ≤ k → k < b2 → P (st3.key k)) →
        ∀ k, a2 ≤ k → k < b2 → P (st5.key k)) ∧
      (SortedOn st4 a1 b1 → SortedOn st5 a1 b1) := by
  obtain ⟨f1, g1⟩ := w1.frame hb1
  obtain ⟨f2, g2⟩ := w2.frame (by rw [w1.length]; exact hb2)
  refine ⟨fun k h1 h2 => by rw [f2 k h2, f1 k h1], fun P hP k hk1 hk2 => ?_,
    fun P hP k hk1 hk2 => ?_, fun hs x y hx hxy hy => ?_⟩
  · rw [f2 k (by omega)]
    exact g1 P hP k hk1 hk2
  · refine g2 P (fun k hk1 hk2 => ?_) k hk1 hk2
    rw [f1 k (by omega)]
    exact hP k hk1 hk2
  · rw [f2 x (by omega), f2 y (by omega)]
    exact hs x y hx hxy hy

theorem pdqsortChoose_spec (next : Nat → Nat) (st : SortState) (a b : Nat)
    (wasBalanced wasPartitioned : Bool) (hab : a < b) (hb : b ≤ st.eps.length)
    (hfl : AboveFloor st a b) :
    Within a b st (pdqsortChoose next st a b wasBalanced wasPartitioned).1 ∧
      a ≤ (pdqsortChoose next st a b wasBalanced wasPartitioned).2.1 ∧
      (pdqsortChoose next st a b wasBalanced wasPartitioned).2.1 < b ∧
      ((pdqsortChoose next st a b wasBalanced wasPartitioned).2.2 = true →
        SortedOn (pdqsortChoose next st a b wasBalanced wasPartitioned).1 a b) := by
  have w1 : Within a b st (if (!wasBalanced) = true then breakPatterns next st a b else st) := by
    split
    · exact breakPatterns_within next st a b
    · exact Within.refl _ _ _
  simp only [pdqsortChoose]
  generalize (if (!wasBalanced) = true then breakPatterns next st a b else st) = st1 at *
  have hc := choosePivot_bounds st1 a b hab
  generalize choosePivot st1 a b = chosen at *
  have w2 : Within a b st1
      (if chosen.2 = sortedHint.decreasingHint then reverseRange st1 a b else st1) := by
    split
    · exact reverseRange_within st1 a b
    · exact Within.refl _ _ _
  have hp : a ≤ (if chosen.2 = sortedHint.decreasingHint then b - 1 - (chosen.1 - a)
      else chosen.1) ∧ (if chosen.2 = sortedHint.decreasingHint then b - 1 - (chosen.1 - a)
      else chosen.1) < b := by
    split <;> omega
  generalize (if chosen.2 = sortedHint.decreasingHint then reverseRange st1 a b else st1) =
    st2 at *
  generalize (if chosen.2 = sortedHint.decreasingHint then b - 1 - (chosen.1 - a)
    else chosen.1) = pivot at *
  have w12 := w1.trans w2
  generalize (if chosen.2 = sortedHint.decreasingHint then sortedHint.increasingHint
    else chosen.2) = hint
  by_cases hcnd : (wasBalanced && wasPartitioned &&
      decide (hint = sortedHint.increasingHint)) = true
  · rw [if_pos hcnd]
    obtain ⟨w3, s3⟩ := partialInsertionSort_spec st2 a b hab (by rw [w12.length]; exact hb)
      (w12.aboveFloor hb hfl)
    exact ⟨w12.trans w3, hp.1, hp.2, s3⟩
  · rw [if_neg hcnd]
    exact ⟨w12, hp.1, hp.2, fun h => by simp at h⟩

theorem pdqsort_succ (next : Nat → Nat) (fuel : Nat) (st : SortState) (a b limit : Nat)
    (wasBalanced wasPartitioned : Bool) :
    pdqsort next (fuel + 1) st a b limit wasBalanced wasPartitioned =
      if b - a ≤ 12 then insertionSort st a b
      else if limit = 0 then heapSort st a b
      else if (pdqsortChoose next st a b wasBalanced wasPartitioned).2.2 = true then
        (pdqsortChoose next st a b wasBalanced wasPartitioned).1
      else if a > 0 ∧ (!(pdqsortChoose next st a b wasBalanced wasPartitioned).1.Less (a - 1)
          (pdqsortChoose next st a b wasBalanced wasPartitioned).2.1) = true then
        pdqsort next fuel
          (partitionEqual (pdqsortChoose next st a b wasBalanced wasPartitioned).1 a b
            (pdqsortChoose next st a b wasBalanced wasPartitioned).2.1).1
          (partitionEqual (pdqsortChoose next st a b wasBalanced wasPartitioned).1 a b
            (pdqsortChoose next st a b wasBalanced wasPartitioned).2.1).2
          b (if (!wasBalanced) = true then limit - 1 else limit) wasBalanced wasPartitioned
      else if (partition (pdqsortChoose next st a b wasBalanced wasPartitioned).1 a b
            (pdqsortChoose next st a b wasBalanced wasPartitioned).2.1).2.1 - a <
          b - (partition (pdqsortChoose next st a b wasBalanced wasPartitioned).1 a b
            (pdqsortChoose next st a b wasBalanced wasPartitioned).2.1).2.1 then
        pdqsort next fuel
          (pdqsort next fuel
            (partition (pdqsortChoose next st a b wasBalanced wasPartitioned).1 a b
              (pdqsortChoose next st a b wasBalanced wasPartitioned).2.1).1
            a
            (partition (pdqsortChoose next st a b wasBalanced wasPartitioned).1 a b
              (pdqsortChoose next st a b wasBalanced wasPartitioned).2.1).2.1
            (if (!wasBalanced) = true then limit - 1 else limit) true true)
          ((partition (pdqsortChoose next st a b wasBalanced wasPartitioned).1 a b
              (pdqsortChoose next st a b wasBalanced wasPartitioned).2.1).2.1 + 1)
          b (if (!wasBalanced) = true then limit - 1 else limit)
          (decide ((partition (pdqsortChoose next st a b wasBalanced wasPartitioned).1 a b
              (pdqsortChoose next st a b wasBalanced wasPartitioned).2.1).2.1 - a ≥ (b - a) / 8))
          (partition (pdqsortChoose next st a b wasBalanced wasPartitioned).1 a b
              (pdqsortChoose next st a b wasBalanced wasPartitioned).2.1).2.2
      else
        pdqsort next fuel
          (pdqsort next fuel
            (partition (pdqsortChoose next st a b wasBalanced wasPartitioned).1 a b
              (pdqsortChoose next st a b wasBalanced wasPartitioned).2.1).1
            ((partition (pdqsortChoose next st a b wasBalanced wasPartitioned).1 a b
              (pdqsortChoose next st a b wasBalanced wasPartitioned).2.1).2.1 + 1)
            b (if (!wasBalanced) = true then limit - 1 else limit) true true)
          a
          (partition (pdqsortChoose next st a b wasBalanced wasPartitioned).1 a b
              (pdqsortChoose next st a b wasBalanced wasPartitioned).2.1).2.1
          (if (!wasBalanced) = true then limit - 1 else limit)
          (decide (b - (partition (pdqsortChoose next st a b wasBalanced wasPartitioned).1 a b
              (pdqsortChoose next st a b wasBalanced wasPartitioned).2.1).2.1 ≥ (b - a) / 8))
          (partition (pdqsortChoose next st a b wasBalanced wasPartitioned).1 a b
              (pdqsortChoose next st a b wasBalanced wasPartitioned).2.1).2.2 := rfl

theorem pdqsort_spec (next : Nat → Nat) :
    ∀ (fuel : Nat) (st : SortState) (a b limit : Nat) (wasBalanced wasPartitioned : Bool),
      b - a < fuel → a ≤ b → b ≤ st.eps.length → AboveFloor st a b →
      Within a b st (pdqsort next fuel st a b limit wasBalanced wasPartitioned) ∧
        SortedOn (pdqsort next fuel st a b limit wasBalanced wasPartitioned) a b := by
  intro fuel
  induction fuel with
  | zero =>
    intro st a b limit wb wp hf
    omega
  | succ fuel ih =>
    intro st a b limit wb wp hf hab hb hfl
    rw [pdqsort_succ]
    split
    · exact insertionSort_spec st a b hb
    · rename_i h12
      split
      · exact heapSort_spec st a b hab hb
      · rename_i hlimit
        obtain ⟨wc, hp1, hp2, hsorted⟩ := pdqsortChoose_spec next st a b wb wp (by omega) hb hfl
        generalize pdqsortChoose next st a b wb wp = chosen at *
        generalize (if (!wb) = true then limit - 1 else limit) = limit1
        have hlen2 : chosen.1.eps.length = st.eps.length := wc.length
        have hb2 : b ≤ chosen.1.eps.length := by omega
        have hfl2 : AboveFloor chosen.1 a b := wc.aboveFloor hb hfl
        split
        · rename_i hdone
          exact ⟨wc, hsorted hdone⟩
        · split
          · rename_i hcond
            obtain ⟨ha0, hnl⟩ := hcond
            have hle : chosen.1.key chosen.2.1 ≤ chosen.1.key (a - 1) := by
              rw [chosen.1.Less_eq (a - 1) chosen.2.1 (by omega) (by omega)] at hnl
              simpa using hnl
            obtain ⟨we, e1, e2, e3, e4⟩ := partitionEqual_spec chosen.1 a b chosen.2.1 hp1 hp2
              hb2 (fun k hk1 hk2 => le_trans hle (hfl2 ha0 k hk1 hk2))
            generalize partitionEqual chosen.1 a b chosen.2.1 = eq at *
            have hb3 : b ≤ eq.1.eps.length := by rw [we.length]; exact hb2
            obtain ⟨wr, sr⟩ := ih eq.1 eq.2 b limit1 wb wp (by omega) e2 hb3
              (fun _ k hk1 hk2 => by
                rw [e3 (eq.2 - 1) (by omega) (by omega)]
                exact le_of_lt (e4 k hk1 hk2))
            obtain ⟨f1, f2⟩ := wr.frame hb3
            refine ⟨(wc.trans we).trans (wr.mono (by omega) (Nat.le_refl _)),
              fun x y hx hxy hy => ?_⟩
            by_cases hxm : eq.2 ≤ x
            · exact sr x y hxm hxy hy
            · rw [f1 x (by omega), e3 x hx (by omega)]
              by_cases hym : eq.2 ≤ y
              · exact le_of_lt (f2 (fun z => chosen.1.key chosen.2.1 < z) e4 y hym hy)
              · rw [f1 y (by omega), e3 y (by omega) (by omega)]
          · obtain ⟨wpart, p1, p2, p3, p4⟩ := partition_spec chosen.1 a b chosen.2.1 hp1 hp2 hb2
            generalize partition chosen.1 a b chosen.2.1 = part at *
            have hb3 : b ≤ part.1.eps.length := by rw [wpart.length]; exact hb2
            have hfl3 : AboveFloor part.1 a b := wpart.aboveFloor hb2 hfl2
            have p4' : ∀ k, part.2.1 + 1 ≤ k → k < b → part.1.key part.2.1 ≤ part.1.key k :=
              fun k hk1 hk2 => p4 k (by omega) hk2
            have hflR : AboveFloor part.1 (part.2.1 + 1) b := by
              intro _ k hk1 hk2
              rw [Nat.add_sub_cancel]
              exact p4' k hk1 hk2
            have hflL : AboveFloor part.1 a part.2.1 :=
              fun ha k hk1 hk2 => hfl3 ha k hk1 (by omega)
            split
            · obtain ⟨wL, sL⟩ := ih part.1 a part.2.1 limit1 true true (by omega) p1 (by omega)
                hflL
              generalize pdqsort next fuel part.1 a part.2.1 limit1 true true = stL at *
              obtain ⟨fL, _⟩ := wL.frame (by omega)
              obtain ⟨wR, sR⟩ := ih stL (part.2.1 + 1) b limit1
                (decide (part.2.1 - a ≥ (b - a) / 8)) part.2.2 (by omega) (by omega)
                (by rw [wL.length]; exact hb3)
                (fun _ k hk1 hk2 => by
                  rw [Nat.add_sub_cancel, fL part.2.1 (by omega), fL k (by omega)]
                  exact p4' k hk1 hk2)
              obtain ⟨t1, t2, t3, t4⟩ := Within.two (Or.inl (Nat.le_succ _)) wL wR (by omega) hb3
              refine ⟨((wc.trans wpart).trans (wL.mono (Nat.le_refl _) (by omega))).trans
                (wR.mono (by omega) (Nat.le_refl _)), ?_⟩
              refine SortedOn_join _ a part.2.1 b (t4 sL) sR (fun k hk1 hk2 => ?_)
                (fun k hk1 hk2 => ?_)
              · rw [t1 part.2.1 (by omega) (by omega)]
                exact le_of_lt (t2 (fun z => z < part.1.key part.2.1) p3 k hk1 hk2)
              · rw [t1 part.2.1 (by omega) (by omega)]
                exact t3 (fun z => part.1.key part.2.1 ≤ z) p4' k (by omega) hk2
            · obtain ⟨wR, sR⟩ := ih part.1 (part.2.1 + 1) b limit1 true true (by omega) (by omega)
                hb3 hflR
              generalize pdqsort next fuel part.1 (part.2.1 + 1) b limit1 true true = stR at *
              obtain ⟨fR, _⟩ := wR.frame hb3
              obtain ⟨wL, sL⟩ := ih stR a part.2.1 limit1
                (decide (b - part.2.1 ≥ (b - a) / 8)) part.2.2 (by omega) p1
                (by rw [wR.length]; omega)
                (fun ha k hk1 hk2 => by
                  rw [fR (a - 1) (by omega), fR k (by omega)]
                  exact hflL ha k hk1 hk2)
              obtain ⟨t1, t2, t3, t4⟩ := Within.two (Or.inr (Nat.le_succ _)) wR wL hb3 (by omega)
              refine ⟨((wc.trans wpart).trans (wR.mono (by omega) (Nat.le_refl _))).trans
                (wL.mono (Nat.le_refl _) (by omega)), ?_⟩
              refine SortedOn_join _ a part.2.1 b sL (t4 sR) (fun k hk1 hk2 => ?_)
                (fun k hk1 hk2 => ?_)
              · rw [t1 part.2.1 (by omega) (by omega)]
                exact le_of_lt (t3 (fun z => z < part.1.key part.2.1) p3 k hk1 hk2)
              · rw [t1 part.2.1 (by omega) (by omega)]
                exact t2 (fun z => part.1.key part.2.1 ≤ z) p4' k (by omega) hk2

/-! ## The loops of the sort end before their fuel does -/

/-- More turns than `j - i` change nothing in the loop of `reverseRange`. -/
theorem reverseRangeLoop_fuel :
    ∀ (fuel : Nat) (st : SortState) (i j : Nat), j - i ≤ fuel →
      reverseRangeLoop (fuel + 1) st i j = reverseRangeLoop fuel st i j := by
  intro fuel
  induction fuel with
  | zero =>
    intro st i j h
    have : ¬ i < j := by omega
    simp [reverseRangeLoop, this]
  | succ fuel ih =>
    intro st i j h
    show (if i < j then reverseRangeLoop (fuel + 1) (st.Swap i j) (i + 1) (j - 1) else st) =
      (if i < j then reverseRangeLoop fuel (st.Swap i j) (i + 1) (j - 1) else st)
    split
    · exact ih _ _ _ (by omega)
    · rfl

/-- More turns than `b - i` change nothing in the scan of `partialInsertionSort`. -/
theorem partialScan_fuel (st : SortState) (b : Nat) :
    ∀ (fuel i : Nat), b - i ≤ fuel → partialScan st b (fuel + 1) i = partialScan st b fuel i := by
  intro fuel
  induction fuel with
  | zero =>
    intro i h
    have : ¬ i < b := by omega
    simp [partialScan, this]
  | succ fuel ih =>
    intro i h
    show (if i < b ∧ (!st.Less i (i - 1)) = true then partialScan st b (fuel + 1) (i + 1)
        else i) =
      (if i < b ∧ (!st.Less i (i - 1)) = true then partialScan st b fuel (i + 1) else i)
    split
    · exact ih _ (by omega)
    · rfl

/-- More turns than `b - j` change nothing in the loop of `partialInsertionSort` that
shifts the greater entry to the right. -/
theorem partialShiftRight_fuel (b : Nat) :
    ∀ (fuel j : Nat) (st : SortState), b - j ≤ fuel →
      partialShiftRight b (fuel + 1) j st = partialShiftRight b fuel j st := by
  intro fuel
  induction fuel with
  | zero =>
    intro j st h
    have : ¬ j < b := by omega
    simp [partialShiftRight, this]
  | succ fuel ih =>
    intro j st h
    show (if j < b then
        if (!st.Less j (j - 1)) = true then st
        else partialShiftRight b (fuel + 1) (j + 1) (st.Swap j (j - 1))
      else st) =
      (if j < b then
        if (!st.Less j (j - 1)) = true then st
        else partialShiftRight b fuel (j + 1) (st.Swap j (j - 1))
      else st)
    split
    · split
      · rfl
      · exact ih _ _ (by omega)
    · rfl

/-! ## Go's `sort.Sort` keeps its contract -/

/-- On every array, whatever the pseudo-random generator, `sort.Sort` swaps inside
the array only and leaves it in ascending order. -/
theorem goSort_sorts (next : Nat → Nat) (eps : List String) :
    (∀ p ∈ goSort next eps, p.1 < eps.length ∧ p.2 < eps.length) ∧
      ∀ i j, i ≤ j → j < eps.length →
        (((goSort next eps).foldl (fun l p => swapAt l p.1 p.2) eps).getD i "").toList ≤
          (((goSort next eps).foldl (fun l p => swapAt l p.1 p.2) eps).getD j "").toList := by
  by_cases hn : eps.length ≤ 1
  · simp only [goSort, if_pos hn]
    refine ⟨fun p hp => by simp at hp, fun i j hij hj => ?_⟩
    have : i = j := by omega
    rw [this]
  · obtain ⟨⟨ws, hw, hsw, hep⟩, hs⟩ := pdqsort_spec next (eps.length + 1) ⟨eps, []⟩ 0 eps.length
      (bitsLen eps.length) true true (by omega) (Nat.zero_le _) (Nat.le_refl _)
      (fun h => absurd h (Nat.lt_irrefl 0))
    simp only [List.nil_append] at hsw hep
    simp only [goSort, if_neg hn, hsw]
    refine ⟨fun p hp => ?_, fun i j hij hj => ?_⟩
    · have := hw p hp
      exact ⟨this.2.1, this.2.2.2⟩
    · have := hs i j (Nat.zero_le _) hij hj
      simp only [SortState.key, hep] at this
      exact this

theorem goSort_contract (next : Nat → Nat) (s : dataWithEndpoints) :
    SortContract (goSort next) s := by
  obtain ⟨h1, h2⟩ := goSort_sorts next s.endpoints
  refine ⟨h1, fun j hj i hij => ?_⟩
  have hlen : (sortSort (goSort next) s).endpoints.length = s.endpoints.length :=
    sortSort_endpoints_length _ _
  have hj' : j < (sortSort (goSort next) s).endpoints.length := hj
  have := h2 i j (Nat.le_of_lt hij) (by omega)
  rw [← sortSort_endpoints_eq] at this
  simp only [dataWithEndpoints.Less, List.getElem?_eq_getElem hj',
    List.getElem?_eq_getElem (Nat.lt_trans hij hj'), Option.some.injEq]
  simp only [List.getD_eq_getElem?_getD, List.getElem?_eq_getElem hj',
    List.getElem?_eq_getElem (Nat.lt_trans hij hj'), Option.getD_some] at this
  simp only [stringLess, decide_eq_false_iff_not, not_lt]
  exact this

/-- After a balanced partition `pdqsort` does not call `breakPatterns`: the generator
is not used. -/
theorem pdqsortChoose_balanced (next : Nat → Nat) (st : SortState) (a b : Nat)
    (wasPartitioned : Bool) :
    pdqsortChoose next st a b true wasPartitioned =
      pdqsortChoose (fun r => r) st a b true wasPartitioned := rfl

theorem pdqsort_short (next : Nat → Nat) (fuel : Nat) (st : SortState) (a b limit : Nat)
    (wasBalanced wasPartitioned : Bool) (h : b - a ≤ 12) :
    pdqsort next (fuel + 1) st a b limit wasBalanced wasPartitioned = insertionSort st a b := by
  rw [pdqsort_succ, if_pos h]

/-- What `sort.Sort` does on eleven equal endpoints followed by two lesser ones: the
pivot is the entry at 6, `partition` makes four swaps, and the two insertion sorts
that follow make none. -/
theorem goSort_tied (next : Nat → Nat) :
    goSort next [":5552", ":5552", ":5552", ":5552", ":5552", ":5552", ":5552", ":5552",
        ":5552", ":5552", ":5552", ":5551", ":5551"] =
      [(0, 6), (1, 12), (2, 11), (2, 0)] := by
  have hchoose : pdqsortChoose (fun r => r)
      ⟨[":5552", ":5552", ":5552", ":5552", ":5552", ":5552", ":5552", ":5552",
        ":5552", ":5552", ":5552", ":5551", ":5551"], []⟩ 0 13 true true =
      (⟨[":5552", ":5552", ":5552", ":5552", ":5552", ":5552", ":5552", ":5552",
        ":5552", ":5552", ":5552", ":5551", ":5551"], []⟩, 6, false) := by decide
  have hpart : partition
      ⟨[":5552", ":5552", ":5552", ":5552", ":5552", ":5552", ":5552", ":5552",
        ":5552", ":5552", ":5552", ":5551", ":5551"], []⟩ 0 13 6 =
      (⟨[":5551", ":5551", ":5552", ":5552", ":5552", ":5552", ":5552", ":5552",
        ":5552", ":5552", ":5552", ":5552", ":5552"], [(0, 6), (1, 12), (2, 11), (2, 0)]⟩,
        2, false) := by decide
  have hleft : insertionSort
      ⟨[":5551", ":5551", ":5552", ":5552", ":5552", ":5552", ":5552", ":5552",
        ":5552", ":5552", ":5552", ":5552", ":5552"], [(0, 6), (1, 12), (2, 11), (2, 0)]⟩ 0 2 =
      ⟨[":5551", ":5551", ":5552", ":5552", ":5552", ":5552", ":5552", ":5552",
        ":5552", ":5552", ":5552", ":5552", ":5552"], [(0, 6), (1, 12), (2, 11), (2, 0)]⟩ := by
    decide
  have hright : insertionSort
      ⟨[":5551", ":5551", ":5552", ":5552", ":5552", ":5552", ":5552", ":5552",
        ":5552", ":5552", ":5552", ":5552", ":5552"], [(0, 6), (1, 12), (2, 11), (2, 0)]⟩ 3 13 =
      ⟨[":5551", ":5551", ":5552", ":5552", ":5552", ":5552", ":5552", ":5552",
        ":5552", ":5552", ":5552", ":5552", ":5552"], [(0, 6), (1, 12), (2, 11), (2, 0)]⟩ := by
    decide
  have hlen : ([":5552", ":5552", ":5552", ":5552", ":5552", ":5552", ":5552", ":5552",
      ":5552", ":5552", ":5552", ":5551", ":5551"] : List String).length = 13 := rfl
  have hbits : bitsLen 13 = 4 := by decide
  simp only [goSort, hlen, hbits]
  rw [if_neg (by decide), pdqsort_succ, if_neg (by decide), if_neg (by decide),
    pdqsortChoose_balanced, hchoose]
  simp only [hpart]
  rw [if_neg (by decide), if_neg (by decide), if_pos (by decide),
    pdqsort_short next 12 _ 0 2 _ true true (by decide), hleft,
    pdqsort_short next 12 _ 3 13 _ _ _ (by decide), hright]

theorem tied_resolves : RingResolves demoExchange tiedData := by
  intro i hi
  have hi' : i < 13 := hi
  interval_cases i
  all_goals first
    | exact ⟨"bob", ":5552", by decide, rfl⟩
    | exact ⟨"cid", ":5551", by decide, rfl⟩

/-! ## Runs are determined by the array -/

theorem IsRun_unique (eps : List String) (lo hi hi' : Nat) (h : IsRun eps lo hi)
    (h' : IsRun eps lo hi') : hi = hi' := by
  obtain ⟨h1, h2, h3, h4⟩ := h
  obtain ⟨h1', h2', h3', h4'⟩ := h'
  rcases Nat.lt_trichotomy hi hi' with hlt | heq | hgt
  · exact absurd (h3' hi (by omega) hlt) (h4 (by omega))
  · exact heq
  · exact absurd (h3 hi' (by omega) hgt) (h4' (by omega))

theorem RunChain_initial (eps : List String) (ps qs : List (Nat × Nat)) (a b c : Nat)
    (h : RunChain eps a ps b) (h' : RunChain eps a qs c) (hlen : ps.length ≤ qs.length) :
    ∃ rest, qs = ps ++ rest ∧ RunChain eps b rest c := by
  induction ps generalizing a qs with
  | nil =>
    simp only [RunChain] at h
    subst h
    exact ⟨qs, rfl, h'⟩
  | cons p ps ih =>
    cases qs with
    | nil => simp at hlen
    | cons q qs =>
      obtain ⟨h1, h2, h3⟩ := h
      obtain ⟨h1', h2', h3'⟩ := h'
      obtain ⟨pl, pr⟩ := p
      obtain ⟨ql, qr⟩ := q
      simp only at h1 h2 h3 h1' h2' h3'
      subst h1 h1'
      have := IsRun_unique eps _ _ _ h2 h2'
      subst this
      obtain ⟨rest, e, hr⟩ := ih _ _ h3 h3' (by simpa using hlen)
      exact ⟨rest, by rw [e]; rfl, hr⟩

theorem Sends_eq (ex : exchange) (s : dataWithEndpoints) (ps : List (Nat × Nat))
    (ms : List Sent) (h : Sends ex s ps ms) (hall : ∀ m ∈ ms, m.err = none) :
    ms = ps.map (fun p => ⟨p.1, p.2, (s.endpoints[p.1]?).getD "", s.data.Slice p.1 p.2, none⟩) := by
  obtain ⟨hlen, hs⟩ := h
  apply List.ext_getElem?
  intro i
  rw [List.getElem?_map]
  by_cases hi : i < ms.length
  · have h1 : ms[i]? = some ms[i] := List.getElem?_eq_getElem hi
    have h2 : ps[i]? = some ps[i] := List.getElem?_eq_getElem (hlen ▸ hi)
    obtain ⟨e1, e2, e3, e4, _⟩ := hs i _ _ h2 h1
    have e5 := hall _ (List.getElem_mem hi)
    rw [h1, h2]
    simp only [Option.map_some', Option.some.injEq, e3, Option.getD_some]
    rcases hm : ms[i] with ⟨lo, hi', d, pl, er⟩
    rw [hm] at e1 e2 e4 e5
    simp only at e1 e2 e4 e5
    subst e1 e2 e4 e5
    rfl
  · rw [List.getElem?_eq_none (by omega), List.getElem?_eq_none (by omega)]
    rfl

theorem Sends_lookup (ex : exchange) (s : dataWithEndpoints) (ps : List (Nat × Nat))
    (ms : List Sent) (h : Sends ex s ps ms) (p : Nat × Nat) (hp : p ∈ ps) (d : String)
    (hd : s.endpoints[p.1]? = some d) : ∃ enc, ex.encsByKey.lookup d = some enc := by
  obtain ⟨hlen, hs⟩ := h
  obtain ⟨i, hi⟩ := List.getElem?_of_mem hp
  have hilt : i < ms.length := hlen ▸ (List.getElem?_eq_some.mp hi).1
  obtain ⟨_, _, e3, _, enc, e5, _⟩ := hs i p _ hi (List.getElem?_eq_getElem hilt)
  rw [hd, Option.some.injEq] at e3
  subst e3
  exact ⟨enc, e5⟩

theorem RunChain_unsnoc (eps : List String) (ps : List (Nat × Nat)) (a lo hi c : Nat)
    (h : RunChain eps a (ps ++ [(lo, hi)]) c) :
    RunChain eps a ps lo ∧ IsRun eps lo hi ∧ c = hi := by
  induction ps generalizing a with
  | nil =>
    obtain ⟨h1, h2, h3⟩ := h
    simp only [RunChain] at h3
    exact ⟨h1.symm, h2, h3.symm⟩
  | cons p ps ih =>
    obtain ⟨h1, h2, h3⟩ := h
    obtain ⟨e1, e2, e3⟩ := ih _ h3
    exact ⟨⟨h1, h2, e1⟩, e2, e3⟩

theorem LoopPost_missing (ex : exchange) (s : dataWithEndpoints) (status : Status)
    (slices : List (Nat × Nat)) (encodes : List Sent)
    (h : LoopPost ex s status slices encodes) (ps : List (Nat × Nat)) (lo hi : Nat)
    (hr : ReachesMissing ex s ps lo hi) :
    status = Status.returned (some (GoError.errorf "no matching node found")) ∧
      slices = ps ++ [(lo, hi)] ∧ Sends ex s ps encodes ∧ ∀ m ∈ encodes, m.err = none := by
  obtain ⟨hchain, ⟨d, hd, hnone⟩, hok⟩ := hr
  obtain ⟨hps, hrun, _⟩ := RunChain_unsnoc _ _ _ _ _ _ hchain
  obtain ⟨b, hb, hcases⟩ := h
  have hQ : (ps ++ [(lo, hi)]).length = ps.length + 1 := by simp
  have hnot : ∀ qs, Sends ex s qs encodes → (lo, hi) ∉ qs := by
    intro qs hs hmem
    obtain ⟨enc, he⟩ := Sends_lookup ex s qs encodes hs (lo, hi) hmem d hd
    rw [hnone] at he
    simp at he
  have hlong : ∀ qs c, RunChain s.endpoints 0 qs c → ps.length < qs.length → (lo, hi) ∈ qs := by
    intro qs c hqs hlt
    obtain ⟨rest, e, _⟩ := RunChain_initial _ _ _ _ _ _ hchain hqs (by omega)
    rw [e]
    simp
  rcases hcases with ⟨_, hbn, hs, _⟩ | ⟨hst, ps', lo', hi', d', hsl, hs, hall, hd', hl'⟩ |
      ⟨e, ms, m, _, hms, hme, _, hs⟩
  · exfalso
    rcases Nat.lt_or_ge ps.length slices.length with hlt | hle
    · exact hnot slices hs (hlong _ _ hb hlt)
    · obtain ⟨rest, e, hrest⟩ := RunChain_initial _ _ _ _ _ _ hb hps hle
      have h1 := hrun.1
      have h2 := hrun.2.1
      have := (RunChain_bounds _ _ _ _ hrest).2.2.2.1
      omega
  · subst hsl
    obtain ⟨hps', hrun', _⟩ := RunChain_unsnoc _ _ _ _ _ _ hb
    rcases Nat.lt_trichotomy ps.length ps'.length with hlt | heq | hgt
    · exact absurd (hlong _ _ hps' hlt) (hnot ps' hs)
    · obtain ⟨rest, e, hrest⟩ := RunChain_initial _ _ _ _ _ _ hps hps' (by omega)
      have hnil : rest = [] := by
        have := congrArg List.length e
        simp at this
        exact List.eq_nil_of_length_eq_zero (by omega)
      subst hnil
      simp only [RunChain] at hrest
      rw [List.append_nil] at e
      subst e hrest
      have := IsRun_unique _ _ _ _ hrun hrun'
      subst this
      exact ⟨hst, rfl, hs, hall⟩
    · exfalso
      obtain ⟨rest, e, _⟩ := RunChain_initial _ _ _ _ _ _ hb hps (by simp; omega)
      have hmem : (lo', hi') ∈ ps := by rw [e]; simp
      obtain ⟨i, hi⟩ := List.getElem?_of_mem hmem
      obtain ⟨d2, enc, h1, h2, _⟩ := hok i _ hi
      simp only at h1
      rw [hd', Option.some.injEq] at h1
      subst h1
      rw [hl'] at h2
      simp at h2
  · exfalso
    rcases Nat.lt_or_ge ps.length slices.length with hlt | hle
    · exact hnot slices hs (hlong _ _ hb hlt)
    · obtain ⟨rest, e, _⟩ := RunChain_initial _ _ _ _ _ _ hb hps hle
      have hlen := hs.1
      have hk : ms.length < slices.length := by rw [← hlen, hms]; simp
      have hsk : slices[ms.length]? = some slices[ms.length] := List.getElem?_eq_getElem hk
      have hmk : encodes[ms.length]? = some m := by rw [hms]; simp
      obtain ⟨_, _, e3, e4, enc', e5, e6⟩ := hs.2 _ _ _ hsk hmk
      have hpk : ps[ms.length]? = some slices[ms.length] := by
        rw [e, List.getElem?_append_left hk]
        exact hsk
      obtain ⟨d2, enc, h1, h2, h3⟩ := hok _ _ hpk
      rw [e3, Option.some.injEq] at h1
      subst h1
      rw [e5, Option.some.injEq] at h2
      subst h2
      have hhist : (encodes.take ms.length).map Sent.payload =
          (ps.take ms.length).map (fun q => s.data.Slice q.1 q.2) := by
        rw [List.map_take, (Sends_ranges ex s _ _ hs).2.1, ← List.map_take, e,
          List.take_append_of_le_length (Nat.le_of_lt hk)]
      rw [hhist, e4, h3, hme] at e6
      simp at e6

theorem LoopPost_reaches (ex : exchange) (s : dataWithEndpoints) (status : Status)
    (slices : List (Nat × Nat)) (encodes : List Sent)
    (h : LoopPost ex s status slices encodes)
    (hst : status = Status.returned (some (GoError.errorf "no matching node found"))) :
    ∃ ps lo hi, ReachesMissing ex s ps lo hi := by
  obtain ⟨b, hb, hcases⟩ := h
  rcases hcases with ⟨h, _⟩ | ⟨_, ps, lo, hi, d, hsl, hs, hall, hd, hl⟩ | ⟨e0, ms, m0, h, _⟩
  · rw [hst] at h
    simp at h
  · subst hsl
    obtain ⟨_, _, hbhi⟩ := RunChain_unsnoc _ _ _ _ _ _ hb
    subst hbhi
    refine ⟨ps, lo, b, hb, ⟨d, hd, hl⟩, fun i p hp => ?_⟩
    have hilt : i < encodes.length := hs.1 ▸ (List.getElem?_eq_some.mp hp).1
    have hm : encodes[i]? = some encodes[i] := List.getElem?_eq_getElem hilt
    obtain ⟨_, _, e3, e4, enc, e5, e6⟩ := hs.2 i p _ hp hm
    refine ⟨_, enc, e3, e5, ?_⟩
    rw [List.map_take, ← (Sends_ranges ex s _ _ hs).2.1, ← List.map_take, ← e4, ← e6]
    exact hall _ (List.getElem_mem hilt)
  · rw [hst] at h
    simp at h

theorem RunChain_snd_le (eps : List String) (ps : List (Nat × Nat)) (a b : Nat)
    (h : RunChain eps a ps b) : ∀ p ∈ ps, p.2 ≤ b := by
  induction ps generalizing a with
  | nil => intro p hp; simp at hp
  | cons q qs ih =>
    obtain ⟨_, _, h3⟩ := h
    intro p hp
    rcases List.mem_cons.mp hp with rfl | hp
    · exact (RunChain_bounds _ _ _ _ h3).2.2.2.1
    · exact ih _ h3 p hp

theorem demo_resolves : RingResolves demoExchange demoData := by
  intro i hi
  have hi' : i < 5 := hi
  interval_cases i
  · exact ⟨"ann", ":5553", by decide, rfl⟩
  · exact ⟨"bob", ":5552", by decide, rfl⟩
  · exact ⟨"cid", ":5551", by decide, rfl⟩
  · exact ⟨"dan", ":5552", by decide, rfl⟩
  · exact ⟨"eve", ":5553", by decide, rfl⟩

/-! ## The claims -/

/-- C1 (routing correctness). For a dataset of at least one row whose ring lookups
all succeed: `addEndpointsToData` returns; after `sort.Sort` the endpoint at every
position is the one the ring returned for the key of the row now at that position
(an original row); and every `Encode` call goes to the encoder found under the
endpoint `d` at the start of its range, carries exactly the slice of that range, the
endpoints over the range all being `d`, so that every row of the message is an
original row whose key the ring maps to `d`. -/
theorem C1_routing (ex : exchange) (sorter : Sorter) (data : Dataset)
    (hn : 1 ≤ data.Len) (hring : RingResolves ex data) :
    ∃ dwe, (addEndpointsToData ex data).1 = Ret.ok dwe ∧
      (∀ (i : Nat) (r : Row) (d : String), (sortSort sorter dwe).data.rows[i]? = some r →
        (sortSort sorter dwe).endpoints[i]? = some d →
        ∃ k key, data.rows[k]? = some r ∧ rowKey ex data k = some key ∧
          ex.hashRing.Get key = Except.ok d) ∧
      ∀ m ∈ (encodePartition ex sorter (GoValue.dataset data)).encodes,
        (∃ enc, ex.encsByKey.lookup m.dest = some enc) ∧
        m.payload = (sortSort sorter dwe).data.Slice m.lo m.hi ∧
        (sortSort sorter dwe).endpoints[m.lo]? = some m.dest ∧
        (∀ j, m.lo ≤ j → j < m.hi → (sortSort sorter dwe).endpoints[j]? = some m.dest) ∧
        ∀ r ∈ m.payload.rows, ∃ k key, data.rows[k]? = some r ∧
          rowKey ex data k = some key ∧ ex.hashRing.Get key = Except.ok m.dest := by
  obtain ⟨dwe, hdwe⟩ := addEndpointsToData_total ex data hring
  refine ⟨dwe, hdwe, fun i r d => sortSort_aligned ex sorter data dwe hdwe i r d, ?_⟩
  intro m hm
  obtain ⟨_, _, hpost⟩ := encodePartition_sorted ex sorter data dwe hdwe hn
  obtain ⟨hrun, _, hdest, hpay, enc, _, hl, _, _⟩ :=
    LoopPost_message ex _ _ _ _ hpost m hm
  have huni : ∀ j, m.lo ≤ j → j < m.hi → (sortSort sorter dwe).endpoints[j]? = some m.dest :=
    fun j h1 h2 => by rw [hrun.2.2.1 j h1 h2, hdest]
  refine ⟨⟨enc, hl⟩, hpay, hdest, huni, fun r hr => ?_⟩
  rw [hpay] at hr
  obtain ⟨j, hj1, hj2, hj3⟩ := mem_Slice _ _ _ _ hr
  exact sortSort_aligned ex sorter data dwe hdwe j r m.dest hj3 (huni j hj1 hj2)

/-- Witness of C1 on the five-row dataset of the demo cluster. -/
theorem C1_routing_witness :
    ∃ dwe, (addEndpointsToData demoExchange demoData).1 = Ret.ok dwe ∧
      (∀ (i : Nat) (r : Row) (d : String),
        (sortSort insertionSorter dwe).data.rows[i]? = some r →
        (sortSort insertionSorter dwe).endpoints[i]? = some d →
        ∃ k key, demoData.rows[k]? = some r ∧ rowKey demoExchange demoData k = some key ∧
          demoExchange.hashRing.Get key = Except.ok d) ∧
      ∀ m ∈ (encodePartition demoExchange insertionSorter (GoValue.dataset demoData)).encodes,
        (∃ enc, demoExchange.encsByKey.lookup m.dest = some enc) ∧
        m.payload = (sortSort insertionSorter dwe).data.Slice m.lo m.hi ∧
        (sortSort insertionSorter dwe).endpoints[m.lo]? = some m.dest ∧
        (∀ j, m.lo ≤ j → j < m.hi →
          (sortSort insertionSorter dwe).endpoints[j]? = some m.dest) ∧
        ∀ r ∈ m.payload.rows, ∃ k key, demoData.rows[k]? = some r ∧
          rowKey demoExchange demoData k = some key ∧
          demoExchange.hashRing.Get key = Except.ok m.dest :=
  C1_routing demoExchange insertionSorter demoData (by decide) demo_resolves

/-- C2 (every row is sent exactly once). For a dataset of `n ≥ 1` rows on which
`encodePartition` returns `nil`: the ranges passed to `Slice` are cut at bounds
`0 = r0 < r1 < ... < rk = n`, one range between each two successive bounds; the
`Encode` calls are made on exactly those ranges, in that order, each carrying the
slice of the (permuted) dataset over its range; and the rows of all the messages,
laid end to end, are a permutation of the rows of the input dataset. -/
theorem C2_every_row_once (ex : exchange) (sorter : Sorter) (data : Dataset)
    (hn : 1 ≤ data.Len)
    (hnil : (encodePartition ex sorter (GoValue.dataset data)).status = Status.returned none) :
    (∃ rs : List Nat, rs.head? = some 0 ∧ rs.getLast? = some data.Len ∧
      List.Chain' (· < ·) rs ∧
      (encodePartition ex sorter (GoValue.dataset data)).slices = rs.zip rs.tail) ∧
    (encodePartition ex sorter (GoValue.dataset data)).encodes.map (fun m => (m.lo, m.hi)) =
      (encodePartition ex sorter (GoValue.dataset data)).slices ∧
    (∀ after, (encodePartition ex sorter (GoValue.dataset data)).arg = GoValue.dataset after →
      ∀ m ∈ (encodePartition ex sorter (GoValue.dataset data)).encodes,
        m.payload = after.Slice m.lo m.hi) ∧
    (((encodePartition ex sorter (GoValue.dataset data)).encodes.map
      (fun m => m.payload.rows)).flatten).Perm data.rows := by
  obtain ⟨dwe, hdwe⟩ := addEndpointsToData_of_nil ex sorter data hnil
  obtain ⟨harg, _, hpost⟩ := encodePartition_sorted ex sorter data dwe hdwe hn
  obtain ⟨hdata, hlen, _⟩ := addEndpointsToData_ok ex data dwe hdwe
  have hpost' := hpost
  rw [hnil] at hpost'
  obtain ⟨hchain, hsends, _⟩ := LoopPost_nil ex _ _ _ hpost'
  obtain ⟨hr1, hr2, hr3⟩ := Sends_ranges ex _ _ _ hsends
  obtain ⟨hb1, hb2, hb3, _, _⟩ := RunChain_bounds _ _ _ _ hchain
  have hslen : (sortSort sorter dwe).endpoints.length = data.Len := by
    rw [sortSort_endpoints_length, hlen]
  have hrlen : (sortSort sorter dwe).data.rows.length = (sortSort sorter dwe).endpoints.length := by
    rw [sortSort_rows_length, hslen, hdata]
    rfl
  refine ⟨⟨0 :: (encodePartition ex sorter (GoValue.dataset data)).slices.map Prod.snd,
    rfl, ?_, hb2, hb1⟩, hr1, ?_, ?_⟩
  · rw [hb3, hslen]
  · intro after hafter m hm
    rw [harg, GoValue.dataset.injEq] at hafter
    subst hafter
    exact (LoopPost_message ex _ _ _ _ hpost m hm).2.2.2.1
  · have hflat := RunChain_flatten (sortSort sorter dwe).endpoints
      (sortSort sorter dwe).data.rows hrlen _ 0 _ hchain (Nat.le_refl _)
    have hmap : (encodePartition ex sorter (GoValue.dataset data)).encodes.map
        (fun m => m.payload.rows) =
        (encodePartition ex sorter (GoValue.dataset data)).slices.map
          (fun p => ((sortSort sorter dwe).data.rows.take p.2).drop p.1) := by
      have := congrArg (List.map Dataset.rows) hr2
      simpa [List.map_map, Function.comp_def, Dataset.Slice] using this
    rw [hmap, hflat, ← hrlen, List.take_length, List.drop_zero]
    have := sortSort_rows_perm sorter dwe
    rwa [hdata] at this

/-- Witness of C2 on the five-row dataset of the demo cluster. -/
theorem C2_every_row_once_witness :
    (∃ rs : List Nat, rs.head? = some 0 ∧ rs.getLast? = some demoData.Len ∧
      List.Chain' (· < ·) rs ∧
      (encodePartition demoExchange insertionSorter (GoValue.dataset demoData)).slices =
        rs.zip rs.tail) ∧
    (encodePartition demoExchange insertionSorter (GoValue.dataset demoData)).encodes.map
        (fun m => (m.lo, m.hi)) =
      (encodePartition demoExchange insertionSorter (GoValue.dataset demoData)).slices ∧
    (∀ after, (encodePartition demoExchange insertionSorter (GoValue.dataset demoData)).arg =
        GoValue.dataset after →
      ∀ m ∈ (encodePartition demoExchange insertionSorter (GoValue.dataset demoData)).encodes,
        m.payload = after.Slice m.lo m.hi) ∧
    (((encodePartition demoExchange insertionSorter (GoValue.dataset demoData)).encodes.map
      (fun m => m.payload.rows)).flatten).Perm demoData.rows :=
  C2_every_row_once demoExchange insertionSorter demoData (by decide) (by decide)

/-- C3 (one message per destination). For a dataset of `n ≥ 1` rows on which
`encodePartition` returns `nil`, `sort.Sort` having kept its contract on the endpoint
array: the number of `Encode` calls is the number of distinct endpoints resolved for
the rows, no destination occurs twice among the calls, and the destinations of the
calls are strictly increasing in Go's string order. -/
theorem C3_one_message_per_destination (ex : exchange) (sorter : Sorter) (data : Dataset)
    (hn : 1 ≤ data.Len)
    (hsort : ∀ dwe, (addEndpointsToData ex data).1 = Ret.ok dwe → SortContract sorter dwe)
    (hnil : (encodePartition ex sorter (GoValue.dataset data)).status = Status.returned none) :
    (∃ dwe, (addEndpointsToData ex data).1 = Ret.ok dwe ∧
      (encodePartition ex sorter (GoValue.dataset data)).encodes.length =
        dwe.endpoints.dedup.length) ∧
    ((encodePartition ex sorter (GoValue.dataset data)).encodes.map Sent.dest).Nodup ∧
    List.Pairwise (fun a b => stringLess a b = true)
      ((encodePartition ex sorter (GoValue.dataset data)).encodes.map Sent.dest) := by
  obtain ⟨dwe, hdwe⟩ := addEndpointsToData_of_nil ex sorter data hnil
  obtain ⟨_, _, hpost⟩ := encodePartition_sorted ex sorter data dwe hdwe hn
  have hpost' := hpost
  rw [hnil] at hpost'
  obtain ⟨hchain, hsends, _⟩ := LoopPost_nil ex _ _ _ hpost'
  obtain ⟨hr1, _, _⟩ := Sends_ranges ex _ _ _ hsends
  have hcontract := hsort dwe hdwe
  have hpair := LoopPost_dest_pairwise ex sorter dwe _ _ _ hpost hcontract
  have hnodup : ((encodePartition ex sorter (GoValue.dataset data)).encodes.map
      Sent.dest).Nodup := by
    refine List.Pairwise.imp ?_ hpair
    intro a b hab e
    subst e
    rw [stringLess_irrefl] at hab
    simp at hab
  refine ⟨⟨dwe, hdwe, ?_⟩, hnodup, hpair⟩
  have hset : ((encodePartition ex sorter (GoValue.dataset data)).encodes.map
      Sent.dest).toFinset = dwe.endpoints.toFinset := by
    ext d
    simp only [List.mem_toFinset, List.mem_map]
    constructor
    · rintro ⟨m, hm, rfl⟩
      obtain ⟨_, _, hd, _⟩ := LoopPost_message ex _ _ _ _ hpost m hm
      exact (sortSort_endpoints_perm sorter dwe).subset (List.getElem?_mem hd)
    · intro hd
      obtain ⟨j, hj⟩ := List.getElem?_of_mem ((sortSort_endpoints_perm sorter dwe).symm.subset hd)
      have hjlt := (List.getElem?_eq_some.mp hj).1
      obtain ⟨p, hp, hp1, hp2⟩ := RunChain_cover _ _ _ _ hchain j (Nat.zero_le _) hjlt
      rw [← hr1] at hp
      obtain ⟨m, hm, rfl⟩ := List.mem_map.mp hp
      obtain ⟨hrun, _, hdm, _⟩ := LoopPost_message ex _ _ _ _ hpost m hm
      refine ⟨m, hm, ?_⟩
      have := hrun.2.2.1 j hp1 hp2
      rw [hj, hdm, Option.some.injEq] at this
      exact this.symm
  have h1 := congrArg Finset.card hset
  rw [List.card_toFinset, List.card_toFinset, hnodup.dedup, List.length_map] at h1
  exact h1

/-- Witness of C3 on the five-row dataset of the demo cluster, sorted by insertion
sort: three messages for three distinct endpoints. -/
theorem C3_one_message_per_destination_witness :
    (∃ dwe, (addEndpointsToData demoExchange demoData).1 = Ret.ok dwe ∧
      (encodePartition demoExchange insertionSorter (GoValue.dataset demoData)).encodes.length =
        dwe.endpoints.dedup.length) ∧
    ((encodePartition demoExchange insertionSorter (GoValue.dataset demoData)).encodes.map
      Sent.dest).Nodup ∧
    List.Pairwise (fun a b => stringLess a b = true)
      ((encodePartition demoExchange insertionSorter (GoValue.dataset demoData)).encodes.map
        Sent.dest) :=
  C3_one_message_per_destination demoExchange insertionSorter demoData (by decide)
    (fun dwe _ => insertionSorter_contract dwe) (by decide)

/-- C4 (a non-dataset is rejected). For every argument that is not a dataset,
`encodePartition` returns the error "encodePartition called without a dataset", and
has made no ring lookup, no `Swap`, no `Slice` and no `Encode` call; the argument is
left as it was. -/
theorem C4_rejects_non_dataset (ex : exchange) (sorter : Sorter) (e : GoValue)
    (h : ∀ d, e ≠ GoValue.dataset d) :
    (encodePartition ex sorter e).status =
        Status.returned (some (GoError.errorf "encodePartition called without a dataset")) ∧
      (encodePartition ex sorter e).lookups = [] ∧
      (encodePartition ex sorter e).swaps = [] ∧
      (encodePartition ex sorter e).slices = [] ∧
      (encodePartition ex sorter e).encodes = [] ∧
      (encodePartition ex sorter e).arg = e := by
  rw [encodePartition_notDataset ex sorter e h]
  exact ⟨rfl, rfl, rfl, rfl, rfl, rfl⟩

/-- Witness of C4 on the argument of the repository's test, `[]int{42}`. -/
theorem C4_rejects_non_dataset_witness :
    (encodePartition demoExchange insertionSorter (GoValue.ints [42])).status =
        Status.returned (some (GoError.errorf "encodePartition called without a dataset")) ∧
      (encodePartition demoExchange insertionSorter (GoValue.ints [42])).lookups = [] ∧
      (encodePartition demoExchange insertionSorter (GoValue.ints [42])).swaps = [] ∧
      (encodePartition demoExchange insertionSorter (GoValue.ints [42])).slices = [] ∧
      (encodePartition demoExchange insertionSorter (GoValue.ints [42])).encodes = [] ∧
      (encodePartition demoExchange insertionSorter (GoValue.ints [42])).arg =
        GoValue.ints [42] :=
  C4_rejects_non_dataset demoExchange insertionSorter (GoValue.ints [42])
    (fun d hd => by cases hd)

/-- C5 (a ring lookup failure is atomic). If `hashRing.Get` fails with `msg` on the
key of row `r`, and on the key of no row before `r`, then `encodePartition` returns
exactly that error, and it has made no `Swap`, no `Slice` and no `Encode` call: the
dataset is as it was and nothing was sent. -/
theorem C5_ring_failure_atomic (ex : exchange) (sorter : Sorter) (data : Dataset)
    (r : Nat) (key msg : String) (hr : r < data.Len)
    (hkey : rowKey ex data r = some key)
    (hget : ex.hashRing.Get key = Except.error msg)
    (hfirst : ∀ i, i < r → ∀ key', rowKey ex data i = some key' →
      ∃ d, ex.hashRing.Get key' = Except.ok d) :
    (encodePartition ex sorter (GoValue.dataset data)).status =
        Status.returned (some (GoError.external msg)) ∧
      (encodePartition ex sorter (GoValue.dataset data)).encodes = [] ∧
      (encodePartition ex sorter (GoValue.dataset data)).slices = [] ∧
      (encodePartition ex sorter (GoValue.dataset data)).swaps = [] ∧
      (encodePartition ex sorter (GoValue.dataset data)).arg = GoValue.dataset data := by
  have hfail := addEndpointsToData_fail ex data r key msg hr hkey hget (fun i hi => by
    obtain ⟨key', hk'⟩ := rowKey_isSome ex data r i key hkey (by omega)
    obtain ⟨d, hd⟩ := hfirst i hi key' hk'
    exact ⟨key', d, hk', hd⟩)
  rw [encodePartition_ringError ex sorter data _ hfail]
  exact ⟨rfl, rfl, rfl, rfl, rfl⟩

/-- Witness of C5: the ring fails on the key of the third row, after two lookups
that succeed. -/
theorem C5_ring_failure_atomic_witness :
    (encodePartition flakyExchange insertionSorter (GoValue.dataset demoData)).status =
        Status.returned (some (GoError.external "empty circle")) ∧
      (encodePartition flakyExchange insertionSorter (GoValue.dataset demoData)).encodes = [] ∧
      (encodePartition flakyExchange insertionSorter (GoValue.dataset demoData)).slices = [] ∧
      (encodePartition flakyExchange insertionSorter (GoValue.dataset demoData)).swaps = [] ∧
      (encodePartition flakyExchange insertionSorter (GoValue.dataset demoData)).arg =
        GoValue.dataset demoData :=
  C5_ring_failure_atomic flakyExchange insertionSorter demoData 2 "cid" "empty circle"
    (by decide) (by decide) rfl (fun i hi key' hk => by
      have h0 : rowKey flakyExchange demoData 0 = some "ann" := by decide
      have h1 : rowKey flakyExchange demoData 1 = some "bob" := by decide
      interval_cases i
      · rw [h0, Option.some.injEq] at hk
        subst hk
        exact ⟨":5551", rfl⟩
      · rw [h1, Option.some.injEq] at hk
        subst hk
        exact ⟨":5551", rfl⟩)

/-- C6 (a send failure surfaces verbatim and stops the call). If an `Encode` call
of `encodePartition` answers the error `e`, then `encodePartition` returns that very
error, and that call is the last `Encode` call made (all calls before it answered
`nil`); the logged answer is the one of the encoder found under the destination. -/
theorem C6_send_failure_verbatim (ex : exchange) (sorter : Sorter) (data : Dataset)
    (m : Sent) (e : String)
    (hm : m ∈ (encodePartition ex sorter (GoValue.dataset data)).encodes)
    (he : m.err = some e) :
    (encodePartition ex sorter (GoValue.dataset data)).status =
        Status.returned (some (GoError.external e)) ∧
      (∃ ms, (encodePartition ex sorter (GoValue.dataset data)).encodes = ms ++ [m] ∧
        ∀ m' ∈ ms, m'.err = none) ∧
      ∃ enc history, ex.encsByKey.lookup m.dest = some enc ∧
        enc.Encode history m.payload = some e := by
  rcases encodePartition_cases ex sorter data with hnil | ⟨dwe, hdwe, hn, hpost⟩
  · rw [hnil] at hm
    simp at hm
  · obtain ⟨_, _, _, _, enc, i, hl, _, herr⟩ := LoopPost_message ex _ _ _ _ hpost m hm
    refine ⟨?_, ?_, enc, _, hl, by rw [← herr, he]⟩
    all_goals
      obtain ⟨b, _, hcases⟩ := hpost
      rcases hcases with ⟨_, _, _, hall⟩ | ⟨_, _, _, _, _, _, _, hall, _⟩ |
        ⟨e0, ms, m0, hst, henc, hm0, hall, _⟩
      · rw [hall m hm] at he
        simp at he
      · rw [hall m hm] at he
        simp at he
      · rw [henc] at hm
        rcases List.mem_append.mp hm with h | h
        · rw [hall m h] at he
          simp at he
        · simp only [List.mem_singleton] at h
          subst h
          rw [hm0, Option.some.injEq] at he
          subst he
          first
            | exact hst
            | exact ⟨ms, henc, hall⟩

/-- Witness of C6: the connection to the second node is broken, so the second
message fails and the third is never encoded. -/
theorem C6_send_failure_verbatim_witness :
    (encodePartition brokenExchange insertionSorter (GoValue.dataset demoData)).status =
        Status.returned (some (GoError.external "broken pipe")) ∧
      (∃ ms, (encodePartition brokenExchange insertionSorter (GoValue.dataset demoData)).encodes =
          ms ++ [⟨1, 3, ":5552", ⟨[⟨["bob", "2"]⟩, ⟨["dan", "4"]⟩]⟩, some "broken pipe"⟩] ∧
        ∀ m' ∈ ms, m'.err = none) ∧
      ∃ enc history, brokenExchange.encsByKey.lookup ":5552" = some enc ∧
        enc.Encode history ⟨[⟨["bob", "2"]⟩, ⟨["dan", "4"]⟩]⟩ = some "broken pipe" :=
  C6_send_failure_verbatim brokenExchange insertionSorter demoData
    ⟨1, 3, ":5552", ⟨[⟨["bob", "2"]⟩, ⟨["dan", "4"]⟩]⟩, some "broken pipe"⟩ "broken pipe"
    (by decide) rfl

/-- C7 (a missing encoder is an error). For a dataset of `n ≥ 1` rows whose ring
lookups all succeed, `encodePartition` returns the error "no matching node found" if
and only if a run without encoder is reached: the maximal runs of the sorted endpoint
array, from its start, are runs `ps`, the endpoint of each having an encoder that
answers `nil` to the slice over its run after the slices over the runs before it,
followed by a run `[lo, hi)` whose endpoint has no entry in `encsByKey`. In that case
the ranges sliced are `ps` and then `[lo, hi)`, and the `Encode` calls are exactly
one per run of `ps`, in order, each answered `nil`: there is no `Encode` call for the
run `[lo, hi)`, nor for any row at or after `lo`. -/
theorem C7_missing_encoder (ex : exchange) (sorter : Sorter) (data : Dataset)
    (hn : 1 ≤ data.Len) (hring : RingResolves ex data) :
    ∃ dwe, (addEndpointsToData ex data).1 = Ret.ok dwe ∧
      ((encodePartition ex sorter (GoValue.dataset data)).status =
          Status.returned (some (GoError.errorf "no matching node found")) ↔
        ∃ ps lo hi, ReachesMissing ex (sortSort sorter dwe) ps lo hi) ∧
      ∀ ps lo hi, ReachesMissing ex (sortSort sorter dwe) ps lo hi →
        (encodePartition ex sorter (GoValue.dataset data)).slices = ps ++ [(lo, hi)] ∧
        (encodePartition ex sorter (GoValue.dataset data)).encodes =
          ps.map (fun p => ⟨p.1, p.2, ((sortSort sorter dwe).endpoints[p.1]?).getD "",
            (sortSort sorter dwe).data.Slice p.1 p.2, none⟩) ∧
        ∀ m ∈ (encodePartition ex sorter (GoValue.dataset data)).encodes, m.hi ≤ lo := by
  obtain ⟨dwe, hdwe⟩ := addEndpointsToData_total ex data hring
  obtain ⟨_, _, hpost⟩ := encodePartition_sorted ex sorter data dwe hdwe hn
  refine ⟨dwe, hdwe, ⟨fun hst => LoopPost_reaches ex _ _ _ _ hpost hst, fun hex => ?_⟩,
    fun ps lo hi hr => ?_⟩
  · obtain ⟨ps, lo, hi, hr⟩ := hex
    exact (LoopPost_missing ex _ _ _ _ hpost ps lo hi hr).1
  · obtain ⟨_, hsl, hs, hall⟩ := LoopPost_missing ex _ _ _ _ hpost ps lo hi hr
    have heq := Sends_eq ex _ _ _ hs hall
    refine ⟨hsl, heq, fun m hm => ?_⟩
    rw [heq] at hm
    obtain ⟨p, hp, rfl⟩ := List.mem_map.mp hm
    exact RunChain_snd_le _ _ _ _ (RunChain_unsnoc _ _ _ _ _ _ hr.1).1 p hp

/-- Witness of C7: sorted, the five rows of the demo data form the runs `[0, 1)`,
`[1, 3)` and `[3, 5)`; the first two nodes have encoders that answer `nil` and the
third node has none, so the call returns the error after exactly two `Encode` calls,
having sliced the third run without encoding it. -/
theorem C7_missing_encoder_witness :
    (encodePartition lackingExchange insertionSorter (GoValue.dataset demoData)).status =
        Status.returned (some (GoError.errorf "no matching node found")) ∧
      (encodePartition lackingExchange insertionSorter (GoValue.dataset demoData)).slices =
        [(0, 1), (1, 3), (3, 5)] ∧
      (encodePartition lackingExchange insertionSorter (GoValue.dataset demoData)).encodes =
        [⟨0, 1, ":5551", ⟨[⟨["cid", "3"]⟩]⟩, none⟩,
          ⟨1, 3, ":5552", ⟨[⟨["bob", "2"]⟩, ⟨["dan", "4"]⟩]⟩, none⟩] ∧
      lackingExchange.encsByKey.lookup ":5553" = none := by
  obtain ⟨dwe, hdwe, hiff, hcons⟩ :=
    C7_missing_encoder lackingExchange insertionSorter demoData (by decide) lacking_resolves
  have hval : (addEndpointsToData lackingExchange demoData).1 =
      Ret.ok ⟨demoData, [":5553", ":5552", ":5551", ":5552", ":5553"]⟩ := by decide
  rw [hval] at hdwe
  injection hdwe with hdwe
  subst hdwe
  have hsorted : sortSort insertionSorter
      ⟨demoData, [":5553", ":5552", ":5551", ":5552", ":5553"]⟩ =
      ⟨⟨[⟨["cid", "3"]⟩, ⟨["bob", "2"]⟩, ⟨["dan", "4"]⟩, ⟨["ann", "1"]⟩, ⟨["eve", "5"]⟩]⟩,
        [":5551", ":5552", ":5552", ":5553", ":5553"]⟩ := by decide
  rw [hsorted] at hiff hcons
  have hR : ReachesMissing lackingExchange
      ⟨⟨[⟨["cid", "3"]⟩, ⟨["bob", "2"]⟩, ⟨["dan", "4"]⟩, ⟨["ann", "1"]⟩, ⟨["eve", "5"]⟩]⟩,
        [":5551", ":5552", ":5552", ":5553", ":5553"]⟩ [(0, 1), (1, 3)] 3 5 := by
    refine ⟨⟨rfl, ⟨by decide, by decide, fun j h1 h2 => ?_, by decide⟩,
      rfl, ⟨by decide, by decide, fun j h1 h2 => ?_, by decide⟩,
      rfl, ⟨by decide, by decide, fun j h1 h2 => ?_, by decide⟩, rfl⟩,
      ⟨":5553", by decide, rfl⟩, fun i p hp => ?_⟩
    · have : j = 0 := by omega
      subst this
      rfl
    · have : j = 1 ∨ j = 2 := by omega
      rcases this with rfl | rfl <;> decide
    · have : j = 3 ∨ j = 4 := by omega
      rcases this with rfl | rfl <;> decide
    · have hi : i = 0 ∨ i = 1 := by
        have := (List.getElem?_eq_some.mp hp).1
        simp at this
        omega
      rcases hi with rfl | rfl
      · simp only [List.getElem?_cons_zero, Option.some.injEq] at hp
        subst hp
        exact ⟨":5551", okEncoder, by decide, rfl, rfl⟩
      · simp only [List.getElem?_cons_succ, List.getElem?_cons_zero, Option.some.injEq] at hp
        subst hp
        exact ⟨":5552", okEncoder, by decide, rfl, rfl⟩
  exact ⟨hiff.mpr ⟨_, _, _, hR⟩, (hcons _ _ _ hR).1, (hcons _ _ _ hR).2.1, rfl⟩

/-- C8 (destination resolution is deterministic). With the same ring and the same
columns, whatever else differs between two exchanges, `addEndpointsToData` returns
the same result on a dataset; a second run on the dataset as a first run left it
returns the same endpoints array; within one call two rows with equal keys get equal
endpoints; and when the call returns `nil`, `sort.Sort` having kept its contract,
two such rows are in one and the same message, the only one for its destination. -/
theorem C8_resolution_deterministic (ex ex' : exchange) (sorter : Sorter) (data : Dataset)
    (hring : ex'.hashRing = ex.hashRing) (hcols : ex'.PartitionCols = ex.PartitionCols)
    (hsc : ex'.SortingCols = ex.SortingCols) :
    addEndpointsToData ex' data = addEndpointsToData ex data ∧
    (∀ dwe, (addEndpointsToData ex data).1 = Ret.ok dwe →
      (addEndpointsToData ex' dwe.data).1 = Ret.ok dwe) ∧
    (∀ dwe, (addEndpointsToData ex data).1 = Ret.ok dwe →
      ∀ (i j : Nat) (key : String), i < data.Len → j < data.Len →
        rowKey ex data i = some key → rowKey ex data j = some key →
        dwe.endpoints[i]? = dwe.endpoints[j]?) ∧
    (∀ dwe, (addEndpointsToData ex data).1 = Ret.ok dwe → SortContract sorter dwe →
      (encodePartition ex sorter (GoValue.dataset data)).status = Status.returned none →
      ∀ (i j : Nat) (key : String) (ri rj : Row),
        data.rows[i]? = some ri → data.rows[j]? = some rj →
        rowKey ex data i = some key → rowKey ex data j = some key →
        ∃ m ∈ (encodePartition ex sorter (GoValue.dataset data)).encodes,
          ri ∈ m.payload.rows ∧ rj ∈ m.payload.rows ∧
          ∀ m' ∈ (encodePartition ex sorter (GoValue.dataset data)).encodes,
            m'.dest = m.dest → m' = m) := by
  have hsame : ∀ dwe, (addEndpointsToData ex data).1 = Ret.ok dwe →
      ∀ (i j : Nat) (key : String), i < data.Len → j < data.Len →
        rowKey ex data i = some key → rowKey ex data j = some key →
        ∃ d, dwe.endpoints[i]? = some d ∧ dwe.endpoints[j]? = some d := by
    intro dwe hdwe i j key hi hj hki hkj
    obtain ⟨_, _, hrows⟩ := addEndpointsToData_ok ex data dwe hdwe
    obtain ⟨k1, d1, e1, e2, e3⟩ := hrows i hi
    obtain ⟨k2, d2, f1, f2, f3⟩ := hrows j hj
    rw [hki, Option.some.injEq] at e1
    rw [hkj, Option.some.injEq] at f1
    subst e1 f1
    rw [e2, Except.ok.injEq] at f2
    subst f2
    exact ⟨d1, e3, f3⟩
  refine ⟨addEndpointsToData_congr ex ex' data hring hcols hsc, ?_, ?_, ?_⟩
  · intro dwe hdwe
    rw [addEndpointsToData_congr ex ex' dwe.data hring hcols hsc,
      (addEndpointsToData_ok ex data dwe hdwe).1]
    exact hdwe
  · intro dwe hdwe i j key hi hj hki hkj
    obtain ⟨d, h1, h2⟩ := hsame dwe hdwe i j key hi hj hki hkj
    rw [h1, h2]
  · intro dwe hdwe hcontract hnil i j key ri rj hri hrj hki hkj
    have hi : i < data.Len := (List.getElem?_eq_some.mp hri).1
    have hj : j < data.Len := (List.getElem?_eq_some.mp hrj).1
    obtain ⟨d, h1, h2⟩ := hsame dwe hdwe i j key hi hj hki hkj
    obtain ⟨hdata, hlen, _⟩ := addEndpointsToData_ok ex data dwe hdwe
    have hlen' : dwe.data.rows.length = dwe.endpoints.length := by
      rw [hdata, hlen]
      rfl
    obtain ⟨_, _, hpost⟩ := encodePartition_sorted ex sorter data dwe hdwe (by omega)
    have hpost' := hpost
    rw [hnil] at hpost'
    rw [← hdata] at hri hrj
    obtain ⟨p, hp1, hp2⟩ := sortSort_position sorter dwe hlen' i ri d hri h1
    obtain ⟨q, hq1, hq2⟩ := sortSort_position sorter dwe hlen' j rj d hrj h2
    obtain ⟨m, hm, hmd, hmr⟩ := LoopPost_nil_covers ex _ _ _ hpost' p ri d hp1 hp2
    obtain ⟨m', hm', hmd', hmr'⟩ := LoopPost_nil_covers ex _ _ _ hpost' q rj d hq1 hq2
    have hnodup : ((encodePartition ex sorter (GoValue.dataset data)).encodes.map
        Sent.dest).Nodup := by
      refine List.Pairwise.imp ?_ (LoopPost_dest_pairwise ex sorter dwe _ _ _ hpost hcontract)
      intro a b hab e
      subst e
      rw [stringLess_irrefl] at hab
      simp at hab
    have hinj := List.inj_on_of_nodup_map hnodup
    have hmm : m' = m := hinj hm' hm (by rw [hmd, hmd'])
    subst hmm
    exact ⟨m', hm, hmr, hmr', fun m'' hm'' hd'' => hinj hm'' hm hd''⟩

/-- Witness of C8: the demo exchange and the one with a broken connection share
ring and columns. -/
theorem C8_resolution_deterministic_witness :
    addEndpointsToData brokenExchange demoData = addEndpointsToData demoExchange demoData ∧
    (∀ dwe, (addEndpointsToData demoExchange demoData).1 = Ret.ok dwe →
      (addEndpointsToData brokenExchange dwe.data).1 = Ret.ok dwe) ∧
    (∀ dwe, (addEndpointsToData demoExchange demoData).1 = Ret.ok dwe →
      ∀ (i j : Nat) (key : String), i < demoData.Len → j < demoData.Len →
        rowKey demoExchange demoData i = some key → rowKey demoExchange demoData j = some key →
        dwe.endpoints[i]? = dwe.endpoints[j]?) ∧
    (∀ dwe, (addEndpointsToData demoExchange demoData).1 = Ret.ok dwe →
      SortContract insertionSorter dwe →
      (encodePartition demoExchange insertionSorter (GoValue.dataset demoData)).status =
        Status.returned none →
      ∀ (i j : Nat) (key : String) (ri rj : Row),
        demoData.rows[i]? = some ri → demoData.rows[j]? = some rj →
        rowKey demoExchange demoData i = some key → rowKey demoExchange demoData j = some key →
        ∃ m ∈ (encodePartition demoExchange insertionSorter (GoValue.dataset demoData)).encodes,
          ri ∈ m.payload.rows ∧ rj ∈ m.payload.rows ∧
          ∀ m' ∈ (encodePartition demoExchange insertionSorter
              (GoValue.dataset demoData)).encodes,
            m'.dest = m.dest → m' = m) :=
  C8_resolution_deterministic demoExchange brokenExchange insertionSorter demoData rfl rfl rfl

/-- C9 (the missing-encoder branch is unreachable after `init`). For an exchange
with as many sorting columns as partition columns (as `Partition` builds it), whose
`encsByKey` has exactly the nodes as keys, whose ring has exactly the nodes as
members and returns members only: on a dataset of `n ≥ 1` rows `encodePartition`
never returns "no matching node found"; it returns `nil`, or the error of a failed
ring lookup, or the error of a failed `Encode` call. -/
theorem C9_missing_encoder_unreachable (ex : exchange) (sorter : Sorter) (data : Dataset)
    (nodes : List String) (hn : 1 ≤ data.Len)
    (hcols : ex.SortingCols.length = ex.PartitionCols.length)
    (hencs : ∀ d, d ∈ nodes ↔ ∃ enc, ex.encsByKey.lookup d = some enc)
    (hmembers : ∀ d, d ∈ ex.hashRing.Members ↔ d ∈ nodes)
    (hget : ∀ key d, ex.hashRing.Get key = Except.ok d → d ∈ ex.hashRing.Members) :
    (encodePartition ex sorter (GoValue.dataset data)).status ≠
        Status.returned (some (GoError.errorf "no matching node found")) ∧
    ((encodePartition ex sorter (GoValue.dataset data)).status = Status.returned none ∨
      ∃ msg, (encodePartition ex sorter (GoValue.dataset data)).status =
          Status.returned (some (GoError.external msg)) ∧
        ((∃ i key, i < data.Len ∧ rowKey ex data i = some key ∧
            ex.hashRing.Get key = Except.error msg) ∨
          ∃ m ∈ (encodePartition ex sorter (GoValue.dataset data)).encodes,
            m.err = some msg)) := by
  have main : (encodePartition ex sorter (GoValue.dataset data)).status = Status.returned none ∨
      ∃ msg, (encodePartition ex sorter (GoValue.dataset data)).status =
          Status.returned (some (GoError.external msg)) ∧
        ((∃ i key, i < data.Len ∧ rowKey ex data i = some key ∧
            ex.hashRing.Get key = Except.error msg) ∨
          ∃ m ∈ (encodePartition ex sorter (GoValue.dataset data)).encodes,
            m.err = some msg) := by
    cases hq : (addEndpointsToData ex data).1 with
    | ok dwe =>
      obtain ⟨_, _, hpost⟩ := encodePartition_sorted ex sorter data dwe hq hn
      obtain ⟨_, _, hrows⟩ := addEndpointsToData_ok ex data dwe hq
      obtain ⟨b, _, hcases⟩ := hpost
      rcases hcases with ⟨h, _⟩ | ⟨_, ps, lo, hi, d, _, _, _, hd, hl⟩ | ⟨e0, ms, m0, h, henc, hm0, _⟩
      · exact Or.inl h
      · exfalso
        have hmem : d ∈ dwe.endpoints :=
          (sortSort_endpoints_perm sorter dwe).subset (List.getElem?_mem hd)
        obtain ⟨k, hk⟩ := List.getElem?_of_mem hmem
        have hklt : k < data.Len := by
          have := (List.getElem?_eq_some.mp hk).1
          have := (addEndpointsToData_ok ex data dwe hq).2.1
          omega
        obtain ⟨key, d', _, e2, e3⟩ := hrows k hklt
        rw [hk, Option.some.injEq] at e3
        subst e3
        obtain ⟨enc, henc⟩ := (hencs d).mp ((hmembers d).mp (hget key d e2))
        rw [hl] at henc
        simp at henc
      · exact Or.inr ⟨e0, h, Or.inr ⟨m0, by rw [henc]; simp, hm0⟩⟩
    | err e =>
      obtain ⟨r, key, msg, h1, h2, h3, h4⟩ := addEndpointsToData_err ex data e hq
      subst h4
      refine Or.inr ⟨msg, ?_, Or.inl ⟨r, key, h1, h2, h3⟩⟩
      rw [encodePartition_ringError ex sorter data _ hq]
    | panic =>
      exfalso
      obtain ⟨r, h1, h2⟩ := addEndpointsToData_panic ex data hq
      rw [rowKey_eq ex data r h1 (Nat.le_of_eq hcols)] at h2
      simp at h2
  refine ⟨?_, main⟩
  rcases main with h | ⟨msg, h, _⟩ <;>
  · rw [h]
    simp

/-- Witness of C9 on the demo cluster of three nodes. -/
theorem C9_missing_encoder_unreachable_witness :
    (encodePartition demoExchange insertionSorter (GoValue.dataset demoData)).status ≠
        Status.returned (some (GoError.errorf "no matching node found")) ∧
    ((encodePartition demoExchange insertionSorter (GoValue.dataset demoData)).status =
        Status.returned none ∨
      ∃ msg, (encodePartition demoExchange insertionSorter (GoValue.dataset demoData)).status =
          Status.returned (some (GoError.external msg)) ∧
        ((∃ i key, i < demoData.Len ∧ rowKey demoExchange demoData i = some key ∧
            demoExchange.hashRing.Get key = Except.error msg) ∨
          ∃ m ∈ (encodePartition demoExchange insertionSorter
              (GoValue.dataset demoData)).encodes,
            m.err = some msg)) :=
  C9_missing_encoder_unreachable demoExchange insertionSorter demoData
    [":5551", ":5552", ":5553"] (by decide) rfl
    (fun d => by
      constructor
      · intro h
        simp only [List.mem_cons, List.mem_singleton, List.not_mem_nil, or_false] at h
        rcases h with rfl | rfl | rfl
        · exact ⟨okEncoder, rfl⟩
        · exact ⟨okEncoder, rfl⟩
        · exact ⟨okEncoder, rfl⟩
      · rintro ⟨enc, h⟩
        by_contra hd
        simp only [List.mem_cons, List.mem_singleton, List.not_mem_nil, or_false, not_or] at hd
        have b1 : (d == ":5551") = false := by simpa using hd.1
        have b2 : (d == ":5552") = false := by simpa using hd.2.1
        have b3 : (d == ":5553") = false := by simpa using hd.2.2
        have : demoExchange.encsByKey.lookup d = none := by
          simp [demoExchange, List.lookup, b1, b2, b3]
        rw [this] at h
        simp at h)
    (fun d => Iff.rfl)
    (fun key d h => by
      simp only [demoExchange, demoRing] at h ⊢
      split at h
      · simp only [Except.ok.injEq] at h
        subst h
        simp
      · split at h
        · simp only [Except.ok.injEq] at h
          subst h
          simp
        · simp only [Except.ok.injEq] at h
          subst h
          simp)

/-- C10 (key construction). For an exchange built by `Partition(c0, ..., c(k-1))`,
with whatever encoder table and ring `init` gives it, and every row of a dataset:
the string column read at step `i` of `getRowHash` is the one of the configured
column `ci`, the key hashed for the row is the concatenation, in the configured
order, of the string forms of the values of `c0, ..., c(k-1)` at that row, and the
endpoint stored for the row is what the ring returns for that key. -/
theorem C10_key_construction (uid : String) (columns : List Int)
    (encs : List (String × encoder)) (ring : Consistent) (data : Dataset) (row : Nat)
    (hrow : row < data.rows.length) :
    (∀ i (hi : i < columns.length),
      (ColumnStringsPartial data
          ({ Partition uid columns with encsByKey := encs, hashRing := ring }).PartitionCols)[i]? =
        some (data.rows.map (fun r => r.str columns[i]))) ∧
    rowKey { Partition uid columns with encsByKey := encs, hashRing := ring } data row =
      some (specKey columns data.rows[row]) ∧
    ∀ dwe d,
      (addEndpointsToData { Partition uid columns with encsByKey := encs, hashRing := ring }
        data).1 = Ret.ok dwe →
      dwe.endpoints[row]? = some d →
      ring.Get (specKey columns data.rows[row]) = Except.ok d := by
  have hkey : rowKey { Partition uid columns with encsByKey := encs, hashRing := ring } data row =
      some (specKey columns data.rows[row]) := by
    rw [rowKey_eq _ data row hrow (by simp [Partition])]
    simp [Partition, specKey]
  refine ⟨fun i hi => ?_, hkey, fun dwe d hdwe hd => ?_⟩
  · simp [ColumnStringsPartial, Partition, List.getElem?_eq_getElem hi]
  · obtain ⟨_, _, hrows⟩ := addEndpointsToData_ok _ data dwe hdwe
    obtain ⟨key, d', e1, e2, e3⟩ := hrows row hrow
    rw [hkey, Option.some.injEq] at e1
    subst e1
    rw [hd, Option.some.injEq] at e3
    subst e3
    exact e2

/-- Witness of C10: partitioning on columns 1 then 0, the key of the second demo row
is its second cell followed by its first. -/
theorem C10_key_construction_witness :
    (∀ i (hi : i < [(1 : Int), 0].length),
      (ColumnStringsPartial demoData
          ({ Partition "uid-3" [1, 0] with
            encsByKey := demoExchange.encsByKey, hashRing := demoRing }).PartitionCols)[i]? =
        some (demoData.rows.map (fun r => r.str ([(1 : Int), 0].get ⟨i, hi⟩)))) ∧
    rowKey { Partition "uid-3" [1, 0] with
        encsByKey := demoExchange.encsByKey, hashRing := demoRing } demoData 1 =
      some "2bob" ∧
    ∀ dwe d,
      (addEndpointsToData { Partition "uid-3" [1, 0] with
        encsByKey := demoExchange.encsByKey, hashRing := demoRing } demoData).1 = Ret.ok dwe →
      dwe.endpoints[1]? = some d →
      demoRing.Get "2bob" = Except.ok d :=
  C10_key_construction "uid-3" [1, 0] demoExchange.encsByKey demoRing demoData 1 (by decide)

/-- C17 (shape of what `Partition` builds). For every list of column indices,
`Partition` returns an exchange of type `partition`, whose `PartitionCols` are the
columns given, and whose `SortingCols` have the same length and carry, index by
index, the columns given. -/
theorem C17_partition_shape (uid : String) (columns : List Int) :
    (Partition uid columns).«Type» = exchangeType.partition ∧
    (Partition uid columns).PartitionCols = columns ∧
    (Partition uid columns).SortingCols.length = columns.length ∧
    (Partition uid columns).SortingCols.length = (Partition uid columns).PartitionCols.length ∧
    (∀ (i : Nat) (c : Int), columns[i]? = some c →
      (Partition uid columns).SortingCols[i]? = some (SortingCol.mk c)) ∧
    (Partition uid columns).SortingCols.map SortingCol.Index = columns := by
  have hget : ∀ (i : Nat) (c : Int), columns[i]? = some c →
      (Partition uid columns).SortingCols[i]? = some (SortingCol.mk c) := by
    intro i c hc
    have hi : i < columns.length := (List.getElem?_eq_some.mp hc).1
    simp only [Partition, List.getElem?_map, List.getElem?_range hi, Option.map_some',
      Option.some.injEq, SortingCol.mk.injEq]
    rw [List.getD_eq_getElem?_getD, hc]
    rfl
  refine ⟨rfl, rfl, Partition_SortingCols_length uid columns,
    Partition_SortingCols_length uid columns, hget, ?_⟩
  apply List.ext_getElem?
  intro i
  rw [List.getElem?_map]
  by_cases hi : i < columns.length
  · rw [hget i columns[i] (List.getElem?_eq_getElem hi), List.getElem?_eq_getElem hi]
    rfl
  · rw [List.getElem?_eq_none (by rw [Partition_SortingCols_length]; omega),
      List.getElem?_eq_none (by omega)]
    rfl

/-- C13 (empty dataset), as the code has it: on a dataset without rows
`encodePartition` does not return `nil`; it panics on reading `endpoints[0]`, index 0
being outside the empty array, after an empty ring stage and before any `Slice` or
`Encode` call. For a dataset that passes the ring stage the call panics exactly when
the dataset has no rows, so with at least one row every index used is inside the
array. -/
theorem C13_empty_dataset_panics (ex : exchange) (sorter : Sorter) :
    ((encodePartition ex sorter (GoValue.dataset ⟨[]⟩)).status = Status.panicked ∧
      (encodePartition ex sorter (GoValue.dataset ⟨[]⟩)).lookups = [] ∧
      (encodePartition ex sorter (GoValue.dataset ⟨[]⟩)).slices = [] ∧
      (encodePartition ex sorter (GoValue.dataset ⟨[]⟩)).encodes = []) ∧
    ∀ data dwe, (addEndpointsToData ex data).1 = Ret.ok dwe →
      ((encodePartition ex sorter (GoValue.dataset data)).status = Status.panicked ↔
        data.Len = 0) := by
  have hempty : addEndpointsToData ex ⟨[]⟩ = (Ret.ok ⟨⟨[]⟩, []⟩, []) := by
    simp [addEndpointsToData, Dataset.Len, addEndpointsLoop]
  refine ⟨?_, fun data dwe hdwe => ⟨fun hst => ?_, fun hn => ?_⟩⟩
  · obtain ⟨h1, h2, h3⟩ := encodePartition_noRows ex sorter ⟨[]⟩ ⟨⟨[]⟩, []⟩
      (by rw [hempty]) rfl
    refine ⟨h1, ?_, h2, h3⟩
    simp [encodePartition, hempty, sortSort_endpoints_eq]
    split <;> rfl
  · by_contra hne
    exact encodePartition_no_panic ex sorter data dwe hdwe (by omega) hst
  · exact (encodePartition_noRows ex sorter data dwe hdwe hn).1

/-- C16 (partition with no columns). For an exchange built by `Partition()` without
columns, with whatever encoder table and ring `init` gives it: the key of every row
is the empty string; and on a dataset of `n ≥ 1` rows, the ring returning `d` for the
empty key and `encsByKey` holding an encoder for `d`, `encodePartition` slices once,
over `[0, n)`, and makes exactly one `Encode` call, to that encoder, carrying the
whole (permuted) dataset; what that call answers is what `encodePartition` returns. -/
theorem C16_no_columns (uid : String) (encs : List (String × encoder)) (ring : Consistent)
    (sorter : Sorter) (data : Dataset) (d : String) (enc : encoder) (hn : 1 ≤ data.Len)
    (hget : ring.Get "" = Except.ok d) (hl : encs.lookup d = some enc) :
    (∀ row, rowKey { Partition uid [] with encsByKey := encs, hashRing := ring } data row =
      some "") ∧
    ∃ after,
      (encodePartition { Partition uid [] with encsByKey := encs, hashRing := ring } sorter
        (GoValue.dataset data)).arg = GoValue.dataset after ∧
      after.rows.Perm data.rows ∧ after.Slice 0 data.Len = after ∧
      (encodePartition { Partition uid [] with encsByKey := encs, hashRing := ring } sorter
        (GoValue.dataset data)).slices = [(0, data.Len)] ∧
      (encodePartition { Partition uid [] with encsByKey := encs, hashRing := ring } sorter
        (GoValue.dataset data)).encodes =
          [⟨0, data.Len, d, after.Slice 0 data.Len, enc.Encode [] (after.Slice 0 data.Len)⟩] ∧
      (encodePartition { Partition uid [] with encsByKey := encs, hashRing := ring } sorter
        (GoValue.dataset data)).status =
          Status.returned ((enc.Encode [] (after.Slice 0 data.Len)).map GoError.external) := by
  have hkey : ∀ row, rowKey { Partition uid [] with encsByKey := encs, hashRing := ring }
      data row = some "" := fun row => rfl
  refine ⟨hkey, ?_⟩
  generalize hex : ({ Partition uid [] with encsByKey := encs, hashRing := ring } : exchange) = ex
    at hkey ⊢
  have hexl : ex.encsByKey = encs := by rw [← hex]
  have hexr : ex.hashRing = ring := by rw [← hex]
  have hring : RingResolves ex data := fun i _ => ⟨"", d, hkey i, by rw [hexr]; exact hget⟩
  obtain ⟨dwe, hdwe⟩ := addEndpointsToData_total ex data hring
  obtain ⟨hdata, hlen, hrows⟩ := addEndpointsToData_ok ex data dwe hdwe
  obtain ⟨harg, _, hpost⟩ := encodePartition_sorted ex sorter data dwe hdwe hn
  have hslen : (sortSort sorter dwe).endpoints.length = data.Len := by
    rw [sortSort_endpoints_length, hlen]
  have hall : ∀ i, i < (sortSort sorter dwe).endpoints.length →
      (sortSort sorter dwe).endpoints[i]? = some d := by
    intro i hi
    have hmem := (sortSort_endpoints_perm sorter dwe).subset (List.getElem_mem hi)
    obtain ⟨k, hk⟩ := List.getElem?_of_mem hmem
    have hklt : k < data.Len := hlen ▸ (List.getElem?_eq_some.mp hk).1
    obtain ⟨key, d', e1, e2, e3⟩ := hrows k hklt
    rw [hkey k, Option.some.injEq] at e1
    subst e1
    rw [hexr, hget, Except.ok.injEq] at e2
    subst e2
    rw [List.getElem?_eq_getElem hi, ← hk]
    exact e3
  have hwhole : (sortSort sorter dwe).data.Slice 0 data.Len = (sortSort sorter dwe).data := by
    have : (sortSort sorter dwe).data.rows.length = data.Len := by
      rw [sortSort_rows_length, hdata]
      rfl
    simp only [Dataset.Slice, List.drop_zero]
    rw [← this, List.take_length]
  have hperm : (sortSort sorter dwe).data.rows.Perm data.rows := by
    have := sortSort_rows_perm sorter dwe
    rwa [hdata] at this
  have hfinish : ∀ (slices : List (Nat × Nat)) (encodes : List Sent) (b : Nat),
      RunChain (sortSort sorter dwe).endpoints 0 slices b →
      Sends ex (sortSort sorter dwe) slices encodes → slices ≠ [] →
      slices = [(0, data.Len)] ∧
        encodes = [⟨0, data.Len, d, (sortSort sorter dwe).data.Slice 0 data.Len,
          enc.Encode [] ((sortSort sorter dwe).data.Slice 0 data.Len)⟩] := by
    intro slices encodes b hchain hsends hne
    obtain ⟨hsl, _⟩ := RunChain_const _ d hall slices 0 b hchain hne
    rw [hslen] at hsl
    subst hsl
    obtain ⟨m, hm, h1, h2, h3, h4, enc', h5, h6⟩ := Sends_single ex _ _ _ hsends
    simp only at h1 h2 h3 h4
    rw [hall 0 (by omega), Option.some.injEq] at h3
    refine ⟨rfl, ?_⟩
    rw [hm]
    rw [← h3, hexl, hl, Option.some.injEq] at h5
    subst h5
    rw [h4] at h6
    cases m
    simp only at h1 h2 h3 h4 h6
    subst h1 h2 h3 h4 h6
    rfl
  refine ⟨(sortSort sorter dwe).data, harg, hperm, hwhole, ?_⟩
  obtain ⟨b, hchain, hcases⟩ := hpost
  rcases hcases with ⟨hst, hb, hs, herr⟩ | ⟨_, ps, lo, hi, d', hsl, _, _, hd', hl'⟩ |
    ⟨e, ms, m, hst, henc, hm, _, hs⟩
  · have hne : (encodePartition ex sorter (GoValue.dataset data)).slices ≠ [] := by
      intro hnil
      rw [hnil] at hchain
      simp only [RunChain] at hchain
      omega
    obtain ⟨k1, k2⟩ := hfinish _ _ b hchain hs hne
    refine ⟨k1, k2, ?_⟩
    have := herr _ (by rw [k2]; exact List.mem_singleton.mpr rfl)
    simp only at this
    rw [hst, this]
    rfl
  · exfalso
    have hrun := RunChain_isRun _ _ _ _ hchain (lo, hi) (by rw [hsl]; simp)
    have hlo : lo < (sortSort sorter dwe).endpoints.length := by
      have := hrun.1
      have := hrun.2.1
      simp only at *
      omega
    rw [hall lo hlo, Option.some.injEq] at hd'
    subst hd'
    rw [hexl, hl] at hl'
    simp at hl'
  · have hne : (encodePartition ex sorter (GoValue.dataset data)).slices ≠ [] := by
      intro hnil
      have := hs.1
      rw [hnil, henc] at this
      simp at this
    obtain ⟨k1, k2⟩ := hfinish _ _ b hchain hs hne
    refine ⟨k1, k2, ?_⟩
    rw [k2] at henc
    have hm' : m = ⟨0, data.Len, d, (sortSort sorter dwe).data.Slice 0 data.Len,
        enc.Encode [] ((sortSort sorter dwe).data.Slice 0 data.Len)⟩ := by
      cases ms with
      | nil =>
        simp only [List.nil_append, List.cons.injEq, and_true] at henc
        exact henc.symm
      | cons x xs =>
        have := congrArg List.length henc
        simp at this
    rw [hm'] at hm
    simp only at hm
    rw [hst, hm]
    rfl

/-- Witness of C16: without columns, the five demo rows all go to the node the demo
ring gives for the empty key. -/
theorem C16_no_columns_witness :
    (∀ row, rowKey { Partition "uid-4" [] with
        encsByKey := demoExchange.encsByKey, hashRing := demoRing } demoData row = some "") ∧
    ∃ after,
      (encodePartition { Partition "uid-4" [] with
          encsByKey := demoExchange.encsByKey, hashRing := demoRing } insertionSorter
        (GoValue.dataset demoData)).arg = GoValue.dataset after ∧
      after.rows.Perm demoData.rows ∧ after.Slice 0 demoData.Len = after ∧
      (encodePartition { Partition "uid-4" [] with
          encsByKey := demoExchange.encsByKey, hashRing := demoRing } insertionSorter
        (GoValue.dataset demoData)).slices = [(0, demoData.Len)] ∧
      (encodePartition { Partition "uid-4" [] with
          encsByKey := demoExchange.encsByKey, hashRing := demoRing } insertionSorter
        (GoValue.dataset demoData)).encodes =
          [⟨0, demoData.Len, ":5551", after.Slice 0 demoData.Len,
            okEncoder.Encode [] (after.Slice 0 demoData.Len)⟩] ∧
      (encodePartition { Partition "uid-4" [] with
          encsByKey := demoExchange.encsByKey, hashRing := demoRing } insertionSorter
        (GoValue.dataset demoData)).status =
          Status.returned ((okEncoder.Encode [] (after.Slice 0 demoData.Len)).map
            GoError.external) :=
  C16_no_columns "uid-4" demoExchange.encsByKey demoRing insertionSorter demoData ":5551"
    okEncoder (by decide) rfl rfl

/-- C14 (in-place grouping). For a dataset whose ring lookups all succeed, with Go's
`sort.Sort` as the sort step (whatever its pseudo-random generator): after the call
the caller's dataset is the input with the `Swap` calls of the sort applied to it,
nothing else; it has the same length and is a permutation of the input rows; and
there is one destination per position, in non-decreasing string order, which is the
endpoint the ring returned for the key of the row now there. The order among the
rows of one destination is not always their input order: of the thirteen rows of
`tiedData`, the first eleven share a destination, and they come out in another order
than they went in. -/
theorem C14_in_place_grouping (ex : exchange) (next : Nat → Nat) (data : Dataset)
    (hring : RingResolves ex data) :
    (∃ (after : Dataset) (dests : List String),
      (encodePartition ex (goSort next) (GoValue.dataset data)).arg = GoValue.dataset after ∧
      after = (encodePartition ex (goSort next) (GoValue.dataset data)).swaps.foldl
        (fun acc p => acc.Swap p.1 p.2) data ∧
      after.Len = data.Len ∧ after.rows.Perm data.rows ∧
      dests.length = data.Len ∧ dests.Pairwise notAfter ∧
      ∀ (i : Nat) (r : Row) (d : String), after.rows[i]? = some r → dests[i]? = some d →
        ∃ k key, data.rows[k]? = some r ∧ rowKey ex data k = some key ∧
          ex.hashRing.Get key = Except.ok d) ∧
    (RingResolves demoExchange tiedData ∧
      (∀ k, k < 11 → ∃ key, rowKey demoExchange tiedData k = some key ∧
        demoExchange.hashRing.Get key = Except.ok ":5552") ∧
      tiedData.rows =
        [⟨["bob", "1"]⟩, ⟨["bob", "2"]⟩, ⟨["bob", "3"]⟩, ⟨["bob", "4"]⟩, ⟨["bob", "5"]⟩,
          ⟨["bob", "6"]⟩, ⟨["bob", "7"]⟩, ⟨["bob", "8"]⟩, ⟨["bob", "9"]⟩, ⟨["bob", "10"]⟩,
          ⟨["bob", "11"]⟩, ⟨["cid", "12"]⟩, ⟨["cid", "13"]⟩] ∧
      (encodePartition demoExchange (goSort next) (GoValue.dataset tiedData)).swaps =
        [(0, 6), (1, 12), (2, 11), (2, 0)] ∧
      (encodePartition demoExchange (goSort next) (GoValue.dataset tiedData)).arg =
        GoValue.dataset
          ⟨[⟨["cid", "12"]⟩, ⟨["cid", "13"]⟩, ⟨["bob", "7"]⟩, ⟨["bob", "4"]⟩, ⟨["bob", "5"]⟩,
            ⟨["bob", "6"]⟩, ⟨["bob", "1"]⟩, ⟨["bob", "8"]⟩, ⟨["bob", "9"]⟩, ⟨["bob", "10"]⟩,
            ⟨["bob", "11"]⟩, ⟨["bob", "3"]⟩, ⟨["bob", "2"]⟩]⟩) := by
  constructor
  · obtain ⟨dwe, hdwe⟩ := addEndpointsToData_total ex data hring
    obtain ⟨hdata, hlen, _⟩ := addEndpointsToData_ok ex data dwe hdwe
    obtain ⟨harg, hswaps⟩ := encodePartition_arg ex (goSort next) data dwe hdwe
    have hperm : (sortSort (goSort next) dwe).data.rows.Perm data.rows := by
      have := sortSort_rows_perm (goSort next) dwe
      rwa [hdata] at this
    refine ⟨(sortSort (goSort next) dwe).data, (sortSort (goSort next) dwe).endpoints, harg, ?_,
      hperm.length_eq, hperm, by rw [sortSort_endpoints_length, hlen],
      SortContract_pairwise (goSort next) dwe (goSort_contract next dwe),
      fun i r d hr hd => sortSort_aligned ex (goSort next) data dwe hdwe i r d hr hd⟩
    rw [hswaps, sortSort_data_eq, hdata]
  · have hdwe : (addEndpointsToData demoExchange tiedData).1 =
        Ret.ok ⟨tiedData, [":5552", ":5552", ":5552", ":5552", ":5552", ":5552", ":5552",
          ":5552", ":5552", ":5552", ":5552", ":5551", ":5551"]⟩ := by decide
    obtain ⟨harg, hswaps⟩ := encodePartition_arg demoExchange (goSort next) tiedData _ hdwe
    simp only [goSort_tied] at hswaps
    refine ⟨tied_resolves, fun k hk => ?_, rfl, hswaps, ?_⟩
    · interval_cases k <;> exact ⟨"bob", by decide, rfl⟩
    · rw [harg]
      simp only [sortSort, goSort_tied]
      decide

/-- Witness of C14 on the five rows of the demo data: the ring resolves every row, and
Go's `sort.Sort` leaves the rows grouped by destination in ascending order of the
destinations, a permutation of the rows that went in. -/
theorem C14_in_place_grouping_witness :
    RingResolves demoExchange demoData ∧
      ∃ (after : Dataset) (dests : List String),
        (encodePartition demoExchange (goSort (fun r => r)) (GoValue.dataset demoData)).arg =
          GoValue.dataset after ∧
        after.rows =
          [⟨["cid", "3"]⟩, ⟨["bob", "2"]⟩, ⟨["dan", "4"]⟩, ⟨["ann", "1"]⟩, ⟨["eve", "5"]⟩] ∧
        after.rows.Perm demoData.rows ∧ dests.length = 5 ∧ dests.Pairwise notAfter ∧
        ∀ (i : Nat) (r : Row) (d : String), after.rows[i]? = some r → dests[i]? = some d →
          ∃ k key, demoData.rows[k]? = some r ∧ rowKey demoExchange demoData k = some key ∧
            demoExchange.hashRing.Get key = Except.ok d := by
  obtain ⟨⟨after, dests, h1, h2, _, h4, h5, h6, h7⟩, _⟩ :=
    C14_in_place_grouping demoExchange (fun r => r) demoData demo_resolves
  refine ⟨demo_resolves, after, dests, h1, ?_, h4, h5, h6, h7⟩
  rw [h2]
  decide

/-- C15 (a failure after the ring stage is not atomic). For a dataset of `n ≥ 1`
rows whose ring lookups all succeed, if `encodePartition` returns an error, then the
error arose at the last run sliced, the run number `j`: the `Encode` calls that
answered `nil` are exactly those of the `j - 1` runs sliced before it, one each and
in order, each carrying the slice of its run to the destination of the run; the
error is either "no matching node found", with no `Encode` call for run `j`, or the
error of the `Encode` call for run `j`, the last call made; the dataset stays as the
sort left it; and under the contract of `sort.Sort` the destinations of the calls
are in ascending order. Such a failure after a delivery exists: with a broken
connection to the second node of the demo cluster, the row of the first node is
delivered and the call returns the error of the second message. -/
theorem C15_failure_not_atomic (ex : exchange) (sorter : Sorter) (data : Dataset)
    (e : GoError) (hn : 1 ≤ data.Len) (hring : RingResolves ex data)
    (hfail : (encodePartition ex sorter (GoValue.dataset data)).status =
      Status.returned (some e)) :
    (∃ dwe ps lo hi, (addEndpointsToData ex data).1 = Ret.ok dwe ∧
      (encodePartition ex sorter (GoValue.dataset data)).slices = ps ++ [(lo, hi)] ∧
      (∀ p ∈ (encodePartition ex sorter (GoValue.dataset data)).slices,
        IsRun (sortSort sorter dwe).endpoints p.1 p.2) ∧
      ((encodePartition ex sorter (GoValue.dataset data)).encodes.filter
        (fun m => m.err.isNone)).map (fun m => (m.lo, m.hi)) = ps ∧
      (∀ m ∈ (encodePartition ex sorter (GoValue.dataset data)).encodes,
        (sortSort sorter dwe).endpoints[m.lo]? = some m.dest ∧
        m.payload = (sortSort sorter dwe).data.Slice m.lo m.hi) ∧
      ((e = GoError.errorf "no matching node found" ∧
          (encodePartition ex sorter (GoValue.dataset data)).encodes.map
            (fun m => (m.lo, m.hi)) = ps ∧
          ∀ m ∈ (encodePartition ex sorter (GoValue.dataset data)).encodes, m.err = none) ∨
        ∃ msg ms m, e = GoError.external msg ∧
          (encodePartition ex sorter (GoValue.dataset data)).encodes = ms ++ [m] ∧
          m.err = some msg ∧ (m.lo, m.hi) = (lo, hi) ∧ ∀ m' ∈ ms, m'.err = none) ∧
      (encodePartition ex sorter (GoValue.dataset data)).arg =
        GoValue.dataset (sortSort sorter dwe).data ∧
      (SortContract sorter dwe → List.Pairwise (fun a b => stringLess a b = true)
        ((encodePartition ex sorter (GoValue.dataset data)).encodes.map Sent.dest))) ∧
    ((encodePartition brokenExchange insertionSorter (GoValue.dataset demoData)).status =
        Status.returned (some (GoError.external "broken pipe")) ∧
      (⟨0, 1, ":5551", ⟨[⟨["cid", "3"]⟩]⟩, none⟩ : Sent) ∈
        (encodePartition brokenExchange insertionSorter (GoValue.dataset demoData)).encodes) := by
  refine ⟨?_, by decide, by decide⟩
  obtain ⟨dwe, hdwe⟩ := addEndpointsToData_total ex data hring
  obtain ⟨harg, _, hpost⟩ := encodePartition_sorted ex sorter data dwe hdwe hn
  have hruns := (LoopPost_sends ex _ _ _ _ hpost).2
  have hmsg : ∀ m ∈ (encodePartition ex sorter (GoValue.dataset data)).encodes,
      (sortSort sorter dwe).endpoints[m.lo]? = some m.dest ∧
      m.payload = (sortSort sorter dwe).data.Slice m.lo m.hi := fun m hm =>
    ⟨(LoopPost_message ex _ _ _ _ hpost m hm).2.2.1,
      (LoopPost_message ex _ _ _ _ hpost m hm).2.2.2.1⟩
  have hasc := LoopPost_dest_pairwise ex sorter dwe _ _ _ hpost
  obtain ⟨b, _, hcases⟩ := hpost
  rcases hcases with ⟨hst, _⟩ | ⟨hst, ps, lo, hi, d, hsl, hs, hall, _, _⟩ |
    ⟨msg, ms, m, hst, henc, hm, hall, hs⟩
  · rw [hst] at hfail
    simp at hfail
  · have he : e = GoError.errorf "no matching node found" := by
      rw [hst] at hfail
      simp only [Status.returned.injEq, Option.some.injEq] at hfail
      exact hfail.symm
    have hr := (Sends_ranges ex _ _ _ hs).1
    refine ⟨dwe, ps, lo, hi, hdwe, hsl, hruns, ?_, hmsg, Or.inl ⟨he, hr, hall⟩, harg, hasc⟩
    rw [List.filter_eq_self.mpr (fun m hm => by rw [hall m hm]; rfl)]
    exact hr
  · have he : e = GoError.external msg := by
      rw [hst] at hfail
      simp only [Status.returned.injEq, Option.some.injEq] at hfail
      exact hfail.symm
    have hr := (Sends_ranges ex _ _ _ hs).1
    rw [henc, List.map_append, List.map_singleton] at hr
    refine ⟨dwe, ms.map (fun m => (m.lo, m.hi)), m.lo, m.hi, hdwe, hr.symm, hruns, ?_, hmsg,
      Or.inr ⟨msg, ms, m, he, henc, hm, rfl, hall⟩, harg, hasc⟩
    rw [henc, List.filter_append, List.filter_eq_self.mpr (fun m' hm' => by rw [hall m' hm']; rfl)]
    have : List.filter (fun m => m.err.isNone) [m] = [] := by
      simp [List.filter, hm]
    rw [this, List.append_nil]

/-- Witness of C15: the third node of the demo cluster has no encoder; the rows of
the first two nodes are delivered and the call fails on the third run. -/
theorem C15_failure_not_atomic_witness :
    (∃ dwe ps lo hi, (addEndpointsToData lackingExchange demoData).1 = Ret.ok dwe ∧
      (encodePartition lackingExchange insertionSorter (GoValue.dataset demoData)).slices =
        ps ++ [(lo, hi)] ∧
      (∀ p ∈ (encodePartition lackingExchange insertionSorter
          (GoValue.dataset demoData)).slices,
        IsRun (sortSort insertionSorter dwe).endpoints p.1 p.2) ∧
      ((encodePartition lackingExchange insertionSorter
          (GoValue.dataset demoData)).encodes.filter
        (fun m => m.err.isNone)).map (fun m => (m.lo, m.hi)) = ps ∧
      (∀ m ∈ (encodePartition lackingExchange insertionSorter
          (GoValue.dataset demoData)).encodes,
        (sortSort insertionSorter dwe).endpoints[m.lo]? = some m.dest ∧
        m.payload = (sortSort insertionSorter dwe).data.Slice m.lo m.hi) ∧
      ((GoError.errorf "no matching node found" = GoError.errorf "no matching node found" ∧
          (encodePartition lackingExchange insertionSorter
            (GoValue.dataset demoData)).encodes.map (fun m => (m.lo, m.hi)) = ps ∧
          ∀ m ∈ (encodePartition lackingExchange insertionSorter
            (GoValue.dataset demoData)).encodes, m.err = none) ∨
        ∃ msg ms m, GoError.errorf "no matching node found" = GoError.external msg ∧
          (encodePartition lackingExchange insertionSorter
            (GoValue.dataset demoData)).encodes = ms ++ [m] ∧
          m.err = some msg ∧ (m.lo, m.hi) = (lo, hi) ∧ ∀ m' ∈ ms, m'.err = none) ∧
      (encodePartition lackingExchange insertionSorter (GoValue.dataset demoData)).arg =
        GoValue.dataset (sortSort insertionSorter dwe).data ∧
      (SortContract insertionSorter dwe → List.Pairwise (fun a b => stringLess a b = true)
        ((encodePartition lackingExchange insertionSorter
          (GoValue.dataset demoData)).encodes.map Sent.dest))) ∧
    ((encodePartition brokenExchange insertionSorter (GoValue.dataset demoData)).status =
        Status.returned (some (GoError.external "broken pipe")) ∧
      (⟨0, 1, ":5551", ⟨[⟨["cid", "3"]⟩]⟩, none⟩ : Sent) ∈
        (encodePartition brokenExchange insertionSorter (GoValue.dataset demoData)).encodes) :=
  C15_failure_not_atomic lackingExchange insertionSorter demoData
    (GoError.errorf "no matching node found") (by decide) lacking_resolves (by decide)

/-- C11 (topology coverage). For every kind of exchange, every node list, every
master, every node and both values of the boolean: the targets and the rest returned
by `getTargetPeers` have as many entries, together, as the node list, and so have
the sources and the rest returned by `getSourcePeers`; in both cases the two lists
together are the node list up to order. -/
theorem C11_topology_coverage (ex : exchange) (allNodes : List String)
    (masterNode thisNode : String) (isMaster : Bool) :
    (getTargetPeers ex allNodes masterNode thisNode).1.length +
        (getTargetPeers ex allNodes masterNode thisNode).2.length = allNodes.length ∧
    (getSourcePeers ex allNodes masterNode isMaster).1.length +
        (getSourcePeers ex allNodes masterNode isMaster).2.length = allNodes.length ∧
    ((getTargetPeers ex allNodes masterNode thisNode).1 ++
        (getTargetPeers ex allNodes masterNode thisNode).2).Perm allNodes ∧
    ((getSourcePeers ex allNodes masterNode isMaster).1 ++
        (getSourcePeers ex allNodes masterNode isMaster).2).Perm allNodes := by
  have hpart : ∀ (p : String → Bool), ((allNodes.partition p).1 ++
      (allNodes.partition p).2).Perm allNodes := by
    intro p
    rw [List.partition_eq_filter_filter]
    exact List.filter_append_perm p allNodes
  have htargets : ((getTargetPeers ex allNodes masterNode thisNode).1 ++
      (getTargetPeers ex allNodes masterNode thisNode).2).Perm allNodes := by
    unfold getTargetPeers
    cases ex.«Type»
    · exact hpart _
    · exact hpart _
    · by_cases h : thisNode = masterNode <;> simp [h]
    · by_cases h : thisNode = masterNode <;> simp [h]
    · simp
  have hsources : ((getSourcePeers ex allNodes masterNode isMaster).1 ++
      (getSourcePeers ex allNodes masterNode isMaster).2).Perm allNodes := by
    unfold getSourcePeers
    cases ex.«Type»
    · cases isMaster <;> simp
    · cases isMaster <;> simp
    · exact hpart _
    · exact hpart _
    · simp
  refine ⟨?_, ?_, htargets, hsources⟩
  · rw [← List.length_append]
    exact htargets.length_eq
  · rw [← List.length_append]
    exact hsources.length_eq

/-- C12 (pipeline flattening). For every nested application of `Pipeline` to exchange
stages and pass-through stages, with `L` the leaves that are not pass-through, in
order: no element of `L` is a sequence; with two leaves or more the result is the
sequence of exactly the stages `L`; with one leaf it is that stage itself, not a
sequence; with none it is the pass-through instance, not a sequence. The two nestings
of the repository's tests give sequences of five and of three stages. -/
theorem C12_pipeline_flattening (args : PipelineArgs) :
    (∀ r ∈ args.leaves, r.isPipeline = false ∧ r.isPassThrough = false) ∧
    (2 ≤ args.leaves.length →
      Pipeline args.eval = Runner.pipeline args.leaves ∧
      ∃ stages, Pipeline args.eval = Runner.pipeline stages ∧
        stages.length = args.leaves.length ∧ ∀ r ∈ stages, r.isPipeline = false) ∧
    (∀ r, args.leaves = [r] →
      Pipeline args.eval = r ∧ (Pipeline args.eval).isPipeline = false) ∧
    (args.leaves = [] →
      Pipeline args.eval = Runner.passThrough ∧ (Pipeline args.eval).isPipeline = false) ∧
    Pipeline [Pipeline [Runner.exchange "g" exchangeType.gather,
          Runner.exchange "s1" exchangeType.scatter],
        Pipeline [Runner.exchange "s2" exchangeType.scatter,
          Pipeline [Runner.exchange "s3" exchangeType.scatter,
            Runner.exchange "s4" exchangeType.scatter]]] =
      Runner.pipeline [Runner.exchange "g" exchangeType.gather,
        Runner.exchange "s1" exchangeType.scatter, Runner.exchange "s2" exchangeType.scatter,
        Runner.exchange "s3" exchangeType.scatter, Runner.exchange "s4" exchangeType.scatter] ∧
    Pipeline [Pipeline [Runner.exchange "g" exchangeType.gather, Runner.passThrough],
        Pipeline [Runner.exchange "s2" exchangeType.scatter,
          Pipeline [Runner.passThrough, Runner.exchange "s4" exchangeType.scatter]]] =
      Runner.pipeline [Runner.exchange "g" exchangeType.gather,
        Runner.exchange "s2" exchangeType.scatter, Runner.exchange "s4" exchangeType.scatter] := by
  have hex := PipelineArgs.leaves_exchange args
  have hleaf : ∀ r ∈ args.leaves, r.isPipeline = false ∧ r.isPassThrough = false := by
    intro r hr
    obtain ⟨uid, kind, rfl⟩ := hex r hr
    exact ⟨rfl, rfl⟩
  have hres := Pipeline_of_flat args.eval args.leaves (PipelineArgs.flat_eq_leaves args) hex
  refine ⟨hleaf, fun h2 => ?_, fun r hr => ?_, fun hnil => ?_, rfl, rfl⟩
  · have hp : Pipeline args.eval = Runner.pipeline args.leaves := by
      rw [hres]
      generalize args.leaves = l at h2
      cases l with
      | nil => simp at h2
      | cons r t =>
        cases t with
        | nil => simp at h2
        | cons r' rest => rfl
    exact ⟨hp, args.leaves, hp, rfl, fun r hr => (hleaf r hr).1⟩
  · rw [hres, hr]
    exact ⟨rfl, (hleaf r (by rw [hr]; simp)).1⟩
  · rw [hres, hnil]
    exact ⟨rfl, rfl⟩

end Ep
